import Mathlib

/-!
# shanhuio/misc: option lines, the JSONx stream decoder and the HTTP client

A shallow embedding of three packages of the repository:

* `optline` (`optline/parse.go`): `tokStr`, `lexLine`, `Parse`;
* `jsonx` (`jsonx/decoder.go`): `Decoder.More`, `Decoder.Decode`, `Unmarshal`;
* `httputil` (`httputil/client.go`, `httputil/token.go`): `SetAuthToken`,
  `Client.addAuth`, `Client.req`, `Client.reqJSON` and the operations `Put`,
  `Get`, `GetCode`, `Poke`, `Delete`, `Post`, `JSONGet`, `JSONCall`.

Text is a list of code points (`List Char`).  A Go reference that may be nil is
an `Option`, written `Nilable`; a Go panic is the `Except.error` case of
`Except String`.

The packages `shanhu.io/text/lexing` and `strconv` are not part of the
repository. They are modelled in the namespaces `lexing` and `strconv` below,
each definition saying what it stands for.
-/

/-- Go reference that may be nil: `none` is nil. -/
abbrev Nilable (α : Type) := Option α

/-- The double quote, U+0022. -/
def dquote : Char := Char.ofNat 34

/-- The backquote, U+0060. -/
def backquote : Char := Char.ofNat 96

/-- The backslash, U+005C. -/
def backslash : Char := Char.ofNat 92

/-- The single quote, U+0027. -/
def squote : Char := Char.ofNat 39

/-! ## The lexing toolkit (`shanhu.io/text/lexing`) -/

namespace lexing

/-- Modelled from the spec: the token kind "end-of-input", `lexing.EOF`. -/
def EOF : Int := -1

/-- Modelled from the spec: the token kind of a comment, `lexing.Comment`. -/
def Comment : Int := -2

/-- Modelled from the spec: the token kind "illegal", `lexing.Illegal`. -/
def Illegal : Int := -3

/-- Modelled from the spec: a token is a symbolic kind, its literal text and its
source position. The position is the offset, in code points, of the first
character of the literal. -/
structure Token where
  Typ : Int
  Lit : List Char
  Pos : Nat
deriving DecidableEq, Repr

/-- Modelled from the spec: a lex or parse error is a source position and a
human-readable message. The position is nil in an error that wraps a plain Go
error. -/
structure Error where
  Pos : Nilable Nat
  Msg : String
deriving DecidableEq, Repr

/-- Modelled from the spec: `lexing.SingleErr`, the list of the one error that
wraps `err`. -/
def SingleErr (err : String) : List Error := [{ Pos := none, Msg := err }]

/-- Modelled from the spec: `lexing.IsWhite`, blank, tab and carriage return. -/
def IsWhite (r : Char) : Bool := r = ' ' || r = '\t' || r = '\r'

/-- Modelled from the spec: `lexing.IsWhiteOrEndl`, whitespace and line-ending
characters. -/
def IsWhiteOrEndl (r : Char) : Bool := IsWhite r || r = '\n'

/-- Modelled from the spec: `lexing.IsDigit`, a decimal digit. -/
def IsDigit (r : Char) : Bool := decide ('0' ≤ r) && decide (r ≤ '9')

/-- Modelled from the spec: `lexing.IsIdentLetter`, a letter or an underscore,
the characters that may lead an identifier. -/
def IsIdentLetter (r : Char) : Bool :=
  (decide ('a' ≤ r) && decide (r ≤ 'z')) || (decide ('A' ≤ r) && decide (r ≤ 'Z')) || r = '_'

/-- Modelled from the spec: the scanning state of `lexing.Lexer`. `input` is the
text not yet taken, its head being the current rune `x.Rune()` and `[]` meaning
that the lexer has ended; `buf` holds the runes taken since the last token and
`off` is the offset of the first of them; `errs` is the ordered list of lex
errors; `IsWhite` is the whitespace predicate `x.IsWhite`. -/
structure Lexer where
  input : List Char
  buf : List Char
  off : Nat
  errs : List Error
  IsWhite : Char → Bool

/-- Modelled from the spec: a token-start rule, `lexing.LexFunc`; the error case
is a panic. -/
abbrev LexFunc := Lexer → Except String (Token × Lexer)

/-- Modelled from the spec: `lexing.MakeLexer` over the whole text, with the
default whitespace predicate. -/
def MakeLexer (text : List Char) : Lexer :=
  { input := text, buf := [], off := 0, errs := [], IsWhite := IsWhite }

/-- Modelled from the spec: `x.Ended()`. -/
def Lexer.Ended (x : Lexer) : Bool := x.input.isEmpty

/-- Modelled from the spec: `x.Rune()`, the current rune (the zero rune at the
end of the input). -/
def Lexer.Rune (x : Lexer) : Char := x.input.headD (Char.ofNat 0)

/-- Modelled from the spec: `x.See(r)`, the current rune is `r`. -/
def Lexer.See (x : Lexer) (r : Char) : Bool := x.input.head? = some r

/-- Modelled from the spec: `x.Next()`, take the current rune into the buffer. -/
def Lexer.Next (x : Lexer) : Lexer :=
  match x.input with
  | [] => x
  | c :: cs => { x with input := cs, buf := x.buf ++ [c] }

/-- Position of the current rune. -/
def Lexer.here (x : Lexer) : Nat := x.off + x.buf.length

/-- Modelled from the spec: `x.Errorf(...)`, record a lex error at the current
position. -/
def Lexer.Errorf (x : Lexer) (msg : String) : Lexer :=
  { x with errs := x.errs ++ [{ Pos := some x.here, Msg := msg }] }

/-- Modelled from the spec: `x.MakeToken(t)`, the buffered runes become the
literal of a token of kind `t`, and the buffer is emptied. -/
def Lexer.MakeToken (x : Lexer) (t : Int) : Token × Lexer :=
  ({ Typ := t, Lit := x.buf, Pos := x.off }, { x with buf := [], off := x.here })

/-- Modelled from the spec: `x.Errs()`, nil when no error was recorded. -/
def Lexer.Errs (x : Lexer) : Nilable (List Error) :=
  if x.errs.isEmpty then none else some x.errs

/-- The whitespace skipping loop: the lexer after taking the leading whitespace
of the text `inp` that is left. -/
def skipWhiteLoop (x : Lexer) : List Char → Lexer
  | [] => { x with input := [] }
  | c :: cs =>
    if x.IsWhite c then skipWhiteLoop { x with buf := x.buf ++ [c] } cs
    else { x with input := c :: cs }

/-- Modelled from the spec: whitespace is skipped before any token decision; the
skipped runes are dropped from the buffer. -/
def Lexer.skipWhite (x : Lexer) : Lexer :=
  let y := skipWhiteLoop x x.input
  { y with buf := [], off := y.here }

/-- Modelled from the spec: `x.Token()` under the token-start rule `f`: skip
whitespace, give the end-of-input token at the end, and otherwise apply `f`,
which is so never invoked on whitespace. -/
def Lexer.Token (f : LexFunc) (x : Lexer) : Except String (Token × Lexer) :=
  let y := x.skipWhite
  if y.Ended then .ok (y.MakeToken EOF) else f y

/-- Modelled from the spec: `lexing.TokenAll`, all the tokens up to and including
the first end-of-input token. Every round of the loop spends one unit of `fuel`. -/
def TokenAllLoop (f : LexFunc) : Nat → Lexer → Except String (List Token × Lexer)
  | 0, x => .ok ([], x)
  | fuel + 1, x =>
    match x.Token f with
    | .error e => .error e
    | .ok (tok, y) =>
      if tok.Typ = EOF then .ok ([tok], y)
      else
        match TokenAllLoop f fuel y with
        | .error e => .error e
        | .ok (toks, z) => .ok (tok :: toks, z)

/-- Modelled from the spec: `lexing.TokenAll` with fuel for one token per rune
left and the end-of-input token. -/
def TokenAll (f : LexFunc) (x : Lexer) : Except String (List Token × Lexer) :=
  TokenAllLoop f (x.input.length + 1) x

/-- The loop of `LexIdent`: take letters, digits and underscores. -/
def identLoop (x : Lexer) : List Char → Lexer
  | [] => { x with input := [] }
  | c :: cs =>
    if IsIdentLetter c || IsDigit c then identLoop { x with buf := x.buf ++ [c] } cs
    else { x with input := c :: cs }

/-- Modelled from the spec: `lexing.LexIdent`, an identifier is a
letter-or-underscore-led run of letters, digits and underscores. -/
def LexIdent (x : Lexer) (t : Int) : Token × Lexer :=
  let y := x.Next
  (identLoop y y.input).MakeToken t

/-- The loop of `LexRawString`, after the opening backtick. -/
def rawStringLoop (x : Lexer) : List Char → Lexer
  | [] => Lexer.Errorf { x with input := [] } "unexpected eof in raw string"
  | c :: cs =>
    if c = backquote then { x with input := cs, buf := x.buf ++ [c] }
    else rawStringLoop { x with buf := x.buf ++ [c] } cs

/-- Modelled from the spec: `lexing.LexRawString`, a raw string literal is
delimited by backticks and its content is taken verbatim; an unterminated
literal is a lex error. -/
def LexRawString (x : Lexer) (t : Int) : Token × Lexer :=
  let y := x.Next
  (rawStringLoop y y.input).MakeToken t

/-- The loop of `LexString`, after the opening quote `q`; `escaped` says that the
rune before was an escaping backslash. -/
def stringLoop (q : Char) : Bool → Lexer → List Char → Lexer
  | _, x, [] => Lexer.Errorf { x with input := [] } "unexpected eof in string"
  | true, x, c :: cs => stringLoop q false { x with buf := x.buf ++ [c] } cs
  | false, x, c :: cs =>
    if c = '\n' then Lexer.Errorf { x with input := c :: cs } "unexpected endl in string"
    else if c = backslash then stringLoop q true { x with buf := x.buf ++ [c] } cs
    else if c = q then { x with input := cs, buf := x.buf ++ [c] }
    else stringLoop q false { x with buf := x.buf ++ [c] } cs

/-- Modelled from the spec: `lexing.LexString`, a quoted string literal is
delimited by `q`; a backslash escapes the rune after it; a literal that meets the
end of the line or of the input before its closing quote is a lex error. -/
def LexString (x : Lexer) (t : Int) (q : Char) : Token × Lexer :=
  let y := x.Next
  (stringLoop q false y y.input).MakeToken t

end lexing

/-! ## String literals (`strconv`) -/

namespace strconv

/-- Go `strconv.unhex`: the value of a hexadecimal digit. -/
def unhex (c : Char) : Option Nat :=
  if '0' ≤ c ∧ c ≤ '9' then some (c.toNat - 48)
  else if 'a' ≤ c ∧ c ≤ 'f' then some (c.toNat - 97 + 10)
  else if 'A' ≤ c ∧ c ≤ 'F' then some (c.toNat - 65 + 10)
  else none

/-- The value of a run of hexadecimal digits, most significant first. -/
def hexValue : Nat → List Char → Option Nat
  | v, [] => some v
  | v, c :: cs =>
    match unhex c with
    | none => none
    | some d => hexValue (16 * v + d) cs

/-- The value of a run of octal digits, most significant first. -/
def octValue : Nat → List Char → Option Nat
  | v, [] => some v
  | v, c :: cs =>
    if '0' ≤ c ∧ c ≤ '7' then octValue (8 * v + (c.toNat - 48)) cs else none

/-- Go `utf8.ValidRune`: in range and no surrogate half. -/
def ValidRune (v : Nat) : Bool :=
  decide (v < 0xD800) || (decide (0xDFFF < v) && decide (v ≤ 0x10FFFF))

/-- The escape of `UnquoteChar` that reads `n` hexadecimal digits. -/
def hexEscape (n : Nat) (checked : Bool) (s : List Char) : Except String (Char × List Char) :=
  if s.length < n then .error "invalid syntax"
  else
    match hexValue 0 (s.take n) with
    | none => .error "invalid syntax"
    | some v =>
      if checked && !ValidRune v then .error "invalid syntax"
      else .ok (Char.ofNat v, s.drop n)

/-- Go `strconv.UnquoteChar`: decode the first character or escape sequence of
`s`, a literal quoted by `quote`, and return it with the rest of `s`. An escape
`\x` or octal escape at or above 0x80 stands in Go for one byte that is no code
point; it is kept here as the code point of that number. -/
def UnquoteChar (s : List Char) (quote : Char) : Except String (Char × List Char) :=
  match s with
  | [] => .error "invalid syntax"
  | c :: rest =>
    if c = quote ∧ (quote = squote ∨ quote = dquote) then .error "invalid syntax"
    else if c ≠ backslash then .ok (c, rest)
    else
      match rest with
      | [] => .error "invalid syntax"
      | e :: s =>
        if e = 'a' then .ok (Char.ofNat 7, s)
        else if e = 'b' then .ok (Char.ofNat 8, s)
        else if e = 'f' then .ok (Char.ofNat 12, s)
        else if e = 'n' then .ok ('\n', s)
        else if e = 'r' then .ok ('\r', s)
        else if e = 't' then .ok ('\t', s)
        else if e = 'v' then .ok (Char.ofNat 11, s)
        else if e = 'x' then hexEscape 2 false s
        else if e = 'u' then hexEscape 4 true s
        else if e = 'U' then hexEscape 8 true s
        else if '0' ≤ e ∧ e ≤ '7' then
          if s.length < 2 then .error "invalid syntax"
          else
            match octValue (e.toNat - 48) (s.take 2) with
            | none => .error "invalid syntax"
            | some v => if v > 255 then .error "invalid syntax" else .ok (Char.ofNat v, s.drop 2)
        else if e = backslash then .ok (backslash, s)
        else if e = squote ∨ e = dquote then
          if e ≠ quote then .error "invalid syntax" else .ok (e, s)
        else .error "invalid syntax"

/-- The decoding loop of `Unquote`; every round spends one unit of `fuel` and
takes at least one character of `s`. -/
def unquoteLoop (quote : Char) : Nat → List Char → List Char → Except String (List Char)
  | _, [], buf => .ok buf
  | 0, _ :: _, _ => .error "invalid syntax"
  | fuel + 1, c :: cs, buf =>
    match UnquoteChar (c :: cs) quote with
    | .error e => .error e
    | .ok (r, ss) =>
      if quote = squote ∧ ss ≠ [] then .error "invalid syntax"
      else unquoteLoop quote fuel ss (buf ++ [r])

/-- Go `strconv.Unquote`: interpret `s` as a single-quoted, double-quoted or
backquoted Go string literal and return the string that it quotes. In a
backquoted literal nothing is interpreted and carriage returns are dropped. -/
def Unquote (s : List Char) : Except String (List Char) :=
  match s with
  | [] => .error "invalid syntax"
  | [_] => .error "invalid syntax"
  | quote :: t =>
    if some quote ≠ t.getLast? then .error "invalid syntax"
    else
      let s := t.dropLast
      if quote = backquote then
        if s.contains backquote then .error "invalid syntax"
        else if s.contains '\r' then .ok (s.filter (fun c => c != '\r'))
        else .ok s
      else if quote ≠ dquote ∧ quote ≠ squote then .error "invalid syntax"
      else if s.contains '\n' then .error "invalid syntax"
      else if !s.contains backslash && !s.contains quote
          && (quote = dquote || s.length = 1) then .ok s
      else unquoteLoop quote s.length s []

end strconv

/-! ## Option lines (`optline/parse.go`) -/

namespace optline

/-- Source `Option`: a single key value option. -/
structure Option where
  Key : List Char
  Value : List Char
deriving DecidableEq, Repr

/-- Source constant `tokIdent`. -/
def tokIdent : Int := 0

/-- Source constant `tokCollon`. -/
def tokCollon : Int := 1

/-- Source constant `tokString`. -/
def tokString : Int := 2

/-- Source `tokStr`: the name of a token kind. -/
def tokStr (tok : Int) : String :=
  if tok = tokIdent then "ident"
  else if tok = tokCollon then "`:`"
  else if tok = tokString then "string"
  else "?" ++ toString tok

/-- Source `lexLine`: the token-start rule of an option line. It panics when it
is invoked on whitespace. -/
def lexLine : lexing.LexFunc := fun x =>
  let r := x.Rune
  if x.IsWhite r then .error "incorrect token start"
  else if r = dquote then .ok (lexing.LexString x tokString r)
  else if r = backquote then .ok (lexing.LexRawString x tokString)
  else if r = ':' then .ok (x.Next.MakeToken tokCollon)
  else if lexing.IsIdentLetter r then .ok (lexing.LexIdent x tokIdent)
  else .ok ((x.Errorf ("illegal char " ++ String.singleton r)).Next.MakeToken lexing.Illegal)

/-- The errors that `Parse` returns, one constructor for each `fmt.Errorf`. -/
inductive ParseError where
  | lexError (line : List Char) (e : lexing.Error)
  | tokenCount (line : List Char) (n : Nat)
  | wantIdent (got : String)
  | wantCollon (got : String)
  | wantString (got : String)
  | notEOF (got : String)
  | invalidString (lit : List Char) (e : String)
deriving DecidableEq, Repr

/-- Source `Parse`: parse a line into an option. The result is the pair of the
option and the error, each of which may be nil. -/
def Parse (line : List Char) : Except String (Nilable Option × Nilable ParseError) :=
  let x : lexing.Lexer := { lexing.MakeLexer line with IsWhite := lexing.IsWhiteOrEndl }
  match lexing.TokenAll lexLine x with
  | .error p => .error p
  | .ok (toks, x) =>
    match x.Errs with
    | some [] => .error "index out of range"
    | some (e :: _) => .ok (none, some (.lexError line e))
    | none =>
      match toks with
      | [ident, collon, value, eof] =>
        if ident.Typ ≠ tokIdent then .ok (none, some (.wantIdent (tokStr ident.Typ)))
        else if collon.Typ ≠ tokCollon then .ok (none, some (.wantCollon (tokStr collon.Typ)))
        else if value.Typ ≠ tokString then .ok (none, some (.wantString (tokStr value.Typ)))
        else if eof.Typ ≠ lexing.EOF then .ok (none, some (.notEOF (tokStr eof.Typ)))
        else
          match strconv.Unquote value.Lit with
          | .error err => .ok (none, some (.invalidString value.Lit err))
          | .ok v => .ok (some { Key := ident.Lit, Value := v }, none)
      | _ => .ok (none, some (.tokenCount line toks.length))

end optline

/-! ## Shapes of option lines -/

namespace optline
open lexing

/-- An identifier: a letter or underscore followed by letters, digits or
underscores. -/
def IsIdent : List Char → Bool
  | [] => false
  | c :: cs => IsIdentLetter c && cs.all (fun d => IsIdentLetter d || IsDigit d)

/-- No character of the text is a double quote, a backslash or a line feed. -/
def IsPlain (v : List Char) : Bool :=
  v.all (fun c => c != dquote && c != backslash && c != '\n')

/-- Every character of the text is whitespace or a line ending. -/
def IsBlank (ws : List Char) : Bool := ws.all IsWhiteOrEndl

end optline

/-! ## The JSONx stream decoder (`jsonx/decoder.go`) -/

namespace jsonx
open lexing

/-- The parser that a decoder drives. The file that declares it is not among the
sources, so the operations that `decoder.go` calls are taken as parameters:
`P` is the state of the parser and `V` the value tree that it builds.
`parseValue`, `Shift` and `newParser` return the state that they leave behind. -/
structure ParserOps (P V : Type) where
  tokSemi : Int
  newParser : List Char → P
  See : P → Int → Bool
  Token : P → Nilable Token
  Shift : P → P
  Errs : P → Nilable (List Error)
  parseValue : P → V × P
  marshalValueLexing : V → List Char × Nilable (List Error)

/-- The standard decode routine `json.Unmarshal` on a target of type `T`: from
the canonical bytes and the target before the call to the target after the call
and the error, which may be nil. -/
abbrev Bridge (T : Type) := List Char → T → T × Nilable String

/-- Source `Decoder`: a decoder that is capable of parsing a stream. -/
structure Decoder (P : Type) where
  p : P

/-- What a call of `Decode` leaves: the error list, which may be nil, the decoder
and the target. -/
structure Decoded (P T : Type) where
  errs : Nilable (List Error)
  dec : Decoder P
  target : T

/-- Source `NewDecoder`: a new decoder over the text of the reader. -/
def NewDecoder {P V : Type} (ops : ParserOps P V) (r : List Char) : Decoder P :=
  { p := ops.newParser r }

/-- Source `Decoder.More`: true if there is more stuff. -/
def Decoder.More {P V : Type} (ops : ParserOps P V) (d : Decoder P) : Bool :=
  !(ops.See d.p EOF || (ops.Token d.p).isNone)

/-- Source `Decoder.Decode`: decode a JSON value from the parser into the target
`v`. -/
def Decoder.Decode {P V T : Type} (ops : ParserOps P V) (unmarshal : Bridge T)
    (d : Decoder P) (v : T) : Decoded P T :=
  let (value, p1) := ops.parseValue d.p
  match ops.Errs p1 with
  | some errs => { errs := some errs, dec := { p := p1 }, target := v }
  | none =>
    let p2 := if ops.See p1 ops.tokSemi then ops.Shift p1 else p1
    match ops.marshalValueLexing value with
    | (_, some errs) => { errs := some errs, dec := { p := p2 }, target := v }
    | (bs, none) =>
      match unmarshal bs v with
      | (w, some err) => { errs := some (SingleErr err), dec := { p := p2 }, target := w }
      | (w, none) => { errs := none, dec := { p := p2 }, target := w }

/-- The errors that `Unmarshal` returns: the first error of a decode, or the
invalid-argument error of `errcode.InvalidArgf`. -/
inductive UnmarshalError where
  | decode (e : Error)
  | invalidArg (msg : String)
deriving DecidableEq, Repr

/-- Source `Unmarshal`: unmarshal the one value of the buffer `bs` into the
target `v`. The result is the error, which may be nil, and the target; taking
the first error of an empty list is a panic. -/
def Unmarshal {P V T : Type} (ops : ParserOps P V) (unmarshal : Bridge T)
    (bs : List Char) (v : T) : Except String (Nilable UnmarshalError × T) :=
  let dec := NewDecoder ops bs
  let r := dec.Decode ops unmarshal v
  match r.errs with
  | some [] => .error "index out of range"
  | some (e :: _) => .ok (some (.decode e), r.target)
  | none =>
    if r.dec.More ops then .ok (some (.invalidArg "expect EOF, got more"), r.target)
    else .ok (none, r.target)

/-- The stream loop of the package test, `for dec.More() { dec.Decode(&x) }`,
each round on a fresh target `zero`: the decoded targets in order, and the error
list of the decode that stopped the loop, if one did. Every round spends one
unit of `fuel`. -/
def decodeAll {P V T : Type} (ops : ParserOps P V) (unmarshal : Bridge T) (zero : T) :
    Nat → Decoder P → List T × Nilable (List Error)
  | 0, _ => ([], none)
  | fuel + 1, d =>
    if d.More ops then
      let r := d.Decode ops unmarshal zero
      match r.errs with
      | some errs => ([], some errs)
      | none =>
        let (got, e) := decodeAll ops unmarshal zero fuel r.dec
        (r.target :: got, e)
    else ([], none)

end jsonx

/-! ## The JSONx lexer, parser and canonicalizer -/

namespace jsonx
open lexing

/-- Modelled from the spec: the token kind of a quoted string literal. -/
def tokString : Int := 0

/-- Modelled from the spec: the token kind of a raw string literal. -/
def tokRawString : Int := 1

/-- Modelled from the spec: the token kind of an identifier. -/
def tokIdent : Int := 2

/-- Modelled from the spec: the token kind of a number. -/
def tokNumber : Int := 3

/-- Modelled from the spec: the token kind of the colon. -/
def tokColon : Int := 4

/-- Modelled from the spec: the token kind of the terminator, the semicolon. -/
def tokSemi : Int := 5

/-- Modelled from the spec: the token kind of the comma. -/
def tokComma : Int := 6

/-- Modelled from the spec: the token kind of the opening bracket of an array. -/
def tokLbrack : Int := 7

/-- Modelled from the spec: the token kind of the closing bracket of an array. -/
def tokRbrack : Int := 8

/-- Modelled from the spec: the token kind of the opening brace of an object. -/
def tokLbrace : Int := 9

/-- Modelled from the spec: the token kind of the closing brace of an object. -/
def tokRbrace : Int := 10

/-- The digit loop of the number rule: take decimal digits. -/
def digitLoop (x : Lexer) : List Char → Lexer
  | [] => { x with input := [] }
  | c :: cs =>
    if IsDigit c then digitLoop { x with buf := x.buf ++ [c] } cs
    else { x with input := c :: cs }

/-- Take a run of decimal digits, which may not be empty: an empty run is the lex
error `msg`. -/
def lexDigits (x : Lexer) (msg : String) : Lexer :=
  if IsDigit x.Rune then digitLoop x x.input else x.Errorf msg

/-- The optional sign of a number. -/
def lexSign (x : Lexer) : Lexer :=
  if x.See '-' then x.Next else x

/-- The optional fractional part of a number: a point and digits. -/
def lexFraction (x : Lexer) : Lexer :=
  if x.See '.' then lexDigits x.Next "invalid number: no digit in fraction" else x

/-- The optional exponent of a number: the mark, an optional sign and digits. -/
def lexExponent (x : Lexer) : Lexer :=
  if x.See 'e' || x.See 'E' then
    let y := x.Next
    let z := if y.See '+' || y.See '-' then y.Next else y
    lexDigits z "invalid number: no digit in exponent"
  else x

/-- Modelled from the spec: numbers follow standard numeric-literal syntax, an
optional sign, an integer part, an optional fractional part and an optional
exponent; the literal is kept as text. -/
def lexNumber (x : Lexer) : Token × Lexer :=
  (lexExponent (lexFraction (lexDigits (lexSign x) "invalid number: no digit"))).MakeToken
    tokNumber

/-- Modelled from the spec: the token-start rule of the JSONx lexer, which is
applied where the scan position is not on whitespace. Quoted and raw string
literals, identifiers and numbers are runs; the colon, the terminator and the
structural punctuation are single-character tokens; a character that starts
none of these is a lex error, and an illegal token of that one character. -/
def lexValue (x : Lexer) : Token × Lexer :=
  let r := x.Rune
  if r = dquote then LexString x tokString r
  else if r = backquote then LexRawString x tokRawString
  else if r = ':' then x.Next.MakeToken tokColon
  else if r = ';' then x.Next.MakeToken tokSemi
  else if r = ',' then x.Next.MakeToken tokComma
  else if r = '[' then x.Next.MakeToken tokLbrack
  else if r = ']' then x.Next.MakeToken tokRbrack
  else if r = '{' then x.Next.MakeToken tokLbrace
  else if r = '}' then x.Next.MakeToken tokRbrace
  else if IsDigit r || r = '-' then lexNumber x
  else if IsIdentLetter r then LexIdent x tokIdent
  else (x.Errorf ("illegal char " ++ String.singleton r)).Next.MakeToken Illegal

/-- Modelled from the spec: the next token of the JSONx lexer: whitespace and
line endings are skipped, the end of the input is a token of its own kind. -/
def nextToken (x : Lexer) : Token × Lexer :=
  let y := x.skipWhite
  if y.Ended then y.MakeToken EOF else lexValue y

/-- Modelled from the spec: the decoder cursor, the lexer position over the
input and the most recently peeked token `t`. Lex and parse errors accumulate in
the one ordered list of the lexer. -/
structure parser where
  x : Lexer
  t : Token

/-- Modelled from the spec: `p.Shift()`, move to the next token. -/
def parser.Shift (p : parser) : parser :=
  let (t, x) := nextToken p.x
  { x := x, t := t }

/-- Modelled from the spec: `newParser`, a parser over the text, on its first
token. -/
def newParser (text : List Char) : parser :=
  let (t, x) := nextToken { MakeLexer text with IsWhite := IsWhiteOrEndl }
  { x := x, t := t }

/-- Modelled from the spec: `p.See(t)`, the current token is of kind `t`. -/
def parser.See (p : parser) (t : Int) : Bool := p.t.Typ = t

/-- Modelled from the spec: `p.Token()`, the current token. -/
def parser.Token (p : parser) : Nilable Token := some p.t

/-- Modelled from the spec: `p.Errs()`, the errors so far, nil if there are none. -/
def parser.Errs (p : parser) : Nilable (List Error) := p.x.Errs

/-- Modelled from the spec: record a parse error at the position of the current
token. -/
def parser.Errorf (p : parser) (msg : String) : parser :=
  { p with x := { p.x with errs := p.x.errs ++ [{ Pos := some p.t.Pos, Msg := msg }] } }

/-- Modelled from the spec: the value tree, a tagged union over null, boolean,
number, string, ordered list of nodes and ordered mapping of string key to
node. A number is carried as its exact textual form. -/
inductive Value where
  | null
  | bool (b : Bool)
  | number (text : List Char)
  | string (s : List Char)
  | list (vs : List Value)
  | object (ms : List (List Char × Value))
deriving Repr

end jsonx

namespace jsonx
open lexing

/-- Modelled from the spec: the key of an object member, a quoted string or a
bare identifier. -/
def parseKey (p : parser) : List Char × parser :=
  if p.See tokString then
    match strconv.Unquote p.t.Lit with
    | .ok s => (s, p.Shift)
    | .error _ => ([], (p.Errorf "invalid string literal").Shift)
  else if p.See tokIdent then (p.t.Lit, p.Shift)
  else ([], p.Errorf "expect a key")

mutual

/-- Modelled from the spec: the recursive-descent grammar
`value := string | raw-string | number | true | false | null | array | object`,
recognised strictly from the current token. A mismatch records a parse error and
does not advance. Every nested call spends one unit of `fuel`. -/
def parseValueFuel : Nat → parser → Value × parser
  | 0, p => (.null, p.Errorf "value nested too deeply")
  | fuel + 1, p =>
    if p.See tokString then
      match strconv.Unquote p.t.Lit with
      | .ok s => (.string s, p.Shift)
      | .error _ => (.null, (p.Errorf "invalid string literal").Shift)
    else if p.See tokRawString then (.string p.t.Lit.tail.dropLast, p.Shift)
    else if p.See tokNumber then (.number p.t.Lit, p.Shift)
    else if p.See tokIdent then
      if p.t.Lit = ['t', 'r', 'u', 'e'] then (.bool true, p.Shift)
      else if p.t.Lit = ['f', 'a', 'l', 's', 'e'] then (.bool false, p.Shift)
      else if p.t.Lit = ['n', 'u', 'l', 'l'] then (.null, p.Shift)
      else (.null, p.Errorf "expect a value, got an identifier")
    else if p.See tokLbrack then
      let p1 := p.Shift
      if p1.See tokRbrack then (.list [], p1.Shift)
      else
        let (vs, p2) := parseElems fuel p1
        (.list vs, p2)
    else if p.See tokLbrace then
      let p1 := p.Shift
      if p1.See tokRbrace then (.object [], p1.Shift)
      else
        let (ms, p2) := parseMembers fuel p1
        (.object ms, p2)
    else (.null, p.Errorf "expect a value")

/-- Modelled from the spec: the elements of `array := '[' (value (',' value)*)? ']'`
after the opening bracket, up to and including the closing bracket. -/
def parseElems : Nat → parser → List Value × parser
  | 0, p => ([], p.Errorf "value nested too deeply")
  | fuel + 1, p =>
    let (v, p1) := parseValueFuel fuel p
    if p1.See tokComma then
      let (vs, p2) := parseElems fuel p1.Shift
      (v :: vs, p2)
    else if p1.See tokRbrack then ([v], p1.Shift)
    else ([v], p1.Errorf "expect a comma or a closing bracket")

/-- Modelled from the spec: the members of
`object := '{' (member (',' member)*)? '}'`, `member := (string | identifier) ':' value`,
after the opening brace, up to and including the closing brace. -/
def parseMembers : Nat → parser → List (List Char × Value) × parser
  | 0, p => ([], p.Errorf "value nested too deeply")
  | fuel + 1, p =>
    let (k, p1) := parseKey p
    if p1.See tokColon then
      let (v, p2) := parseValueFuel fuel p1.Shift
      if p2.See tokComma then
        let (ms, p3) := parseMembers fuel p2.Shift
        ((k, v) :: ms, p3)
      else if p2.See tokRbrace then ([(k, v)], p2.Shift)
      else ([(k, v)], p2.Errorf "expect a comma or a closing brace")
    else ([], p1.Errorf "expect a colon")

end

/-- Modelled from the spec: `parseValue`, one value tree for one top-level value.
The fuel is two units for each rune left and the current token. -/
def parseValue (p : parser) : Value × parser :=
  parseValueFuel (2 * p.x.input.length + 4) p

/-- The hexadecimal digit of a number below sixteen. -/
def hexDigit (n : Nat) : Char :=
  if n < 10 then Char.ofNat (48 + n) else Char.ofNat (87 + n)

/-- Modelled from the spec: the escape of one character of a canonical string:
the quote and the backslash are escaped by a backslash, line feed, carriage
return and tab by their letter, the other control characters by `\u00XX`. -/
def escapeChar (c : Char) : List Char :=
  if c = dquote then [backslash, dquote]
  else if c = backslash then [backslash, backslash]
  else if c = '\n' then [backslash, 'n']
  else if c = '\r' then [backslash, 'r']
  else if c = '\t' then [backslash, 't']
  else if c.toNat < 32 then
    [backslash, 'u', '0', '0', hexDigit (c.toNat / 16), hexDigit (c.toNat % 16)]
  else [c]

/-- Modelled from the spec: strings get full escape-quoting. -/
def quoteString (s : List Char) : List Char :=
  dquote :: (s.flatMap escapeChar ++ [dquote])

mutual

/-- Modelled from the spec: the canonicalizer, which renders a value tree into
strict notation: escaped strings, numbers in their original textual form, arrays
and objects delimited by brackets and braces with commas, members in the order
parsed. -/
def marshalValue : Value → List Char
  | .null => ['n', 'u', 'l', 'l']
  | .bool true => ['t', 'r', 'u', 'e']
  | .bool false => ['f', 'a', 'l', 's', 'e']
  | .number text => text
  | .string s => quoteString s
  | .list vs => '[' :: (marshalElems vs ++ [']'])
  | .object ms => '{' :: (marshalMembers ms ++ ['}'])

/-- The elements of a canonical array, separated by commas. -/
def marshalElems : List Value → List Char
  | [] => []
  | [v] => marshalValue v
  | v :: w :: vs => marshalValue v ++ ',' :: marshalElems (w :: vs)

/-- The members of a canonical object, separated by commas. -/
def marshalMembers : List (List Char × Value) → List Char
  | [] => []
  | [(k, v)] => quoteString k ++ ':' :: marshalValue v
  | (k, v) :: m :: ms => quoteString k ++ ':' :: marshalValue v ++ ',' :: marshalMembers (m :: ms)

end

/-- Modelled from the spec: `marshalValueLexing`, the canonical bytes of a value
tree; the canonicalizer records no error. -/
def marshalValueLexing (v : Value) : List Char × Nilable (List Error) :=
  (marshalValue v, none)

/-- Modelled from the spec: the parser of `jsonx`, as the operations that the
decoder calls. -/
def ops : ParserOps parser Value where
  tokSemi := tokSemi
  newParser := newParser
  See := parser.See
  Token := parser.Token
  Shift := parser.Shift
  Errs := parser.Errs
  parseValue := parseValue
  marshalValueLexing := marshalValueLexing

end jsonx

/-! ## The standard decode routine (`encoding/json`) -/

namespace json
open jsonx (Value)

/-- JSON whitespace: blank, tab, carriage return, line feed. -/
def isSpace (c : Char) : Bool := c = ' ' || c = '\t' || c = '\r' || c = '\n'

/-- The text after its leading JSON whitespace. -/
def skipSpace : List Char → List Char
  | [] => []
  | c :: cs => if isSpace c then skipSpace cs else c :: cs

/-- The value of four hexadecimal digits at the head of the text. -/
def getu4 (s : List Char) : Option Nat :=
  if s.length < 4 then none else strconv.hexValue 0 (s.take 4)

/-- Go `json.unquote`, after the opening quote: the string that a JSON string
literal denotes and the text after its closing quote. Every round spends one
unit of `fuel`. -/
def stringBody : Nat → List Char → List Char → Option (List Char × List Char)
  | 0, _, _ => none
  | _ + 1, [], _ => none
  | fuel + 1, c :: cs, acc =>
    if c = dquote then some (acc, cs)
    else if c = backslash then
      match cs with
      | [] => none
      | e :: rest =>
        if e = dquote ∨ e = backslash ∨ e = '/' then stringBody fuel rest (acc ++ [e])
        else if e = 'b' then stringBody fuel rest (acc ++ [Char.ofNat 8])
        else if e = 'f' then stringBody fuel rest (acc ++ [Char.ofNat 12])
        else if e = 'n' then stringBody fuel rest (acc ++ ['\n'])
        else if e = 'r' then stringBody fuel rest (acc ++ ['\r'])
        else if e = 't' then stringBody fuel rest (acc ++ ['\t'])
        else if e = 'u' then
          match getu4 rest with
          | none => none
          | some hi =>
            let rest1 := rest.drop 4
            if 0xD800 ≤ hi ∧ hi < 0xE000 then
              match rest1 with
              | b :: u :: rest2 =>
                match getu4 rest2 with
                | some lo =>
                  if b = backslash ∧ u = 'u' ∧ hi < 0xDC00 ∧ 0xDC00 ≤ lo ∧ lo < 0xE000 then
                    stringBody fuel (rest2.drop 4)
                      (acc ++ [Char.ofNat (0x10000 + (hi - 0xD800) * 0x400 + (lo - 0xDC00))])
                  else stringBody fuel rest1 (acc ++ [Char.ofNat 0xFFFD])
                | none => stringBody fuel rest1 (acc ++ [Char.ofNat 0xFFFD])
              | _ => stringBody fuel rest1 (acc ++ [Char.ofNat 0xFFFD])
            else stringBody fuel rest1 (acc ++ [Char.ofNat hi])
        else none
    else if c.toNat < 32 then none
    else stringBody fuel cs (acc ++ [c])

/-- A run of decimal digits at the head of the text, and the text after it. -/
def spanDigits : List Char → List Char × List Char
  | [] => ([], [])
  | c :: cs =>
    if lexing.IsDigit c then
      let (ds, rest) := spanDigits cs
      (c :: ds, rest)
    else ([], c :: cs)

/-- The optional minus sign at the head of the text, and the text after it. -/
def takeSign : List Char → List Char × List Char
  | [] => ([], [])
  | c :: t => if c = '-' then ([c], t) else ([], c :: t)

/-- The optional fraction at the head of the text, a point and digits, and the
text after it. -/
def takeFraction : List Char → Option (List Char × List Char)
  | [] => some ([], [])
  | c :: t =>
    if c = '.' then
      let (fp, rest) := spanDigits t
      if fp = [] then none else some (c :: fp, rest)
    else some ([], c :: t)

/-- The optional exponent at the head of the text, the mark, an optional sign and
digits, and the text after it. -/
def takeExponent : List Char → Option (List Char × List Char)
  | [] => some ([], [])
  | e :: t =>
    if e = 'e' ∨ e = 'E' then
      let (sg, t1) : List Char × List Char := match t with
        | [] => ([], [])
        | c :: u => if c = '+' ∨ c = '-' then ([c], u) else ([], c :: u)
      let (ep, rest) := spanDigits t1
      if ep = [] then none else some (e :: (sg ++ ep), rest)
    else some ([], e :: t)

/-- The JSON number at the head of the text: an optional minus, an integer part
without a leading zero, an optional fraction and an optional exponent. -/
def numberText (s : List Char) : Option (List Char × List Char) :=
  let (sign, s1) := takeSign s
  let (ip, s2) := spanDigits s1
  if ip = [] ∨ (ip.head? = some '0' ∧ ip.length ≠ 1) then none
  else
    match takeFraction s2 with
    | none => none
    | some (fp, s3) =>
      match takeExponent s3 with
      | none => none
      | some (ep, s4) => some (sign ++ ip ++ fp ++ ep, s4)

/-- The text after the prefix `pre`, if the text starts with it. -/
def stripLeading (pre : List Char) (s : List Char) : Option (List Char) :=
  if pre.isPrefixOf s then some (s.drop pre.length) else none

end json

namespace json
open jsonx (Value)

mutual

/-- The JSON value at the head of the text, which starts on no whitespace, and
the text after it. Every nested call spends one unit of `fuel`. -/
def valueFuel : Nat → List Char → Option (Value × List Char)
  | 0, _ => none
  | _ + 1, [] => none
  | fuel + 1, c :: cs =>
    if c = dquote then
      match stringBody (cs.length + 1) cs [] with
      | none => none
      | some (str, rest) => some (.string str, rest)
    else if c = '[' then
      match skipSpace cs with
      | ']' :: rest => some (.list [], rest)
      | s1 =>
        match elemsFuel fuel s1 with
        | none => none
        | some (vs, rest) => some (.list vs, rest)
    else if c = '{' then
      match skipSpace cs with
      | '}' :: rest => some (.object [], rest)
      | s1 =>
        match membersFuel fuel s1 with
        | none => none
        | some (ms, rest) => some (.object ms, rest)
    else if c = 't' then (stripLeading ['t', 'r', 'u', 'e'] (c :: cs)).map (fun r => (.bool true, r))
    else if c = 'f' then
      (stripLeading ['f', 'a', 'l', 's', 'e'] (c :: cs)).map (fun r => (.bool false, r))
    else if c = 'n' then (stripLeading ['n', 'u', 'l', 'l'] (c :: cs)).map (fun r => (.null, r))
    else
      match numberText (c :: cs) with
      | none => none
      | some (text, rest) => some (.number text, rest)

/-- The elements of a JSON array after its opening bracket, up to and including
the closing bracket. -/
def elemsFuel : Nat → List Char → Option (List Value × List Char)
  | 0, _ => none
  | fuel + 1, s =>
    match valueFuel fuel s with
    | none => none
    | some (v, rest) =>
      match skipSpace rest with
      | ',' :: r =>
        match elemsFuel fuel (skipSpace r) with
        | none => none
        | some (vs, r1) => some (v :: vs, r1)
      | ']' :: r => some ([v], r)
      | _ => none

/-- The members of a JSON object after its opening brace, up to and including
the closing brace. -/
def membersFuel : Nat → List Char → Option (List (List Char × Value) × List Char)
  | 0, _ => none
  | _ + 1, [] => none
  | fuel + 1, c :: cs =>
    if c = dquote then
      match stringBody (cs.length + 1) cs [] with
      | none => none
      | some (k, rest) =>
        match skipSpace rest with
        | ':' :: r =>
          match valueFuel fuel (skipSpace r) with
          | none => none
          | some (v, r1) =>
            match skipSpace r1 with
            | ',' :: r2 =>
              match membersFuel fuel (skipSpace r2) with
              | none => none
              | some (ms, r3) => some ((k, v) :: ms, r3)
            | '}' :: r2 => some ([(k, v)], r2)
            | _ => none
        | _ => none
    else none

end

/-- The value that a JSON text denotes, if the text is valid JSON: one value
between optional whitespace. -/
def parse (bs : List Char) : Option Value :=
  match valueFuel (2 * bs.length + 4) (skipSpace bs) with
  | none => none
  | some (v, rest) => if skipSpace rest = [] then some v else none

/-- The value of a run of decimal digits, most significant first. -/
def decValue (ds : List Char) : Nat :=
  ds.foldl (fun a c => 10 * a + (c.toNat - 48)) 0

/-- Go `strconv.ParseInt(s, 10, 64)`: the integer that the text denotes, an
optional sign followed by decimal digits, if it fits 64 bits. -/
def ParseInt (s : List Char) : Option Int :=
  let neg := decide (s.head? = some '-')
  let ds := if s.head? = some '-' ∨ s.head? = some '+' then s.tail else s
  if ds = [] ∨ !ds.all lexing.IsDigit then none
  else
    let n := decValue ds
    if neg then (if n ≤ 2 ^ 63 then some (-(n : Int)) else none)
    else (if n < 2 ^ 63 then some (n : Int) else none)

/-- Go `json.Unmarshal` into a `*string`: a JSON string is stored, null leaves
the target as it is, every other value is a type error; a text that is not
valid JSON is a syntax error. -/
def UnmarshalString : jsonx.Bridge (List Char) := fun bs v =>
  match parse bs with
  | none => (v, some "invalid character")
  | some (.string s) => (s, none)
  | some .null => (v, none)
  | some _ => (v, some "json: cannot unmarshal into Go value of type string")

/-- The store of a JSON value into a slot of type `int`: the slot after the
store and the type error, if there is one. -/
def storeInt (tree : Value) (v : Int) : Int × Nilable String :=
  match tree with
  | .number text =>
    match ParseInt text with
    | some n => (n, none)
    | none => (v, some "json: cannot unmarshal number into Go value of type int")
  | .null => (v, none)
  | _ => (v, some "json: cannot unmarshal into Go value of type int")

/-- Go `json.Unmarshal` into a `*int`, where `int` has 64 bits. -/
def UnmarshalInt : jsonx.Bridge Int := fun bs v =>
  match parse bs with
  | none => (v, some "invalid character")
  | some tree => storeInt tree v

/-- The store of the elements of a JSON array into the slots of a slice of
`int`: an element whose store fails leaves its slot as it is, the decoding goes
on, and the earliest error is the one reported. A slot past the old length
starts at zero. -/
def storeInts : List Value → List Int → List Int × Nilable String
  | [], _ => ([], none)
  | t :: ts, old =>
    let (slot, e) := storeInt t (old.headD 0)
    let (rest, e1) := storeInts ts old.tail
    (slot :: rest, if e.isSome then e else e1)

/-- Go `json.Unmarshal` into a `*[]int`, a slice without spare capacity: an array
is stored element by element, null empties the slice, every other value is a
type error that leaves the slice as it is. -/
def UnmarshalInts : jsonx.Bridge (List Int) := fun bs v =>
  match parse bs with
  | none => (v, some "invalid character")
  | some (.list ts) => storeInts ts v
  | some .null => ([], none)
  | some _ => (v, some "json: cannot unmarshal into Go value of type []int")

end json

/-! ## The HTTP client (`httputil/client.go`, `httputil/token.go`) -/

namespace httputil

/-- Go `http.Header`: the values under each canonical key, nil where the key is
not set. -/
structure Header where
  values : String → Nilable (List String)

/-- Go `Header.Set`: the key holds the single value, replacing what it held. -/
def Header.Set (h : Header) (key value : String) : Header :=
  { values := fun k => if k = key then some [value] else h.values k }

/-- Source `SetAuthToken`: set the authorization header token; an empty token
sets nothing. -/
def SetAuthToken (h : Header) (tok : String) : Header :=
  if tok = "" then h else h.Set "Authorization" ("Bearer " ++ tok)

/-- Source `TokenSource`: an interface for providing tokens; `Token(ctx)` returns
a token or an error. -/
structure TokenSource (Ctx : Type) where
  Token : Ctx → Except String String

/-- Source `Client`: the fields that decide the headers of a request. -/
structure Client (Ctx : Type) where
  Server : Nilable String
  TokenSource : Nilable (TokenSource Ctx)
  Token : String
  UserAgent : String
  Accept : String

/-- Go `http.Request`: method, URL, headers and context. -/
structure Request (Ctx : Type) where
  Method : String
  URL : String
  Header : Header
  ctx : Ctx

/-- Source `Client.addAuth`: the request after the call and the error, which may
be nil. -/
def Client.addAuth {Ctx : Type} (c : Client Ctx) (req : Request Ctx) :
    Request Ctx × Nilable String :=
  match c.TokenSource with
  | some ts =>
    match ts.Token req.ctx with
    | .error err => (req, some err)
    | .ok tok => ({ req with Header := SetAuthToken req.Header tok }, none)
  | none => ({ req with Header := SetAuthToken req.Header c.Token }, none)

end httputil

namespace httputil

/-- The request without headers that `Client.req` hands to `addAuth`. -/
def freshRequest : Request Unit :=
  { Method := "GET", URL := "/", Header := { values := fun _ => none }, ctx := () }

/-- A client with the `Token` field `abc` and a token source that yields `tok`. -/
def sourceClient (tok : String) : Client Unit :=
  { Server := none, TokenSource := some { Token := fun _ => .ok tok }, Token := "abc",
    UserAgent := "", Accept := "" }

end httputil

/-! ## Shapes of JSONx texts -/

namespace jsonx
open lexing

/-- A decimal integer in standard notation: a run of decimal digits that is not
empty and has no leading zero, unless it is the single digit zero. -/
def IsDecimal (ds : List Char) : Bool :=
  !ds.isEmpty && ds.all IsDigit && (decide (ds.length = 1) || decide (ds.head? ≠ some '0'))

/-- The parser at the end of an input of `n` runes, without errors. -/
def parser.atEnd (n : Nat) : parser :=
  { x := ⟨[], [], n, [], IsWhiteOrEndl⟩, t := ⟨EOF, [], n⟩ }

/-- The text after a number does not go on the number: it starts with no digit,
no point and no exponent mark. -/
def EndsNumber (rest : List Char) : Prop :=
  ∀ c, rest.head? = some c → IsDigit c = false ∧ c ≠ '.' ∧ c ≠ 'e' ∧ c ≠ 'E'

/-- The text of a decimal integer literal: the digits, after a minus sign if the
literal is negative. -/
def intLiteral (neg : Bool) (ds : List Char) : List Char :=
  if neg then '-' :: ds else ds

/-- The numeric value of a decimal integer literal. -/
def intLiteralValue (neg : Bool) (ds : List Char) : Int :=
  if neg then -(json.decValue ds : Int) else (json.decValue ds : Int)

/-- The value of a decimal integer literal fits a signed integer of 64 bits. -/
def FitsInt (neg : Bool) (ds : List Char) : Bool :=
  if neg then decide (json.decValue ds ≤ 2 ^ 63) else decide (json.decValue ds < 2 ^ 63)

/-- The parser on the next token of the lexer `x`. -/
def shiftFrom (x : Lexer) : parser :=
  let (t, y) := nextToken x
  { x := y, t := t }

end jsonx

/-! ## Values written one after the other -/

namespace jsonx
open lexing

/-- A letter, a digit or an underscore: a character that carries on an
identifier. -/
def IsAlnum (c : Char) : Bool := IsIdentLetter c || IsDigit c

/-- A character that carries on a number: a digit, a point or an exponent mark. -/
def Continues (d : Char) : Bool := IsDigit d || d == '.' || d == 'e' || d == 'E'

/-- The character `d` carries on a token of kind `t`: an identifier goes on with a
letter, a digit or an underscore, a number with a digit, a point or an exponent
mark, and no other token goes on. -/
def carriesOn (t : Int) (d : Char) : Bool :=
  (decide (t = tokIdent) && IsAlnum d) || (decide (t = tokNumber) && Continues d)

/-- The token that the lexer cuts at `x` is set off from the text `b`: it ends
before the end of the input, or the head of `b` does not carry it on. -/
def tokenApart (x : Lexer) (b : List Char) : Bool :=
  !(nextToken x).2.input.isEmpty ||
    match b.head? with
    | some d => !carriesOn (nextToken x).1.Typ d
    | none => true

/-- The next `n` tokens that the lexer cuts from `x` on are set off from `b`. -/
def apartLoop : Nat → Lexer → List Char → Bool
  | 0, _, _ => true
  | n + 1, x, b => tokenApart x b && apartLoop n (nextToken x).2 b

/-- The text `a` is set off from the text `b` that follows it: the last token of
`a`, as the lexer cuts `a` alone, is not an identifier that ends `a` while `b`
starts with a letter, a digit or an underscore, and not a number that ends `a`
while `b` starts with a digit, a point or an exponent mark. -/
def boundary (a b : List Char) : Bool :=
  apartLoop (a.length + 1) ⟨a, [], 0, [], IsWhiteOrEndl⟩ b

/-- Every text of the list is set off from the one that follows it. -/
def Separable : List (List Char) → Bool
  | [] => true
  | [_] => true
  | a :: b :: rest => boundary a b && Separable (b :: rest)

/-- Nothing but whitespace is in the text `t`, or nothing but whitespace and one
terminator. -/
def BlankTrail (t : List Char) : Bool :=
  match t.dropWhile IsWhiteOrEndl with
  | [] => true
  | c :: cs => c == ';' && cs.all IsWhiteOrEndl

/-- The text `t` carries on the number that the text `s` is: the first token of
`s` is a number that goes up to the end of `s`, and `t` starts with a digit, a
point or an exponent mark. -/
def numberJoins (s t : List Char) : Bool :=
  decide ((newParser s).t.Typ = tokNumber) && (newParser s).x.input.isEmpty &&
    match t.head? with
    | some d => Continues d
    | none => false

/-- The lexer `x` over a longer input: the text `b` follows the input of `x`, and
`k` runes come before it. -/
def ext (b : List Char) (k : Nat) (x : Lexer) : Lexer :=
  { x with input := x.input ++ b, off := x.off + k }

/-- The token `t`, `k` runes further on in the input. -/
def shiftTok (k : Nat) (t : Token) : Token :=
  { t with Pos := t.Pos + k }

/-- The text `b` starts with no character that carries on a number. -/
def HeadEnds (b : List Char) : Prop :=
  ∀ d, b.head? = some d → Continues d = false

/-- The text `b` starts with no character that carries on an identifier. -/
def HeadEndsIdent (b : List Char) : Prop :=
  ∀ d, b.head? = some d → (IsIdentLetter d || IsDigit d) = false

/-- The lexer `r` comes from the lexer `x` by taking runes from the head of the
text `inp` into the buffer and by recording errors. -/
def Took (x : Lexer) (inp : List Char) (r : Lexer) : Prop :=
  ∃ pre es, inp = pre ++ r.input ∧ r.buf = x.buf ++ pre ∧ r.off = x.off ∧
    r.errs = x.errs ++ es ∧ r.IsWhite = x.IsWhite

/-- The lexer `r` comes from the lexer `x` by lexing tokens: its input is a tail
of the input of `x`, its buffer is empty, and its errors start with those of
`x`. -/
def Lexed (x r : Lexer) : Prop :=
  ∃ pre es, x.input = pre ++ r.input ∧ r.buf = [] ∧ r.errs = x.errs ++ es ∧
    r.IsWhite = x.IsWhite

/-- The errors of the parser `q` start with the errors of the parser `p`. -/
def Grew (p q : parser) : Prop :=
  ∃ es, q.x.errs = p.x.errs ++ es

/-- The parser `p` over a longer input: the text `b` follows its input, and `k`
runes come before it. -/
def extP (b : List Char) (k : Nat) (p : parser) : parser :=
  { x := ext b k p.x, t := shiftTok k p.t }

/-- All the tokens that the lexer cuts from `x` on are set off from `b`. -/
def Apart (x : Lexer) (b : List Char) : Prop := ∀ n, apartLoop n x b = true

/-- The run of `parseValueFuel` with fuel `f` carries over to a longer input:
a run from the token after `x0` that ends without errors ends on the token
after some lexer `x1`, and over the input followed by `b` the run, with any
fuel from `f` on, builds the same value and ends on the token after `x1`
followed by `b`. -/
def SimV (b : List Char) (k f : Nat) : Prop :=
  ∀ x0 v p', Apart x0 b → parseValueFuel f (shiftFrom x0) = (v, p') →
    p'.x.errs = [] →
    ∃ x1, Lexed x0 x1 ∧ Apart x1 b ∧ p' = shiftFrom x1 ∧
      ∀ f', f ≤ f' → parseValueFuel f' (shiftFrom (ext b k x0)) = (v, shiftFrom (ext b k x1))

/-- The run of `parseElems` with fuel `f` carries over to a longer input. -/
def SimE (b : List Char) (k f : Nat) : Prop :=
  ∀ x0 v p', Apart x0 b → parseElems f (shiftFrom x0) = (v, p') →
    p'.x.errs = [] →
    ∃ x1, Lexed x0 x1 ∧ Apart x1 b ∧ p' = shiftFrom x1 ∧
      ∀ f', f ≤ f' → parseElems f' (shiftFrom (ext b k x0)) = (v, shiftFrom (ext b k x1))

/-- The run of `parseMembers` with fuel `f` carries over to a longer input. -/
def SimM (b : List Char) (k f : Nat) : Prop :=
  ∀ x0 v p', Apart x0 b → parseMembers f (shiftFrom x0) = (v, p') →
    p'.x.errs = [] →
    ∃ x1, Lexed x0 x1 ∧ Apart x1 b ∧ p' = shiftFrom x1 ∧
      ∀ f', f ≤ f' → parseMembers f' (shiftFrom (ext b k x0)) = (v, shiftFrom (ext b k x1))

/-- A successful run of `parseValueFuel` with fuel `f` from the token after `x0`
ends on the token after some lexer `x1`, and either the value was the one token
cut at `x0`, or every token of the value is set off from any text: where the
tokens from `x1` on are set off from a text, so are those from `x0` on. -/
def ClosedV (f : Nat) : Prop :=
  ∀ x0 v p', parseValueFuel f (shiftFrom x0) = (v, p') → p'.x.errs = [] →
    ∃ x1, p' = shiftFrom x1 ∧ (x1 = (shiftFrom x0).x ∨ ∀ b, Apart x1 b → Apart x0 b)

/-- A successful run of `parseElems` with fuel `f` ends on the token after some
lexer `x1`, and every token that it went over is set off from any text. -/
def ClosedE (f : Nat) : Prop :=
  ∀ x0 vs p', parseElems f (shiftFrom x0) = (vs, p') → p'.x.errs = [] →
    ∃ x1, p' = shiftFrom x1 ∧ ∀ b, Apart x1 b → Apart x0 b

/-- A successful run of `parseMembers` with fuel `f` ends on the token after some
lexer `x1`, and every token that it went over is set off from any text. -/
def ClosedM (f : Nat) : Prop :=
  ∀ x0 ms p', parseMembers f (shiftFrom x0) = (ms, p') → p'.x.errs = [] →
    ∃ x1, p' = shiftFrom x1 ∧ ∀ b, Apart x1 b → Apart x0 b

end jsonx

/-! ## The four tokens of an option line -/

namespace optline
open lexing

/-- The lexer that `Parse` makes over a line: line endings count as whitespace. -/
def lineLexer (line : List Char) : Lexer :=
  { MakeLexer line with IsWhite := IsWhiteOrEndl }

/-- The lexer recorded no error, the tokens are exactly an identifier, a colon, a
string and the end of the input, and the string literal unquotes. -/
def IsFourTokens (toks : List Token) (x : Lexer) : Bool :=
  x.errs.isEmpty &&
    match toks with
    | [ident, collon, value, eof] =>
      decide (ident.Typ = tokIdent) && decide (collon.Typ = tokCollon) &&
        decide (value.Typ = tokString) && decide (eof.Typ = EOF) &&
        (match strconv.Unquote value.Lit with
          | .ok _ => true
          | .error _ => false)
    | _ => false

end optline

/-! ## The operations of the HTTP client (`httputil/client.go`) -/

namespace httputil

/-- Go `http.Response`: the status code, the body, and the error that closing the
body returns, which may be nil. -/
structure Response where
  StatusCode : Int
  Body : List Char
  closeErr : Nilable String

/-- The parts of the package that are not among the sources (`makeURL`,
`setHeader`, `isSuccess`, `RespError`) and the calls into the Go libraries
(`http.NewRequest`, the round trip of `http.Client.Do`, `json.Marshal`, the
decoding of a body into a target, `io.Copy`), taken as parameters. `Val` is the
type of the objects that are sent, `Tgt` of the targets that are decoded into and
`W` of the writers. An error is a message; the effects on targets and writers
are left out. -/
structure Env (Ctx Val Tgt W : Type) where
  makeURL : Nilable String → String → Except String String
  NewRequest : String → String → Nilable (List Char) → Except String (Request Ctx)
  setHeader : Header → String → String → Header
  isSuccess : Response → Bool
  RespError : Response → String
  RoundTrip : Request Ctx → Except String Response
  Marshal : Val → Except String (List Char)
  Decode : List Char → Tgt → Nilable String
  Copy : W → List Char → Nilable String

/-- What an operation of the client leaves: its result and the requests that it
sent, one for each HTTP round trip, in order. -/
abbrev Sent (Ctx α : Type) := α × List (Request Ctx)

/-- Source `Client.addHeaders`. -/
def Client.addHeaders {Ctx Val Tgt W : Type} (c : Client Ctx) (env : Env Ctx Val Tgt W)
    (h : Header) : Header :=
  env.setHeader (env.setHeader h "User-Agent" c.UserAgent) "Accept" c.Accept

/-- Source `Client.doRaw`: one round trip. -/
def Client.doRaw {Ctx Val Tgt W : Type} (_c : Client Ctx) (env : Env Ctx Val Tgt W)
    (req : Request Ctx) : Sent Ctx (Except String Response) :=
  (env.RoundTrip req, [req])

/-- Source `Client.do`: one round trip; a response that is not a success is an
error. -/
def Client.do {Ctx Val Tgt W : Type} (c : Client Ctx) (env : Env Ctx Val Tgt W)
    (req : Request Ctx) : Sent Ctx (Except String Response) :=
  match c.doRaw env req with
  | (.error err, sent) => (.error err, sent)
  | (.ok resp, sent) =>
    if !env.isSuccess resp then (.error (env.RespError resp), sent) else (.ok resp, sent)

/-- Source `Client.req`: build the request of method `m` for the path `p` with
the body `r`: make the URL, create the request, add the authorization and the
headers. -/
def Client.req {Ctx Val Tgt W : Type} (c : Client Ctx) (env : Env Ctx Val Tgt W)
    (m p : String) (r : Nilable (List Char)) : Except String (Request Ctx) :=
  match env.makeURL c.Server p with
  | .error err => .error err
  | .ok u =>
    match env.NewRequest m u r with
    | .error err => .error err
    | .ok req =>
      match c.addAuth req with
      | (_, some err) => .error err
      | (req, none) => .ok { req with Header := c.addHeaders env req.Header }

/-- Source `Client.reqJSON`: build the request and set its content type. -/
def Client.reqJSON {Ctx Val Tgt W : Type} (c : Client Ctx) (env : Env Ctx Val Tgt W)
    (m p : String) (r : Nilable (List Char)) : Except String (Request Ctx) :=
  match c.req env m p r with
  | .error err => .error err
  | .ok req => .ok { req with Header := req.Header.Set "Content-Type" "application/json" }

/-- Source `Client.Put`: put a stream to a path on the server. -/
def Client.Put {Ctx Val Tgt W : Type} (c : Client Ctx) (env : Env Ctx Val Tgt W)
    (p : String) (r : List Char) : Sent Ctx (Nilable String) :=
  match c.req env "PUT" p (some r) with
  | .error err => (some err, [])
  | .ok req =>
    match c.do env req with
    | (.error err, sent) => (some err, sent)
    | (.ok resp, sent) => (resp.closeErr, sent)

/-- Source `Client.poke`. -/
def Client.poke {Ctx Val Tgt W : Type} (c : Client Ctx) (env : Env Ctx Val Tgt W)
    (m p : String) : Sent Ctx (Nilable String) :=
  match c.req env m p none with
  | .error err => (some err, [])
  | .ok req =>
    match c.do env req with
    | (.error err, sent) => (some err, sent)
    | (.ok resp, sent) => (resp.closeErr, sent)

/-- Source `Client.GetCode`: get a response from a route and return the status
code. -/
def Client.GetCode {Ctx Val Tgt W : Type} (c : Client Ctx) (env : Env Ctx Val Tgt W)
    (p : String) : Sent Ctx (Int × Nilable String) :=
  match c.req env "GET" p none with
  | .error err => ((0, some err), [])
  | .ok req =>
    match c.doRaw env req with
    | (.error err, sent) => ((0, some err), sent)
    | (.ok resp, sent) => ((resp.StatusCode, none), sent)

/-- Source `Client.Poke`: post a signal to the given route on the server. -/
def Client.Poke {Ctx Val Tgt W : Type} (c : Client Ctx) (env : Env Ctx Val Tgt W)
    (p : String) : Sent Ctx (Nilable String) :=
  c.poke env "POST" p

/-- Source `Client.Get`: get a response from a route on the server. -/
def Client.Get {Ctx Val Tgt W : Type} (c : Client Ctx) (env : Env Ctx Val Tgt W)
    (p : String) : Sent Ctx (Nilable Response × Nilable String) :=
  match c.req env "GET" p none with
  | .error err => ((none, some err), [])
  | .ok req =>
    match c.do env req with
    | (.error err, sent) => ((none, some err), sent)
    | (.ok resp, sent) => ((some resp, none), sent)

/-- Source `Client.JSONGet`: get the content of a path and decode the response
into `resp` as JSON. Where `reqJSON` fails the source has `return nil`. -/
def Client.JSONGet {Ctx Val Tgt W : Type} (c : Client Ctx) (env : Env Ctx Val Tgt W)
    (p : String) (resp : Tgt) : Sent Ctx (Nilable String) :=
  match c.reqJSON env "GET" p none with
  | .error _ => (none, [])
  | .ok req =>
    match c.do env req with
    | (.error err, sent) => (some err, sent)
    | (.ok httpResp, sent) =>
      match env.Decode httpResp.Body resp with
      | some err => (some err, sent)
      | none => (httpResp.closeErr, sent)

/-- Source `copyRespBody`: copy the body of the response to the writer, if there
is one. -/
def copyRespBody {Ctx Val Tgt W : Type} (env : Env Ctx Val Tgt W) (resp : Response)
    (w : Nilable W) : Nilable String :=
  match w with
  | none => none
  | some w =>
    match env.Copy w resp.Body with
    | some err => some err
    | none => resp.closeErr

/-- Source `Client.Post`: post with the request body from `r`, and copy the
response body to `w`. -/
def Client.Post {Ctx Val Tgt W : Type} (c : Client Ctx) (env : Env Ctx Val Tgt W)
    (p : String) (r : Nilable (List Char)) (w : Nilable W) : Sent Ctx (Nilable String) :=
  match c.req env "POST" p r with
  | .error err => (some err, [])
  | .ok req =>
    match c.do env req with
    | (.error err, sent) => (some err, sent)
    | (.ok resp, sent) => (copyRespBody env resp w, sent)

/-- Source `Client.jsonPost`. -/
def Client.jsonPost {Ctx Val Tgt W : Type} (c : Client Ctx) (env : Env Ctx Val Tgt W)
    (p : String) (req : Val) : Sent Ctx (Except String Response) :=
  match env.Marshal req with
  | .error err => (.error err, [])
  | .ok bs =>
    match c.reqJSON env "POST" p (some bs) with
    | .error err => (.error err, [])
    | .ok httpReq => c.do env httpReq

/-- Source `Client.JSONCall`: a call with the request as a marshalled JSON
object, and the response unmarshalled as a JSON object, if a target is given. -/
def Client.JSONCall {Ctx Val Tgt W : Type} (c : Client Ctx) (env : Env Ctx Val Tgt W)
    (p : String) (req : Val) (resp : Nilable Tgt) : Sent Ctx (Nilable String) :=
  match c.jsonPost env p req with
  | (.error err, sent) => (some err, sent)
  | (.ok httpResp, sent) =>
    match resp with
    | none => (none, sent)
    | some tgt =>
      match env.Decode httpResp.Body tgt with
      | some err => (some err, sent)
      | none => (httpResp.closeErr, sent)

/-- Source `Client.Delete`: send a delete message to the particular path. -/
def Client.Delete {Ctx Val Tgt W : Type} (c : Client Ctx) (env : Env Ctx Val Tgt W)
    (p : String) : Sent Ctx (Nilable String) :=
  c.poke env "DELETE" p

/-- A client whose token source fails with the error `no token`. -/
def failingClient : Client Unit :=
  { Server := none, TokenSource := some { Token := fun _ => .error "no token" }, Token := "",
    UserAgent := "", Accept := "" }

/-- An environment in which every URL can be made, every request can be created
and every round trip gives an empty successful response. -/
def plainEnv : Env Unit Unit Unit Unit :=
  { makeURL := fun _ p => .ok p
    NewRequest := fun m u _ =>
      .ok { Method := m, URL := u, Header := { values := fun _ => none }, ctx := () }
    setHeader := fun h k v => if v = "" then h else h.Set k v
    isSuccess := fun _ => true
    RespError := fun _ => "not a success"
    RoundTrip := fun _ => .ok { StatusCode := 200, Body := [], closeErr := none }
    Marshal := fun _ => .ok []
    Decode := fun _ _ => none
    Copy := fun _ _ => none }

end httputil

/-! ## Characters that start no token of an option line -/

namespace optline
open lexing

/-- A character that starts no token, in the words of the claim: not a double
quote, a backtick, a colon or an identifier letter. -/
def StartsNoToken (c : Char) : Bool :=
  c != dquote && c != backquote && c != ':' && !IsIdentLetter c

/-- Where a scan of a line stands: outside the string literals, inside a quoted
literal, `escaped` saying that the character before was an escaping backslash,
or inside a raw literal. -/
inductive Quote where
  | out
  | str (escaped : Bool)
  | raw
deriving DecidableEq, Repr

/-- The scan of a text from the state `q`: a double quote opens a quoted literal,
which the next double quote that is not escaped closes and which a line feed
cuts off; a backtick opens a raw literal, which the next backtick closes. -/
def scanQuote : Quote → List Char → Quote
  | q, [] => q
  | .out, c :: cs =>
    if c = dquote then scanQuote (.str false) cs
    else if c = backquote then scanQuote .raw cs
    else scanQuote .out cs
  | .str true, _ :: cs => scanQuote (.str false) cs
  | .str false, c :: cs =>
    if c = '\n' then scanQuote .out cs
    else if c = backslash then scanQuote (.str true) cs
    else if c = dquote then scanQuote .out cs
    else scanQuote (.str false) cs
  | .raw, c :: cs =>
    if c = backquote then scanQuote .out cs else scanQuote .raw cs

/-- The position after the text `pre` is outside any string literal. -/
def Outside (pre : List Char) : Bool := decide (scanQuote .out pre = .out)

/-- The character `c` after the text `pre` does not carry on an identifier: it is
no digit, or `pre` does not end on a letter, a digit or an underscore. -/
def Detached (pre : List Char) (c : Char) : Bool :=
  !IsDigit c ||
    match pre.getLast? with
    | some d => !(IsIdentLetter d || IsDigit d)
    | none => true

end optline

/-! # Theorems -/

/-! ## Lemmas on the lexing loops -/

namespace lexing

theorem skipWhiteLoop_append (x : Lexer) (ws rest : List Char)
    (hws : ∀ c ∈ ws, x.IsWhite c = true) (hrest : ∀ c, rest.head? = some c → x.IsWhite c = false) :
    skipWhiteLoop x (ws ++ rest) = { x with input := rest, buf := x.buf ++ ws } := by
  induction ws generalizing x with
  | nil =>
    cases rest with
    | nil => simp [skipWhiteLoop]
    | cons c cs => simp [skipWhiteLoop, hrest c rfl]
  | cons w ws ih =>
    have hw : x.IsWhite w = true := hws w (List.mem_cons_self _ _)
    show skipWhiteLoop x (w :: (ws ++ rest)) = _
    simp only [skipWhiteLoop, hw, if_true]
    rw [ih]
    · simp
    · intro c hc; exact hws c (List.mem_cons_of_mem _ hc)
    · exact hrest

theorem skipWhite_append (x : Lexer) (ws rest : List Char) (hx : x.input = ws ++ rest)
    (hws : ∀ c ∈ ws, x.IsWhite c = true) (hrest : ∀ c, rest.head? = some c → x.IsWhite c = false) :
    x.skipWhite =
      { x with input := rest, buf := [], off := x.off + (x.buf.length + ws.length) } := by
  simp [Lexer.skipWhite, hx, skipWhiteLoop_append x ws rest hws hrest, Lexer.here]

end lexing

namespace lexing

theorem identLoop_append (x : Lexer) (cs rest : List Char)
    (hcs : ∀ c ∈ cs, (IsIdentLetter c || IsDigit c) = true)
    (hrest : ∀ c, rest.head? = some c → (IsIdentLetter c || IsDigit c) = false) :
    identLoop x (cs ++ rest) = { x with input := rest, buf := x.buf ++ cs } := by
  induction cs generalizing x with
  | nil =>
    cases rest with
    | nil => simp [identLoop]
    | cons c cs =>
      have h := hrest c rfl
      simp only [List.nil_append, identLoop, h]
      simp
  | cons w ws ih =>
    have hw := hcs w (List.mem_cons_self _ _)
    show identLoop x (w :: (ws ++ rest)) = _
    simp only [identLoop, hw, if_true]
    rw [ih]
    · simp
    · intro c hc; exact hcs c (List.mem_cons_of_mem _ hc)

theorem rawStringLoop_append (x : Lexer) (v rest : List Char) (hv : ∀ c ∈ v, c ≠ backquote) :
    rawStringLoop x (v ++ backquote :: rest)
      = { x with input := rest, buf := x.buf ++ (v ++ [backquote]) } := by
  induction v generalizing x with
  | nil => simp [rawStringLoop]
  | cons w ws ih =>
    have hw := hv w (List.mem_cons_self _ _)
    show rawStringLoop x (w :: (ws ++ backquote :: rest)) = _
    simp only [rawStringLoop, hw, if_false]
    rw [ih]
    · simp
    · intro c hc; exact hv c (List.mem_cons_of_mem _ hc)

theorem stringLoop_append (q : Char) (hq1 : q ≠ '\n') (hq2 : q ≠ backslash)
    (x : Lexer) (v rest : List Char)
    (hv : ∀ c ∈ v, c ≠ q ∧ c ≠ backslash ∧ c ≠ '\n') :
    stringLoop q false x (v ++ q :: rest)
      = { x with input := rest, buf := x.buf ++ (v ++ [q]) } := by
  induction v generalizing x with
  | nil => simp [stringLoop, hq1, hq2]
  | cons w ws ih =>
    obtain ⟨h1, h2, h3⟩ := hv w (List.mem_cons_self _ _)
    show stringLoop q false x (w :: (ws ++ q :: rest)) = _
    simp only [stringLoop, h1, h2, h3, if_false]
    rw [ih]
    · simp
    · intro c hc; exact hv c (List.mem_cons_of_mem _ hc)

theorem IsIdentLetter_not_white (c : Char) (h : IsIdentLetter c = true) :
    IsWhiteOrEndl c = false := by
  by_contra hw
  simp only [Bool.not_eq_false, IsWhiteOrEndl, IsWhite, Bool.or_eq_true, decide_eq_true_eq] at hw
  rcases hw with ((rfl | rfl) | rfl) | rfl <;> revert h <;> decide

end lexing

namespace optline
open lexing

theorem Token_eof (ws : List Char) (off : Nat) (errs : List Error) (hws : IsBlank ws = true) :
    Lexer.Token lexLine ⟨ws, [], off, errs, IsWhiteOrEndl⟩
      = .ok (⟨EOF, [], off + ws.length⟩, ⟨[], [], off + ws.length, errs, IsWhiteOrEndl⟩) := by
  have h := skipWhite_append ⟨ws, [], off, errs, IsWhiteOrEndl⟩ ws [] (by simp)
    (by simpa [IsBlank, List.all_eq_true] using hws) (by simp)
  simp only [Lexer.Token, h]
  simp [Lexer.Ended, Lexer.MakeToken, Lexer.here]

theorem Token_start (ws rest : List Char) (c : Char) (off : Nat) (errs : List Error)
    (hws : IsBlank ws = true) (hc : IsWhiteOrEndl c = false) :
    Lexer.Token lexLine ⟨ws ++ c :: rest, [], off, errs, IsWhiteOrEndl⟩
      = lexLine ⟨c :: rest, [], off + ws.length, errs, IsWhiteOrEndl⟩ := by
  have h := skipWhite_append ⟨ws ++ c :: rest, [], off, errs, IsWhiteOrEndl⟩ ws (c :: rest) rfl
    (by simpa [IsBlank, List.all_eq_true] using hws) (by simp [hc])
  simp only [Lexer.Token, h]
  simp [Lexer.Ended]

theorem Token_ident (ws k rest : List Char) (off : Nat) (errs : List Error)
    (hws : IsBlank ws = true) (hk : IsIdent k = true)
    (hrest : ∀ c, rest.head? = some c → (IsIdentLetter c || IsDigit c) = false) :
    Lexer.Token lexLine ⟨ws ++ (k ++ rest), [], off, errs, IsWhiteOrEndl⟩
      = .ok (⟨tokIdent, k, off + ws.length⟩,
          ⟨rest, [], off + ws.length + k.length, errs, IsWhiteOrEndl⟩) := by
  cases k with
  | nil => simp [IsIdent] at hk
  | cons c cs =>
    simp only [IsIdent, Bool.and_eq_true, List.all_eq_true] at hk
    obtain ⟨hc, hcs⟩ := hk
    have hwc := IsIdentLetter_not_white c hc
    have h1 : c ≠ dquote := by rintro rfl; revert hc; decide
    have h2 : c ≠ backquote := by rintro rfl; revert hc; decide
    have h3 : c ≠ ':' := by rintro rfl; revert hc; decide
    rw [List.cons_append, Token_start ws _ c off errs hws hwc]
    simp only [lexLine, Lexer.Rune, List.headD_cons, hwc, h1, h2, h3, hc, if_false, if_true,
      Bool.false_eq_true, LexIdent, Lexer.Next]
    rw [identLoop_append _ cs rest hcs hrest]
    simp [Lexer.MakeToken, Lexer.here, Nat.add_comm, Nat.add_left_comm, Nat.add_assoc]

theorem Token_colon (ws rest : List Char) (off : Nat) (errs : List Error)
    (hws : IsBlank ws = true) :
    Lexer.Token lexLine ⟨ws ++ ':' :: rest, [], off, errs, IsWhiteOrEndl⟩
      = .ok (⟨tokCollon, [':'], off + ws.length⟩,
          ⟨rest, [], off + ws.length + 1, errs, IsWhiteOrEndl⟩) := by
  rw [Token_start ws _ ':' off errs hws (by decide)]
  have h1 : ':' ≠ dquote := by decide
  have h2 : ':' ≠ backquote := by decide
  simp [lexLine, Lexer.Rune, h1, h2, Lexer.Next, Lexer.MakeToken, Lexer.here,
    show IsWhiteOrEndl ':' = false by decide]

theorem Token_string (ws v rest : List Char) (off : Nat) (errs : List Error)
    (hws : IsBlank ws = true) (hv : IsPlain v = true) :
    Lexer.Token lexLine ⟨ws ++ dquote :: (v ++ dquote :: rest), [], off, errs, IsWhiteOrEndl⟩
      = .ok (⟨tokString, dquote :: (v ++ [dquote]), off + ws.length⟩,
          ⟨rest, [], off + ws.length + (v.length + 2), errs, IsWhiteOrEndl⟩) := by
  rw [Token_start ws _ dquote off errs hws (by decide)]
  have hv2 : ∀ c ∈ v, c ≠ dquote ∧ c ≠ backslash ∧ c ≠ '\n' := by
    intro c hc
    have h : ∀ x ∈ v, (¬x = dquote ∧ ¬x = backslash) ∧ ¬x = '\n' := by
      simpa [IsPlain, List.all_eq_true] using hv
    exact ⟨(h c hc).1.1, (h c hc).1.2, (h c hc).2⟩
  simp only [lexLine, Lexer.Rune, List.headD_cons, show IsWhiteOrEndl dquote = false by decide,
    if_true, if_false, Bool.false_eq_true, LexString, Lexer.Next]
  rw [stringLoop_append dquote (by decide) (by decide) _ v rest hv2]
  simp [Lexer.MakeToken, Lexer.here, Nat.add_comm, Nat.add_left_comm, Nat.add_assoc]

theorem Token_rawString (ws v rest : List Char) (off : Nat) (errs : List Error)
    (hws : IsBlank ws = true) (hv : ∀ c ∈ v, c ≠ backquote) :
    Lexer.Token lexLine ⟨ws ++ backquote :: (v ++ backquote :: rest), [], off, errs, IsWhiteOrEndl⟩
      = .ok (⟨tokString, backquote :: (v ++ [backquote]), off + ws.length⟩,
          ⟨rest, [], off + ws.length + (v.length + 2), errs, IsWhiteOrEndl⟩) := by
  rw [Token_start ws _ backquote off errs hws (by decide)]
  have h1 : backquote ≠ dquote := by decide
  simp only [lexLine, Lexer.Rune, List.headD_cons, show IsWhiteOrEndl backquote = false by decide,
    if_true, if_false, Bool.false_eq_true, LexRawString, Lexer.Next, h1]
  rw [rawStringLoop_append _ v rest hv]
  simp [Lexer.MakeToken, Lexer.here, Nat.add_comm, Nat.add_left_comm, Nat.add_assoc]

end optline

namespace strconv

theorem Unquote_plain (v : List Char) (hv : optline.IsPlain v = true) :
    Unquote (dquote :: (v ++ [dquote])) = .ok v := by
  have hv2 : ∀ x ∈ v, (¬x = dquote ∧ ¬x = backslash) ∧ ¬x = '\n' := by
    simpa [optline.IsPlain, List.all_eq_true] using hv
  have hne : v ++ [dquote] ≠ [] := by simp
  obtain ⟨a, t, hat⟩ := List.exists_cons_of_ne_nil hne
  have hlast : (a :: t).getLast? = some dquote := by rw [← hat]; simp
  have hdrop : (a :: t).dropLast = v := by rw [← hat]; simp
  have hq1 : dquote ≠ backquote := by decide
  have hc1 : v.contains '\n' = false := by
    simp only [List.contains_eq_any_beq, List.any_eq_false, beq_iff_eq]
    intro x hx h; exact (hv2 x hx).2 h.symm
  have hc2 : v.contains backslash = false := by
    simp only [List.contains_eq_any_beq, List.any_eq_false, beq_iff_eq]
    intro x hx h; exact (hv2 x hx).1.2 h.symm
  have hc3 : v.contains dquote = false := by
    simp only [List.contains_eq_any_beq, List.any_eq_false, beq_iff_eq]
    intro x hx h; exact (hv2 x hx).1.1 h.symm
  rw [hat]
  simp only [Unquote, hlast, hdrop, hq1, hc1, hc2, hc3]
  simp

theorem Unquote_raw (v : List Char) (hv : ∀ c ∈ v, c ≠ backquote ∧ c ≠ '\r') :
    Unquote (backquote :: (v ++ [backquote])) = .ok v := by
  have hne : v ++ [backquote] ≠ [] := by simp
  obtain ⟨a, t, hat⟩ := List.exists_cons_of_ne_nil hne
  have hlast : (a :: t).getLast? = some backquote := by rw [← hat]; simp
  have hdrop : (a :: t).dropLast = v := by rw [← hat]; simp
  have hc1 : v.contains backquote = false := by
    simp only [List.contains_eq_any_beq, List.any_eq_false, beq_iff_eq]
    intro x hx h; exact (hv x hx).1 h.symm
  have hc2 : v.contains '\r' = false := by
    simp only [List.contains_eq_any_beq, List.any_eq_false, beq_iff_eq]
    intro x hx h; exact (hv x hx).2 h.symm
  rw [hat]
  simp only [Unquote, hlast, hdrop, hc1, hc2]
  simp

end strconv

namespace optline
open lexing

theorem Parse_of_value_token (k mid ws2 lit : List Char)
    (hk : IsIdent k = true) (hws2 : IsBlank ws2 = true) (hmid : 1 ≤ mid.length)
    (h3 : ∀ off errs, ∃ p q, Lexer.Token lexLine ⟨mid ++ ws2, [], off, errs, IsWhiteOrEndl⟩
      = .ok (⟨tokString, lit, p⟩, ⟨ws2, [], q, errs, IsWhiteOrEndl⟩)) :
    Parse (k ++ ':' :: (mid ++ ws2)) =
      match strconv.Unquote lit with
      | .error err => .ok (none, some (.invalidString lit err))
      | .ok v => .ok (some { Key := k, Value := v }, none) := by
  have hklen : 1 ≤ k.length := by
    cases k with
    | nil => simp [IsIdent] at hk
    | cons c cs => simp
  obtain ⟨m, hm⟩ : ∃ m, (k ++ ':' :: (mid ++ ws2)).length = m + 3 :=
    ⟨k.length + mid.length + ws2.length - 2, by simp; omega⟩
  have t1 := Token_ident [] k (':' :: (mid ++ ws2)) 0 [] rfl hk (by simp; decide)
  have t2 := Token_colon [] (mid ++ ws2) (0 + ([] : List Char).length + k.length) [] rfl
  obtain ⟨p, q, t3⟩ := h3 (0 + ([] : List Char).length + k.length + ([] : List Char).length + 1) []
  have t4 := Token_eof ws2 q [] hws2
  simp only [List.nil_append] at t1 t2
  have e1 : tokIdent ≠ EOF := by decide
  have e2 : tokCollon ≠ EOF := by decide
  have e3 : tokString ≠ EOF := by decide
  simp only [Parse, TokenAll, MakeLexer, hm, TokenAllLoop, t1, t2, t3, t4, e1, e2, e3, if_false,
    if_true, Lexer.Errs, List.isEmpty_nil, ne_eq, not_true_eq_false]

end optline

namespace optline
open lexing

/-- C7. For every identifier `k`, every text `v` without a double quote, a
backslash or a line feed, and all runs `ws1`, `ws2` of whitespace and line
endings, `Parse` of the line `k`, a colon, `ws1`, `v` in double quotes and `ws2`
returns a nil error and the option with key `k` and value `v`. -/
theorem Parse_quoted_value (k ws1 v ws2 : List Char)
    (hk : IsIdent k = true) (hws1 : IsBlank ws1 = true) (hv : IsPlain v = true)
    (hws2 : IsBlank ws2 = true) :
    Parse (k ++ ':' :: (ws1 ++ dquote :: (v ++ dquote :: ws2)))
      = .ok (some { Key := k, Value := v }, none) := by
  have h := Parse_of_value_token k (ws1 ++ dquote :: (v ++ [dquote])) ws2
    (dquote :: (v ++ [dquote])) hk hws2 (by simp; omega) (by
      intro off errs
      have t := Token_string ws1 v ws2 off errs hws1 hv
      have e : ws1 ++ dquote :: (v ++ [dquote]) ++ ws2 = ws1 ++ dquote :: (v ++ dquote :: ws2) := by simp
      rw [e]
      exact ⟨_, _, t⟩)
  rw [strconv.Unquote_plain v hv] at h
  simpa using h

/-- C7, at the line `key: "value 0"` followed by a line feed. -/
theorem Parse_quoted_value_witness :
    Parse ("key".toList ++ ':' :: (" ".toList ++ dquote :: ("value 0".toList ++ dquote :: "\n".toList)))
      = .ok (some { Key := "key".toList, Value := "value 0".toList }, none) :=
  Parse_quoted_value "key".toList " ".toList "value 0".toList "\n".toList
    (by decide) (by decide) (by decide) (by decide)

/-- C8, refuted as stated: the raw literal with content `a`, carriage return, `b`
holds no backtick, and the value that `Parse` returns is `ab`, not the content. -/
theorem Parse_raw_value_drops_cr :
    IsIdent ['k'] = true ∧ (∀ c ∈ ['a', '\r', 'b'], c ≠ backquote) ∧
    Parse (['k'] ++ ':' :: backquote :: (['a', '\r', 'b'] ++ [backquote]))
      = .ok (some { Key := ['k'], Value := ['a', 'b'] }, none) ∧
    (['a', 'b'] : List Char) ≠ ['a', '\r', 'b'] := by
  refine ⟨by decide, by decide, by rfl, by decide⟩

/-- C8, amended. For every identifier `k` and every text `v` with no backtick and
no carriage return, `Parse` of the line `k`, a colon, `ws1` and `v` between
backticks, followed by `ws2`, returns the option whose value is exactly `v`. -/
theorem Parse_raw_value (k ws1 v ws2 : List Char)
    (hk : IsIdent k = true) (hws1 : IsBlank ws1 = true)
    (hv : ∀ c ∈ v, c ≠ backquote ∧ c ≠ '\r') (hws2 : IsBlank ws2 = true) :
    Parse (k ++ ':' :: (ws1 ++ backquote :: (v ++ backquote :: ws2)))
      = .ok (some { Key := k, Value := v }, none) := by
  have h := Parse_of_value_token k (ws1 ++ backquote :: (v ++ [backquote])) ws2
    (backquote :: (v ++ [backquote])) hk hws2 (by simp; omega) (by
      intro off errs
      have t := Token_rawString ws1 v ws2 off errs hws1 (fun c hc => (hv c hc).1)
      have e : ws1 ++ backquote :: (v ++ [backquote]) ++ ws2 = ws1 ++ backquote :: (v ++ backquote :: ws2) := by simp
      rw [e]
      exact ⟨_, _, t⟩)
  rw [strconv.Unquote_raw v hv] at h
  simpa using h

/-- C8 amended, at the line `k:` and `a\b"c` between backticks. -/
theorem Parse_raw_value_witness :
    Parse (['k'] ++ ':' :: ([] ++ backquote :: (['a', backslash, 'b', dquote, 'c'] ++ backquote :: [])))
      = .ok (some { Key := ['k'], Value := ['a', backslash, 'b', dquote, 'c'] }, none) :=
  Parse_raw_value ['k'] [] ['a', backslash, 'b', dquote, 'c'] [] (by decide) (by decide)
    (by decide) (by decide)

end optline

/-! ## The HTTP client -/

namespace httputil

/-- C10, refuted as stated: a client whose token source is not nil and yields the
empty token. `addAuth` returns no error and leaves the request without an
Authorization header; the header is not `"Bearer "` followed by the token. -/
theorem addAuth_empty_source_token :
    (sourceClient "").TokenSource.isSome = true ∧
    ((sourceClient "").addAuth freshRequest).2 = none ∧
    ((sourceClient "").addAuth freshRequest).1.Header.values "Authorization" = none ∧
    ((sourceClient "").addAuth freshRequest).1.Header.values "Authorization"
      ≠ some ["Bearer " ++ ""] := by
  refine ⟨rfl, rfl, rfl, ?_⟩
  simp [Client.addAuth, SetAuthToken, freshRequest, sourceClient]

/-- C10, amended. For every client and request: when the token source is not nil,
what `addAuth` returns does not depend on the `Token` field; a token that the
source yields without error and that is not empty makes the Authorization
header `"Bearer "` followed by that token, and nothing else of the request
changes; an empty token leaves the request as it was, without an error; an
error of the source is returned and leaves the request as it was. When the
token source is nil and the `Token` field is not empty, the header is
`"Bearer "` followed by the field, and when the field is empty the request is
left as it was. -/
theorem addAuth_bearer {Ctx : Type} (c : Client Ctx) (req : Request Ctx) :
    (∀ ts, c.TokenSource = some ts →
      (∀ t : String, ({ c with Token := t } : Client Ctx).addAuth req = c.addAuth req) ∧
      (∀ tok, ts.Token req.ctx = .ok tok → tok ≠ "" →
        (c.addAuth req).2 = none ∧
        (c.addAuth req).1.Header.values "Authorization" = some ["Bearer " ++ tok] ∧
        (c.addAuth req).1
          = { req with Header := req.Header.Set "Authorization" ("Bearer " ++ tok) }) ∧
      (ts.Token req.ctx = .ok "" → c.addAuth req = (req, none)) ∧
      (∀ err, ts.Token req.ctx = .error err → c.addAuth req = (req, some err))) ∧
    (c.TokenSource = none → c.Token ≠ "" →
      (c.addAuth req).2 = none ∧
      (c.addAuth req).1.Header.values "Authorization" = some ["Bearer " ++ c.Token]) ∧
    (c.TokenSource = none → c.Token = "" → c.addAuth req = (req, none)) := by
  refine ⟨?_, ?_, ?_⟩
  · intro ts hts
    refine ⟨?_, ?_, ?_, ?_⟩
    · intro t
      simp [Client.addAuth, hts]
    · intro tok htok hne
      simp [Client.addAuth, hts, htok, SetAuthToken, hne, Header.Set]
    · intro htok
      simp [Client.addAuth, hts, htok, SetAuthToken]
    · intro err herr
      simp [Client.addAuth, hts, herr]
  · intro hts hne
    simp [Client.addAuth, hts, SetAuthToken, hne, Header.Set]
  · intro hts he
    simp [Client.addAuth, hts, SetAuthToken, he]

/-- C10 amended: at a client whose token source yields `tok1` and whose `Token`
field is `abc` the header is `Bearer tok1`, and at a client whose token source
fails with `no token` the error is returned and the request is left as it
was. -/
theorem addAuth_bearer_witness :
    ((sourceClient "tok1").addAuth freshRequest).1.Header.values "Authorization"
      = some ["Bearer " ++ "tok1"] ∧
    failingClient.addAuth freshRequest = (freshRequest, some "no token") :=
  ⟨(((addAuth_bearer (sourceClient "tok1") freshRequest).1
      { Token := fun _ => .ok "tok1" } rfl).2.1 "tok1" rfl (by decide)).2.1,
    ((addAuth_bearer failingClient freshRequest).1
      { Token := fun _ => .error "no token" } rfl).2.2.2 "no token" rfl⟩

end httputil

/-! ## The decoder over any parser -/

namespace jsonx
open lexing

theorem Decode_of_parse_errs {P V T : Type} (ops : ParserOps P V) (unmarshal : Bridge T)
    (d : Decoder P) (v : T) (errs : List Error)
    (h : ops.Errs (ops.parseValue d.p).2 = some errs) :
    d.Decode ops unmarshal v
      = { errs := some errs, dec := { p := (ops.parseValue d.p).2 }, target := v } := by
  simp only [Decoder.Decode, h]

/-- C1. For every parser, every decoder state `d` and every target `v`: if the
parser holds errors `errs` after parsing the next value, `Decode` returns
`errs` and leaves `v` as it was, whatever the standard decode routine is, which
is so not invoked. -/
theorem Decode_parse_error_keeps_target {P V T : Type} (ops : ParserOps P V)
    (unmarshal : Bridge T) (d : Decoder P) (v : T) (errs : List Error)
    (h : ops.Errs (ops.parseValue d.p).2 = some errs) :
    (d.Decode ops unmarshal v).errs = some errs ∧
    (d.Decode ops unmarshal v).target = v ∧
    ∀ other : Bridge T, d.Decode ops other v = d.Decode ops unmarshal v := by
  refine ⟨?_, ?_, ?_⟩
  · rw [Decode_of_parse_errs ops unmarshal d v errs h]
  · rw [Decode_of_parse_errs ops unmarshal d v errs h]
  · intro other
    rw [Decode_of_parse_errs ops unmarshal d v errs h, Decode_of_parse_errs ops other d v errs h]

/-- C1, at the unterminated literal `"abc` and the target `z`. -/
theorem Decode_parse_error_keeps_target_witness :
    ((NewDecoder ops [dquote, 'a', 'b', 'c']).Decode ops json.UnmarshalString ['z']).errs
      = some [{ Pos := some 4, Msg := "unexpected eof in string" },
          { Pos := some 0, Msg := "invalid string literal" }] ∧
    ((NewDecoder ops [dquote, 'a', 'b', 'c']).Decode ops json.UnmarshalString ['z']).target
      = ['z'] :=
  let h := Decode_parse_error_keeps_target ops json.UnmarshalString
    (NewDecoder ops [dquote, 'a', 'b', 'c']) ['z']
    [{ Pos := some 4, Msg := "unexpected eof in string" },
      { Pos := some 0, Msg := "invalid string literal" }] (by decide)
  ⟨h.1, h.2.1⟩

/-- C2, refuted as stated: the text `[1,"x"]` parses without error, its
canonical bytes do not match the target, a slice of integers, and `Decode`
returns a non-nil error list while the target, empty before the call, holds
`1` and `0` after it. -/
theorem Decode_bridge_error_changes_target :
    ((NewDecoder ops ['[', '1', ',', dquote, 'x', dquote, ']']).Decode ops json.UnmarshalInts
        []).errs
      = some (SingleErr "json: cannot unmarshal into Go value of type int") ∧
    ((NewDecoder ops ['[', '1', ',', dquote, 'x', dquote, ']']).Decode ops json.UnmarshalInts
        []).target
      = [1, 0] ∧
    ([1, 0] : List Int) ≠ [] := by
  refine ⟨by rfl, by rfl, by decide⟩

/-- C2, amended. Whenever `Decode` returns a non-nil error list, either the
target equals its value before the call, or parsing and canonicalizing recorded
no error, the error list is the single error of the standard decode routine, and
the target is what that routine left. -/
theorem Decode_failure_target {P V T : Type} (ops : ParserOps P V) (unmarshal : Bridge T)
    (d : Decoder P) (v : T) (h : (d.Decode ops unmarshal v).errs ≠ none) :
    (d.Decode ops unmarshal v).target = v ∨
    (ops.Errs (ops.parseValue d.p).2 = none ∧
      ∃ bs err, ops.marshalValueLexing (ops.parseValue d.p).1 = (bs, none) ∧
        unmarshal bs v = ((d.Decode ops unmarshal v).target, some err) ∧
        (d.Decode ops unmarshal v).errs = some (SingleErr err)) := by
  cases hE : ops.Errs (ops.parseValue d.p).2 with
  | some errs =>
    left
    rw [Decode_of_parse_errs ops unmarshal d v errs hE]
  | none =>
    rcases hM : ops.marshalValueLexing (ops.parseValue d.p).1 with ⟨bs, _ | merrs⟩
    · rcases hU : unmarshal bs v with ⟨w, _ | err⟩
      · exfalso
        apply h
        simp only [Decoder.Decode, hE, hM, hU]
      · right
        refine ⟨rfl, bs, err, rfl, ?_, ?_⟩
        · simp only [Decoder.Decode, hE, hM, hU]
        · simp only [Decoder.Decode, hE, hM, hU]
    · left
      simp only [Decoder.Decode, hE, hM]

/-- C2 amended, at the text `[1,` and the target `7`, `8`: the failure is a parse
error and the target is unchanged. -/
theorem Decode_failure_target_witness :
    ((NewDecoder ops ['[', '1', ',']).Decode ops json.UnmarshalInts [7, 8]).errs ≠ none ∧
    ((NewDecoder ops ['[', '1', ',']).Decode ops json.UnmarshalInts [7, 8]).target = [7, 8] :=
  ⟨by decide, (Decode_failure_target ops json.UnmarshalInts (NewDecoder ops ['[', '1', ','])
      [7, 8] (by decide)).elim id (fun h => absurd h.1 (by decide))⟩

end jsonx

namespace lexing

theorem skipWhiteLoop_input (x : Lexer) (inp : List Char) :
    (skipWhiteLoop x inp).input = inp.dropWhile x.IsWhite ∧
    (skipWhiteLoop x inp).IsWhite = x.IsWhite ∧ (skipWhiteLoop x inp).errs = x.errs := by
  induction inp generalizing x with
  | nil => simp [skipWhiteLoop]
  | cons c cs ih =>
    by_cases h : x.IsWhite c = true
    · have := ih { x with buf := x.buf ++ [c] }
      simp only [skipWhiteLoop, h, if_true, List.dropWhile_cons]
      exact this
    · simp [skipWhiteLoop, h, List.dropWhile_cons]

theorem skipWhite_ended_iff (x : Lexer) :
    x.skipWhite.Ended = true ↔ x.input.all x.IsWhite = true := by
  simp only [Lexer.skipWhite, Lexer.Ended, (skipWhiteLoop_input x x.input).1, List.isEmpty_iff,
    List.dropWhile_eq_nil_iff, List.all_eq_true]

end lexing

namespace jsonx
open lexing

theorem MakeToken_typ (x : Lexer) (t : Int) : (x.MakeToken t).1.Typ = t := rfl

theorem lexValue_typ_ne_EOF (x : Lexer) : (lexValue x).1.Typ ≠ EOF := by
  rw [lexValue]
  by_cases h0 : x.Rune = dquote
  · rw [if_pos h0]; exact (by decide : tokString ≠ EOF)
  rw [if_neg h0]
  by_cases h1 : x.Rune = backquote
  · rw [if_pos h1]; exact (by decide : tokRawString ≠ EOF)
  rw [if_neg h1]
  by_cases h2 : x.Rune = ':'
  · rw [if_pos h2]; exact (by decide : tokColon ≠ EOF)
  rw [if_neg h2]
  by_cases h3 : x.Rune = ';'
  · rw [if_pos h3]; exact (by decide : tokSemi ≠ EOF)
  rw [if_neg h3]
  by_cases h4 : x.Rune = ','
  · rw [if_pos h4]; exact (by decide : tokComma ≠ EOF)
  rw [if_neg h4]
  by_cases h5 : x.Rune = '['
  · rw [if_pos h5]; exact (by decide : tokLbrack ≠ EOF)
  rw [if_neg h5]
  by_cases h6 : x.Rune = ']'
  · rw [if_pos h6]; exact (by decide : tokRbrack ≠ EOF)
  rw [if_neg h6]
  by_cases h7 : x.Rune = '{'
  · rw [if_pos h7]; exact (by decide : tokLbrace ≠ EOF)
  rw [if_neg h7]
  by_cases h8 : x.Rune = '}'
  · rw [if_pos h8]; exact (by decide : tokRbrace ≠ EOF)
  rw [if_neg h8]
  by_cases h9 : (IsDigit x.Rune || decide (x.Rune = '-')) = true
  · rw [if_pos h9]; exact (by decide : tokNumber ≠ EOF)
  rw [if_neg h9]
  by_cases h10 : IsIdentLetter x.Rune = true
  · rw [if_pos h10]; exact (by decide : tokIdent ≠ EOF)
  rw [if_neg h10]
  exact (by decide : Illegal ≠ EOF)

theorem nextToken_typ_EOF_iff (x : Lexer) :
    (nextToken x).1.Typ = EOF ↔ x.input.all x.IsWhite = true := by
  unfold nextToken
  by_cases h : x.skipWhite.Ended = true
  · simp only [h, if_true, MakeToken_typ, true_iff]
    exact (skipWhite_ended_iff x).1 h
  · simp only [h, if_false, Bool.false_eq_true]
    constructor
    · intro h1; exact absurd h1 (lexValue_typ_ne_EOF _)
    · intro h1; exact absurd ((skipWhite_ended_iff x).2 h1) h

/-- C5. For every parser and every decoder state, `More` is false exactly when
the current token is the end of the input or there is no token, and true in
every other state. In the modelled parser a decoder that has just moved to its
current token, at its creation or by a shift, has `More` false exactly when
nothing but whitespace was left before the end of the input. -/
theorem More_false_iff :
    (∀ (P V : Type) (ops : ParserOps P V) (d : Decoder P),
      (d.More ops = false ↔ (ops.See d.p EOF = true ∨ ops.Token d.p = none)) ∧
      (d.More ops = true ↔ ¬ (ops.See d.p EOF = true ∨ ops.Token d.p = none))) ∧
    (∀ text : List Char,
      (NewDecoder ops text).More ops = false ↔ text.all IsWhiteOrEndl = true) ∧
    (∀ p : parser,
      Decoder.More ops { p := p.Shift } = false ↔ p.x.input.all p.x.IsWhite = true) := by
  refine ⟨?_, ?_, ?_⟩
  · intro P V ops d
    constructor
    · cases h1 : ops.See d.p EOF <;> cases h2 : ops.Token d.p <;> simp [Decoder.More, h1, h2]
    · cases h1 : ops.See d.p EOF <;> cases h2 : ops.Token d.p <;> simp [Decoder.More, h1, h2]
  · intro text
    have h := nextToken_typ_EOF_iff { MakeLexer text with IsWhite := IsWhiteOrEndl }
    simp only [MakeLexer] at h
    simp only [Decoder.More, NewDecoder, ops, parser.See, parser.Token, newParser, MakeLexer,
      Option.isNone_some, Bool.or_false, Bool.not_eq_eq_eq_not, Bool.not_false,
      decide_eq_true_eq]
    exact h
  · intro p
    have h := nextToken_typ_EOF_iff p.x
    simp only [Decoder.More, ops, parser.See, parser.Token, parser.Shift,
      Option.isNone_some, Bool.or_false, Bool.not_eq_eq_eq_not, Bool.not_false,
      decide_eq_true_eq]
    exact h

end jsonx

namespace jsonx
open lexing

theorem Decode_errs_ne_empty {P V T : Type} (ops : ParserOps P V) (unmarshal : Bridge T)
    (d : Decoder P) (v : T) (hE : ∀ p, ops.Errs p ≠ some [])
    (hM : ∀ val, (ops.marshalValueLexing val).2 ≠ some []) :
    (d.Decode ops unmarshal v).errs ≠ some [] := by
  cases hErrs : ops.Errs (ops.parseValue d.p).2 with
  | some errs =>
    rw [Decode_of_parse_errs ops unmarshal d v errs hErrs]
    intro h
    apply hE (ops.parseValue d.p).2
    rw [hErrs]
    exact h
  | none =>
    rcases hMar : ops.marshalValueLexing (ops.parseValue d.p).1 with ⟨bs, _ | merrs⟩
    · rcases hU : unmarshal bs v with ⟨w, _ | err⟩
      · simp only [Decoder.Decode, hErrs, hMar, hU]
        simp
      · simp only [Decoder.Decode, hErrs, hMar, hU, SingleErr]
        simp
    · simp only [Decoder.Decode, hErrs, hMar]
      intro h
      apply hM (ops.parseValue d.p).1
      rw [hMar]
      exact h

theorem parser_Errs_ne_empty (p : parser) : ops.Errs p ≠ some [] := by
  show p.x.Errs ≠ some []
  unfold Lexer.Errs
  cases h : p.x.errs with
  | nil => simp
  | cons e es => simp

theorem marshal_errs_ne_empty (val : Value) : (ops.marshalValueLexing val).2 ≠ some [] := by
  show (none : Nilable (List Error)) ≠ some []
  simp

theorem Decode_nil_or_nonempty_aux {T : Type} (unmarshal : Bridge T) (d : Decoder parser)
    (v : T) : (d.Decode ops unmarshal v).errs = none ∨
      ∃ e es, (d.Decode ops unmarshal v).errs = some (e :: es) := by
  have h := Decode_errs_ne_empty ops unmarshal d v parser_Errs_ne_empty marshal_errs_ne_empty
  rcases hr : (d.Decode ops unmarshal v).errs with _ | ⟨_ | ⟨e, es⟩⟩
  · left; rfl
  · exact absurd hr h
  · right; exact ⟨e, es, rfl⟩

/-- C9. For every state of the decoder, every standard decode routine and every
target, `Decode` returns nil or an error list with a first element, never a
non-nil empty list; and `Unmarshal`, which takes the first error of a failed
decode, does not panic on any buffer. -/
theorem Decode_nil_or_nonempty {T : Type} (unmarshal : Bridge T) (d : Decoder parser) (v : T) :
    ((d.Decode ops unmarshal v).errs = none ∨
      ∃ e es, (d.Decode ops unmarshal v).errs = some (e :: es)) ∧
    ∀ bs, ∃ r, Unmarshal ops unmarshal bs v = .ok r := by
  refine ⟨Decode_nil_or_nonempty_aux unmarshal d v, ?_⟩
  intro bs
  unfold Unmarshal
  simp only []
  rcases Decode_nil_or_nonempty_aux unmarshal (NewDecoder ops bs) v with h | ⟨e, es, h⟩
  · rw [h]
    by_cases hm : ((NewDecoder ops bs).Decode ops unmarshal v).dec.More ops = true
    · exact ⟨_, by rw [if_pos hm]⟩
    · exact ⟨_, by rw [if_neg hm]⟩
  · rw [h]
    exact ⟨_, rfl⟩

/-- C4, refuted as stated: the buffer `"x";` is the well-formed value `"x"`
followed by a semicolon, which is no whitespace, and `Unmarshal` returns a nil
error, with the target set to `x`; and the buffer `12` is the well-formed value
`1` followed by the digit `2`, which is no whitespace, and `Unmarshal` returns a
nil error, with the target set to 12. -/
theorem Unmarshal_trailing_terminator :
    IsWhiteOrEndl ';' = false ∧
    Unmarshal ops json.UnmarshalString [dquote, 'x', dquote] ([] : List Char)
      = .ok (none, ['x']) ∧
    Unmarshal ops json.UnmarshalString ([dquote, 'x', dquote] ++ [';']) ([] : List Char)
      = .ok (none, ['x']) ∧
    IsWhiteOrEndl '2' = false ∧
    Unmarshal ops json.UnmarshalInt ['1'] 0 = .ok (none, 1) ∧
    Unmarshal ops json.UnmarshalInt (['1'] ++ ['2']) 0 = .ok (none, 12) := by
  refine ⟨by decide, by rfl, by rfl, by decide, by rfl, by rfl⟩

end jsonx

/-! ## Numbers -/

namespace lexing

theorem IsDigit_ne {c d : Char} (h : IsDigit c = true) (hd : IsDigit d = false) : c ≠ d := by
  rintro rfl
  rw [h] at hd
  exact Bool.noConfusion hd

theorem IsDigit_not_white (c : Char) (h : IsDigit c = true) : IsWhiteOrEndl c = false := by
  by_contra hw
  simp only [Bool.not_eq_false, IsWhiteOrEndl, IsWhite, Bool.or_eq_true, decide_eq_true_eq] at hw
  rcases hw with ((rfl | rfl) | rfl) | rfl <;> revert h <;> decide

end lexing

namespace jsonx
open lexing

theorem digitLoop_append (x : Lexer) (cs rest : List Char)
    (hcs : ∀ c ∈ cs, IsDigit c = true)
    (hrest : ∀ c, rest.head? = some c → IsDigit c = false) :
    digitLoop x (cs ++ rest) = { x with input := rest, buf := x.buf ++ cs } := by
  induction cs generalizing x with
  | nil =>
    cases rest with
    | nil => simp [digitLoop]
    | cons c cs =>
      have h := hrest c rfl
      simp only [List.nil_append, digitLoop, h]
      simp
  | cons w ws ih =>
    have hw := hcs w (List.mem_cons_self _ _)
    show digitLoop x (w :: (ws ++ rest)) = _
    simp only [digitLoop, hw, if_true]
    rw [ih]
    · simp
    · intro c hc; exact hcs c (List.mem_cons_of_mem _ hc)

theorem lexNumber_int (neg : Bool) (ds rest : List Char) (off : Nat) (errs : List Error)
    (W : Char → Bool) (hds : IsDecimal ds = true) (hrest : EndsNumber rest) :
    lexNumber ⟨intLiteral neg ds ++ rest, [], off, errs, W⟩
      = (⟨tokNumber, intLiteral neg ds, off⟩,
          ⟨rest, [], off + (intLiteral neg ds).length, errs, W⟩) := by
  simp only [IsDecimal, Bool.and_eq_true, List.all_eq_true, Bool.not_eq_true',
    List.isEmpty_eq_false] at hds
  obtain ⟨⟨hne, hall⟩, _⟩ := hds
  obtain ⟨d, ds', rfl⟩ := List.exists_cons_of_ne_nil (by simpa using hne : ds ≠ [])
  have hd : IsDigit d = true := hall d (List.mem_cons_self _ _)
  have hd' : ∀ c ∈ ds', IsDigit c = true := fun c hc => hall c (List.mem_cons_of_mem _ hc)
  have hr1 : ∀ c, rest.head? = some c → IsDigit c = false := fun c hc => (hrest c hc).1
  have hdm : d ≠ '-' := IsDigit_ne hd (by decide)
  have hfrac : ∀ y : Lexer, y.input = rest → lexFraction y = y := by
    intro y hy
    have : y.See '.' = false := by
      simp only [Lexer.See, hy, decide_eq_false_iff_not]
      exact fun h => (hrest '.' h).2.1 rfl
    simp only [lexFraction, this, Bool.false_eq_true, if_false]
  have hexp : ∀ y : Lexer, y.input = rest → lexExponent y = y := by
    intro y hy
    have h1 : y.See 'e' = false := by
      simp only [Lexer.See, hy, decide_eq_false_iff_not]
      exact fun h => (hrest 'e' h).2.2.1 rfl
    have h2 : y.See 'E' = false := by
      simp only [Lexer.See, hy, decide_eq_false_iff_not]
      exact fun h => (hrest 'E' h).2.2.2 rfl
    simp only [lexExponent, h1, h2, Bool.or_self, Bool.false_eq_true, if_false]
  have hdig : ∀ y : Lexer, y.input = (d :: ds') ++ rest →
      lexDigits y "invalid number: no digit" = { y with input := rest, buf := y.buf ++ d :: ds' } := by
    intro y hy
    have : IsDigit y.Rune = true := by simp only [Lexer.Rune, hy, List.cons_append, List.headD_cons, hd]
    simp only [lexDigits, this, if_true, hy]
    exact digitLoop_append y (d :: ds') rest hall hr1
  cases neg
  · have hs : lexSign ⟨d :: ds' ++ rest, [], off, errs, W⟩ = ⟨d :: ds' ++ rest, [], off, errs, W⟩ := by
      simp [lexSign, Lexer.See, hdm]
    simp only [intLiteral, Bool.false_eq_true, if_false, lexNumber, hs]
    rw [hdig _ rfl, hfrac _ rfl, hexp _ rfl]
    simp [Lexer.MakeToken, Lexer.here]
  · have hs : lexSign ⟨'-' :: (d :: ds') ++ rest, [], off, errs, W⟩
        = ⟨d :: ds' ++ rest, ['-'], off, errs, W⟩ := by
      simp [lexSign, Lexer.See, Lexer.Next]
    simp only [intLiteral, if_true, lexNumber, hs]
    rw [hdig _ rfl, hfrac _ rfl, hexp _ rfl]
    simp [Lexer.MakeToken, Lexer.here]

end jsonx

namespace jsonx
open lexing

theorem nextToken_eof (ws : List Char) (off : Nat) (errs : List Error)
    (hws : ws.all IsWhiteOrEndl = true) :
    nextToken ⟨ws, [], off, errs, IsWhiteOrEndl⟩
      = (⟨EOF, [], off + ws.length⟩, ⟨[], [], off + ws.length, errs, IsWhiteOrEndl⟩) := by
  have h := skipWhite_append ⟨ws, [], off, errs, IsWhiteOrEndl⟩ ws [] (by simp)
    (by simpa [List.all_eq_true] using hws) (by simp)
  simp only [nextToken, h]
  simp [Lexer.Ended, Lexer.MakeToken, Lexer.here]

theorem nextToken_start (ws rest : List Char) (c : Char) (off : Nat) (errs : List Error)
    (hws : ws.all IsWhiteOrEndl = true) (hc : IsWhiteOrEndl c = false) :
    nextToken ⟨ws ++ c :: rest, [], off, errs, IsWhiteOrEndl⟩
      = lexValue ⟨c :: rest, [], off + ws.length, errs, IsWhiteOrEndl⟩ := by
  have h := skipWhite_append ⟨ws ++ c :: rest, [], off, errs, IsWhiteOrEndl⟩ ws (c :: rest) rfl
    (by simpa [List.all_eq_true] using hws) (by simp [hc])
  simp only [nextToken, h]
  simp [Lexer.Ended]

theorem lexValue_number (x : Lexer) (h : IsDigit x.Rune = true ∨ x.Rune = '-') :
    lexValue x = lexNumber x := by
  have hn : ∀ d : Char, IsDigit d = false → d ≠ '-' → x.Rune ≠ d := by
    intro d hd hd'
    rcases h with h | h
    · exact IsDigit_ne h hd
    · rw [h]; exact fun e => hd' e.symm
  have hc : (IsDigit x.Rune || decide (x.Rune = '-')) = true := by
    rcases h with h | h
    · simp [h]
    · simp [h]
  rw [lexValue]
  rw [if_neg (hn dquote (by decide) (by decide)), if_neg (hn backquote (by decide) (by decide)),
    if_neg (hn ':' (by decide) (by decide)), if_neg (hn ';' (by decide) (by decide)),
    if_neg (hn ',' (by decide) (by decide)), if_neg (hn '[' (by decide) (by decide)),
    if_neg (hn ']' (by decide) (by decide)), if_neg (hn '{' (by decide) (by decide)),
    if_neg (hn '}' (by decide) (by decide)), if_pos hc]

theorem intLiteral_head (neg : Bool) (ds : List Char) (hds : IsDecimal ds = true) :
    ∃ c cs, intLiteral neg ds = c :: cs ∧ (IsDigit c = true ∨ c = '-') := by
  simp only [IsDecimal, Bool.and_eq_true, List.all_eq_true, Bool.not_eq_true',
    List.isEmpty_eq_false] at hds
  obtain ⟨⟨hne, hall⟩, _⟩ := hds
  obtain ⟨d, ds', rfl⟩ := List.exists_cons_of_ne_nil (by simpa using hne : ds ≠ [])
  cases neg
  · exact ⟨d, ds', rfl, Or.inl (hall d (List.mem_cons_self _ _))⟩
  · exact ⟨'-', d :: ds', rfl, Or.inr rfl⟩

theorem nextToken_int (ws : List Char) (neg : Bool) (ds rest : List Char) (off : Nat)
    (errs : List Error) (hws : ws.all IsWhiteOrEndl = true) (hds : IsDecimal ds = true)
    (hrest : EndsNumber rest) :
    nextToken ⟨ws ++ (intLiteral neg ds ++ rest), [], off, errs, IsWhiteOrEndl⟩
      = (⟨tokNumber, intLiteral neg ds, off + ws.length⟩,
          ⟨rest, [], off + ws.length + (intLiteral neg ds).length, errs, IsWhiteOrEndl⟩) := by
  obtain ⟨c, cs, hlit, hc⟩ := intLiteral_head neg ds hds
  have hcw : IsWhiteOrEndl c = false := by
    rcases hc with hc | rfl
    · exact IsDigit_not_white c hc
    · decide
  have e : ws ++ (intLiteral neg ds ++ rest) = ws ++ c :: (cs ++ rest) := by rw [hlit]; simp
  rw [e, nextToken_start ws _ c off errs hws hcw, lexValue_number _ (by simpa [Lexer.Rune] using hc)]
  have e2 : c :: (cs ++ rest) = intLiteral neg ds ++ rest := by rw [hlit]; simp
  rw [e2]
  exact lexNumber_int neg ds rest (off + ws.length) errs IsWhiteOrEndl hds hrest

theorem parseValueFuel_number (fuel : Nat) (p : parser) (h : p.t.Typ = tokNumber) :
    parseValueFuel (fuel + 1) p = (.number p.t.Lit, p.Shift) := by
  have h1 : p.See tokString = false := by simp [parser.See, h]; decide
  have h2 : p.See tokRawString = false := by simp [parser.See, h]; decide
  have h3 : p.See tokNumber = true := by simp [parser.See, h]
  simp only [parseValueFuel, h1, h2, h3, if_true, if_false, Bool.false_eq_true]

end jsonx

namespace json
open lexing jsonx

theorem spanDigits_append (ds rest : List Char) (hds : ∀ c ∈ ds, IsDigit c = true)
    (hrest : ∀ c, rest.head? = some c → IsDigit c = false) :
    spanDigits (ds ++ rest) = (ds, rest) := by
  induction ds with
  | nil =>
    cases rest with
    | nil => rfl
    | cons c cs => simp [spanDigits, hrest c rfl]
  | cons d ds ih =>
    have hd := hds d (List.mem_cons_self _ _)
    show spanDigits (d :: (ds ++ rest)) = _
    simp only [spanDigits, hd, if_true]
    rw [ih (fun c hc => hds c (List.mem_cons_of_mem _ hc))]

theorem takeFraction_of_ends (rest : List Char) (h : EndsNumber rest) :
    takeFraction rest = some ([], rest) := by
  cases rest with
  | nil => rfl
  | cons c cs => simp [takeFraction, (h c rfl).2.1]

theorem takeExponent_of_ends (rest : List Char) (h : EndsNumber rest) :
    takeExponent rest = some ([], rest) := by
  cases rest with
  | nil => rfl
  | cons c cs => simp [takeExponent, (h c rfl).2.2.1, (h c rfl).2.2.2]

theorem numberText_int (neg : Bool) (ds rest : List Char) (hds : IsDecimal ds = true)
    (hrest : EndsNumber rest) :
    numberText (intLiteral neg ds ++ rest) = some (intLiteral neg ds, rest) := by
  simp only [IsDecimal, Bool.and_eq_true, List.all_eq_true, Bool.not_eq_true',
    List.isEmpty_eq_false, Bool.or_eq_true, decide_eq_true_eq] at hds
  obtain ⟨⟨hne, hall⟩, hz⟩ := hds
  have hne' : ds ≠ [] := by simpa using hne
  obtain ⟨d, ds', rfl⟩ := List.exists_cons_of_ne_nil hne'
  have hd : IsDigit d = true := hall d (List.mem_cons_self _ _)
  have hdm : d ≠ '-' := IsDigit_ne hd (by decide)
  have hspan := spanDigits_append (d :: ds') rest hall (fun c hc => (hrest c hc).1)
  have hbad : ¬ (d :: ds' = [] ∨ ((d :: ds').head? = some '0' ∧ (d :: ds').length ≠ 1)) := by
    rintro (h | ⟨h1, h2⟩)
    · exact hne' h
    · rcases hz with hz | hz
      · exact h2 hz
      · exact hz h1
  cases neg
  · have hs : takeSign (d :: ds' ++ rest) = ([], d :: ds' ++ rest) := by
      simp [takeSign, hdm]
    simp only [intLiteral, Bool.false_eq_true, if_false, numberText, hs, hspan, hbad,
      takeFraction_of_ends rest hrest, takeExponent_of_ends rest hrest]
    simp
  · have hs : takeSign ('-' :: (d :: ds') ++ rest) = (['-'], d :: ds' ++ rest) := by
      simp [takeSign]
    simp only [intLiteral, if_true, numberText, hs, hspan, hbad,
      takeFraction_of_ends rest hrest, takeExponent_of_ends rest hrest]
    simp

theorem valueFuel_int (fuel : Nat) (neg : Bool) (ds rest : List Char)
    (hds : IsDecimal ds = true) (hrest : EndsNumber rest) :
    valueFuel (fuel + 1) (intLiteral neg ds ++ rest)
      = some (.number (intLiteral neg ds), rest) := by
  obtain ⟨c, cs, hlit, hc⟩ := intLiteral_head neg ds hds
  have hn : ∀ d : Char, IsDigit d = false → d ≠ '-' → c ≠ d := by
    intro d hd hd'
    rcases hc with h | h
    · exact IsDigit_ne h hd
    · rw [h]; exact fun e => hd' e.symm
  have hnum := numberText_int neg ds rest hds hrest
  rw [hlit] at hnum ⊢
  simp only [List.cons_append] at hnum ⊢
  rw [valueFuel]
  rw [if_neg (hn dquote (by decide) (by decide)), if_neg (hn '[' (by decide) (by decide)),
    if_neg (hn '{' (by decide) (by decide)), if_neg (hn 't' (by decide) (by decide)),
    if_neg (hn 'f' (by decide) (by decide)), if_neg (hn 'n' (by decide) (by decide)), hnum]

theorem skipSpace_of_head (c : Char) (cs : List Char) (h : isSpace c = false) :
    skipSpace (c :: cs) = c :: cs := by
  simp [skipSpace, h]

theorem parse_int (neg : Bool) (ds : List Char) (hds : IsDecimal ds = true) :
    parse (intLiteral neg ds) = some (.number (intLiteral neg ds)) := by
  obtain ⟨c, cs, hlit, hc⟩ := intLiteral_head neg ds hds
  have hsp : isSpace c = false := by
    rcases hc with hc | rfl
    · have := IsDigit_not_white c hc
      simpa [isSpace, IsWhiteOrEndl, IsWhite] using this
    · decide
  have hv := valueFuel_int (2 * (intLiteral neg ds).length + 3) neg ds [] hds
    (by intro c hc; simp at hc)
  simp only [List.append_nil] at hv
  have hsk : skipSpace (intLiteral neg ds) = intLiteral neg ds := by
    rw [hlit]; exact skipSpace_of_head c cs hsp
  simp only [parse, hsk]
  rw [show 2 * (intLiteral neg ds).length + 4 = 2 * (intLiteral neg ds).length + 3 + 1 from rfl,
    hv]
  simp [skipSpace]

theorem ParseInt_int (neg : Bool) (ds : List Char) (hds : IsDecimal ds = true)
    (hfit : FitsInt neg ds = true) :
    ParseInt (intLiteral neg ds) = some (intLiteralValue neg ds) := by
  simp only [IsDecimal, Bool.and_eq_true, List.all_eq_true, Bool.not_eq_true',
    List.isEmpty_eq_false] at hds
  obtain ⟨⟨hne, hall⟩, _⟩ := hds
  have hne' : ds ≠ [] := by simpa using hne
  obtain ⟨d, ds', rfl⟩ := List.exists_cons_of_ne_nil hne'
  have hd : IsDigit d = true := hall d (List.mem_cons_self _ _)
  have hdm : d ≠ '-' := IsDigit_ne hd (by decide)
  have hdp : d ≠ '+' := IsDigit_ne hd (by decide)
  have hall' : (d :: ds').all IsDigit = true := by simpa [List.all_eq_true] using hall
  cases neg
  · simp only [FitsInt, Bool.false_eq_true, if_false, decide_eq_true_eq] at hfit
    simp only [ParseInt, intLiteral, intLiteralValue, Bool.false_eq_true, if_false,
      List.head?_cons, Option.some.injEq, hdm, hdp, or_self, decide_False, hall', Bool.not_true,
      or_false, reduceCtorEq, hfit, if_true]
  · simp only [FitsInt, if_true, decide_eq_true_eq] at hfit
    simp only [ParseInt, intLiteral, intLiteralValue, if_true, List.head?_cons, true_or,
      List.tail_cons, decide_True, hall', Bool.not_true, or_false, reduceCtorEq, hfit,
      Bool.false_eq_true, if_false]

end json

namespace jsonx
open lexing

theorem newParser_int (neg : Bool) (ds : List Char) (hds : IsDecimal ds = true) :
    newParser (intLiteral neg ds)
      = { x := ⟨[], [], (intLiteral neg ds).length, [], IsWhiteOrEndl⟩,
          t := ⟨tokNumber, intLiteral neg ds, 0⟩ } := by
  have h := nextToken_int [] neg ds [] 0 [] rfl hds (by intro c hc; simp at hc)
  simp only [List.nil_append, List.append_nil, List.length_nil, Nat.add_zero, Nat.zero_add] at h
  simp only [newParser, MakeLexer, h]

theorem UnmarshalInt_int (neg : Bool) (ds : List Char) (v : Int) (hds : IsDecimal ds = true)
    (hfit : FitsInt neg ds = true) :
    json.UnmarshalInt (intLiteral neg ds) v = (intLiteralValue neg ds, none) := by
  simp only [json.UnmarshalInt, json.parse_int neg ds hds, json.storeInt,
    json.ParseInt_int neg ds hds hfit]

theorem parseValue_int (neg : Bool) (ds : List Char) (hds : IsDecimal ds = true) :
    parseValue (newParser (intLiteral neg ds))
      = (.number (intLiteral neg ds),
          parser.atEnd (intLiteral neg ds).length) := by
  have hsh := nextToken_eof [] (intLiteral neg ds).length [] rfl
  simp only [List.length_nil, Nat.add_zero] at hsh
  rw [newParser_int neg ds hds]
  show parseValueFuel (2 * 0 + 3 + 1) _ = _
  rw [parseValueFuel_number (2 * 0 + 3) _ rfl]
  simp only [parser.Shift, hsh, parser.atEnd]

theorem ops_parseValue (p : parser) : ops.parseValue p = parseValue p := rfl

theorem ops_Errs (p : parser) : ops.Errs p = p.x.Errs := rfl

theorem ops_See (p : parser) (t : Int) : ops.See p t = decide (p.t.Typ = t) := rfl

theorem ops_tokSemi : ops.tokSemi = tokSemi := rfl

theorem ops_marshal (val : Value) : ops.marshalValueLexing val = (marshalValue val, none) := rfl

theorem NewDecoder_p (bs : List Char) : (NewDecoder ops bs).p = newParser bs := rfl

theorem More_atEnd (n : Nat) : Decoder.More ops { p := parser.atEnd n } = false := rfl

theorem Decode_int (neg : Bool) (ds : List Char) (v : Int) (hds : IsDecimal ds = true)
    (hfit : FitsInt neg ds = true) :
    (NewDecoder ops (intLiteral neg ds)).Decode ops json.UnmarshalInt v
      = { errs := none,
          dec := { p := parser.atEnd (intLiteral neg ds).length },
          target := intLiteralValue neg ds } := by
  have hb : json.UnmarshalInt (marshalValue (.number (intLiteral neg ds))) v
      = (intLiteralValue neg ds, none) := by
    rw [marshalValue]
    exact UnmarshalInt_int neg ds v hds hfit
  have hE : (parser.atEnd (intLiteral neg ds).length).x.Errs = none := rfl
  have hS : decide ((parser.atEnd (intLiteral neg ds).length).t.Typ = tokSemi) = false := rfl
  simp only [Decoder.Decode, ops_parseValue, NewDecoder_p, parseValue_int neg ds hds, ops_Errs,
    hE, ops_See, ops_tokSemi, hS, ops_marshal, hb, Bool.false_eq_true, if_false]

/-- C6. For every decimal integer literal, digits without a leading zero after
an optional minus sign, whose value fits an integer of 64 bits, and every
target: `Unmarshal` of the literal into the integer target returns a nil error
and sets the target to the numeric value of the literal, the value that the
standard decode routine gives for the literal. -/
theorem Unmarshal_int_literal (neg : Bool) (ds : List Char) (v : Int)
    (hds : IsDecimal ds = true) (hfit : FitsInt neg ds = true) :
    Unmarshal ops json.UnmarshalInt (intLiteral neg ds) v
      = .ok (none, intLiteralValue neg ds) ∧
    json.UnmarshalInt (intLiteral neg ds) v = (intLiteralValue neg ds, none) := by
  refine ⟨?_, UnmarshalInt_int neg ds v hds hfit⟩
  simp only [Unmarshal, Decode_int neg ds v hds hfit, More_atEnd, Bool.false_eq_true, if_false]

/-- C6, at the literal `1234` and the target `0`. -/
theorem Unmarshal_int_literal_witness :
    Unmarshal ops json.UnmarshalInt (intLiteral false ['1', '2', '3', '4']) 0
      = .ok (none, 1234) :=
  (Unmarshal_int_literal false ['1', '2', '3', '4'] 0 (by decide) (by decide)).1

end jsonx

/-! ## Values written one after the other: the stated claim -/

namespace jsonx
open lexing

theorem More_eq (d : Decoder parser) : d.More ops = !decide (d.p.t.Typ = EOF) := by
  show (!(decide (d.p.t.Typ = EOF) || (some d.p.t).isNone)) = _
  simp

/-- C3, refuted as stated: the values `1` and `2`, each of which decodes alone
from its own text, written one after the other without a separator are the
text `12`, on which the loop performs one decode, of the value 12. -/
theorem decodeAll_adjacent_numbers :
    Unmarshal ops json.UnmarshalInt ['1'] 0 = .ok (none, 1) ∧
    Unmarshal ops json.UnmarshalInt ['2'] 0 = .ok (none, 2) ∧
    decodeAll ops json.UnmarshalInt 0 3 (NewDecoder ops (['1'] ++ ['2'])) = ([12], none) := by
  refine ⟨by rfl, by rfl, by rfl⟩

end jsonx

/-! ## The lexer over a longer input -/

namespace jsonx
open lexing

theorem skipWhiteLoop_ext (b : List Char) (k : Nat) (x : Lexer) (inp : List Char)
    (h : (skipWhiteLoop x inp).input ≠ []) :
    skipWhiteLoop (ext b k x) (inp ++ b) = ext b k (skipWhiteLoop x inp) := by
  induction inp generalizing x with
  | nil => simp [skipWhiteLoop] at h
  | cons c cs ih =>
    show skipWhiteLoop (ext b k x) (c :: (cs ++ b)) = _
    by_cases hc : x.IsWhite c = true
    · have hc' : (ext b k x).IsWhite c = true := hc
      simp only [skipWhiteLoop, hc, if_true] at h
      simp only [skipWhiteLoop, hc, hc', if_true]
      exact ih { x with buf := x.buf ++ [c] } h
    · have hc' : (ext b k x).IsWhite c = false := by simpa using hc
      have hc2 : x.IsWhite c = false := by simpa using hc
      simp only [skipWhiteLoop, hc2, hc', if_false, Bool.false_eq_true]
      simp [ext]

end jsonx

namespace jsonx
open lexing

theorem Took.took_refl (x : Lexer) : Took x x.input x :=
  ⟨[], [], by simp, by simp, rfl, by simp, rfl⟩

theorem Took.took_trans {x y z : Lexer} {inp : List Char} (h1 : Took x inp y) (h2 : Took y y.input z) :
    Took x inp z := by
  obtain ⟨p1, e1, hi1, hb1, ho1, he1, hw1⟩ := h1
  obtain ⟨p2, e2, hi2, hb2, ho2, he2, hw2⟩ := h2
  refine ⟨p1 ++ p2, e1 ++ e2, ?_, ?_, ?_, ?_, ?_⟩
  · rw [hi1, hi2]; simp
  · rw [hb2, hb1]; simp
  · rw [ho2, ho1]
  · rw [he2, he1]; simp
  · rw [hw2, hw1]

theorem Took.push (x : Lexer) (c : Char) (cs : List Char) {r : Lexer}
    (h : Took { x with buf := x.buf ++ [c] } cs r) : Took x (c :: cs) r := by
  obtain ⟨p, e, hi, hb, ho, he, hw⟩ := h
  exact ⟨c :: p, e, by rw [hi]; simp, by rw [hb]; simp, ho, he, hw⟩

theorem Took.stop (x : Lexer) (inp : List Char) : Took x inp { x with input := inp } :=
  ⟨[], [], by simp, by simp, rfl, by simp, rfl⟩

theorem Took.next (x : Lexer) : Took x x.input x.Next := by
  unfold Lexer.Next
  cases h : x.input with
  | nil => simp only; rw [← h]; exact Took.took_refl x
  | cons c cs => exact ⟨[c], [], by simp, rfl, rfl, by simp, rfl⟩

theorem Took.took_errorf (x : Lexer) (msg : String) : Took x x.input (x.Errorf msg) :=
  ⟨[], [_], by simp [Lexer.Errorf], by simp [Lexer.Errorf], rfl, rfl, rfl⟩

theorem Took.took_errs_nil {x r : Lexer} {inp : List Char} (h : Took x inp r) (hr : r.errs = []) :
    x.errs = [] ∧ r.errs = x.errs := by
  obtain ⟨p, e, _, _, _, he, _⟩ := h
  rw [hr] at he
  have := List.append_eq_nil.1 he.symm
  exact ⟨this.1, by rw [hr, this.1]⟩

theorem Took.errs_eq {x y z : Lexer} {i1 i2 : List Char} (h1 : Took x i1 y) (h2 : Took y i2 z)
    (h : z.errs = x.errs) : y.errs = x.errs ∧ z.errs = y.errs := by
  obtain ⟨_, e1, _, _, _, he1, _⟩ := h1
  obtain ⟨_, e2, _, _, _, he2, _⟩ := h2
  rw [he2, he1, List.append_assoc] at h
  have h' : e1 ++ e2 = [] := by
    have := congrArg List.length h
    simp only [List.length_append] at this
    exact List.eq_nil_of_length_eq_zero (by simp only [List.length_append]; omega)
  have := List.append_eq_nil.1 h'
  constructor
  · rw [he1, this.1]; simp
  · rw [he2, this.2]; simp

theorem Took.input_ne_nil {x r : Lexer} {inp : List Char} (h : Took x inp r)
    (hr : r.input ≠ []) : inp ≠ [] := by
  obtain ⟨p, _, hi, _⟩ := h
  rw [hi]
  intro he
  exact hr (List.append_eq_nil.1 he).2

theorem identLoop_took (x : Lexer) (inp : List Char) : Took x inp (identLoop x inp) := by
  induction inp generalizing x with
  | nil => exact Took.stop x []
  | cons c cs ih =>
    by_cases hc : (IsIdentLetter c || IsDigit c) = true
    · simp only [identLoop, hc, if_true]
      exact Took.push x c cs (ih _)
    · simp only [identLoop, hc, if_false]
      exact Took.stop x (c :: cs)

theorem digitLoop_took (x : Lexer) (inp : List Char) : Took x inp (digitLoop x inp) := by
  induction inp generalizing x with
  | nil => exact Took.stop x []
  | cons c cs ih =>
    by_cases hc : IsDigit c = true
    · simp only [digitLoop, hc, if_true]
      exact Took.push x c cs (ih _)
    · simp only [digitLoop, hc, if_false]
      exact Took.stop x (c :: cs)

theorem rawStringLoop_took (x : Lexer) (inp : List Char) : Took x inp (rawStringLoop x inp) := by
  induction inp generalizing x with
  | nil => exact ⟨[], [_], by simp [rawStringLoop, Lexer.Errorf], by simp [rawStringLoop, Lexer.Errorf], rfl, rfl, rfl⟩
  | cons c cs ih =>
    by_cases hc : c = backquote
    · simp only [rawStringLoop, hc, if_true]
      exact ⟨[backquote], [], by simp, rfl, rfl, by simp, rfl⟩
    · simp only [rawStringLoop, hc, if_false]
      exact Took.push x c cs (ih _)

theorem stringLoop_took (q : Char) (e : Bool) (x : Lexer) (inp : List Char) :
    Took x inp (stringLoop q e x inp) := by
  induction inp generalizing x e with
  | nil =>
    cases e <;>
    exact ⟨[], [_], by simp [stringLoop, Lexer.Errorf], by simp [stringLoop, Lexer.Errorf], rfl, rfl, rfl⟩
  | cons c cs ih =>
    cases e with
    | true =>
      simp only [stringLoop]
      exact Took.push x c cs (ih _ _)
    | false =>
      by_cases h1 : c = '\n'
      · simp only [stringLoop, h1, if_true]
        exact ⟨[], [_], by simp [Lexer.Errorf], by simp [Lexer.Errorf], rfl, rfl, rfl⟩
      by_cases h2 : c = backslash
      · simp only [stringLoop, h1, h2, if_true, if_false]
        exact Took.push x _ cs (ih _ _)
      by_cases h3 : c = q
      · subst h3
        simp only [stringLoop, h1, h2, if_true, if_false]
        exact ⟨[c], [], by simp, rfl, rfl, by simp, rfl⟩
      · simp only [stringLoop, h1, h2, h3, if_false]
        exact Took.push x c cs (ih _ _)

end jsonx

namespace jsonx
open lexing

theorem errs_append_ne (es : List Error) (e : Error) : es ++ [e] ≠ es := by
  intro h
  have := congrArg List.length h
  simp at this

theorem identLoop_ext (b : List Char) (k : Nat) (x : Lexer) (inp : List Char)
    (h : (identLoop x inp).input ≠ [] ∨
      ∀ d, b.head? = some d → (IsIdentLetter d || IsDigit d) = false) :
    identLoop (ext b k x) (inp ++ b) = ext b k (identLoop x inp) := by
  induction inp generalizing x with
  | nil =>
    have hb : ∀ d, b.head? = some d → (IsIdentLetter d || IsDigit d) = false := by
      rcases h with h | h
      · simp [identLoop] at h
      · exact h
    cases b with
    | nil => simp [identLoop, ext]
    | cons d ds =>
      have := hb d rfl
      simp only [List.nil_append, identLoop, this, if_false, Bool.false_eq_true]
      simp [ext]
  | cons c cs ih =>
    show identLoop (ext b k x) (c :: (cs ++ b)) = _
    by_cases hc : (IsIdentLetter c || IsDigit c) = true
    · simp only [identLoop, hc, if_true] at h ⊢
      exact ih { x with buf := x.buf ++ [c] } h
    · simp only [identLoop, hc, if_false]
      simp [ext]

theorem digitLoop_ext (b : List Char) (k : Nat) (x : Lexer) (inp : List Char)
    (h : (digitLoop x inp).input ≠ [] ∨ ∀ d, b.head? = some d → IsDigit d = false) :
    digitLoop (ext b k x) (inp ++ b) = ext b k (digitLoop x inp) := by
  induction inp generalizing x with
  | nil =>
    have hb : ∀ d, b.head? = some d → IsDigit d = false := by
      rcases h with h | h
      · simp [digitLoop] at h
      · exact h
    cases b with
    | nil => simp [digitLoop, ext]
    | cons d ds =>
      have := hb d rfl
      simp only [List.nil_append, digitLoop, this, if_false, Bool.false_eq_true]
      simp [ext]
  | cons c cs ih =>
    show digitLoop (ext b k x) (c :: (cs ++ b)) = _
    by_cases hc : IsDigit c = true
    · simp only [digitLoop, hc, if_true] at h ⊢
      exact ih { x with buf := x.buf ++ [c] } h
    · simp only [digitLoop, hc, if_false]
      simp [ext]

theorem rawStringLoop_ext (b : List Char) (k : Nat) (x : Lexer) (inp : List Char)
    (h : (rawStringLoop x inp).errs = x.errs) :
    rawStringLoop (ext b k x) (inp ++ b) = ext b k (rawStringLoop x inp) := by
  induction inp generalizing x with
  | nil =>
    simp only [rawStringLoop, Lexer.Errorf] at h
    exact absurd h (errs_append_ne _ _)
  | cons c cs ih =>
    show rawStringLoop (ext b k x) (c :: (cs ++ b)) = _
    by_cases hc : c = backquote
    · simp only [rawStringLoop, hc, if_true]
      simp [ext]
    · simp only [rawStringLoop, hc, if_false] at h ⊢
      exact ih { x with buf := x.buf ++ [c] } h

theorem stringLoop_ext (q : Char) (e : Bool) (b : List Char) (k : Nat) (x : Lexer)
    (inp : List Char) (h : (stringLoop q e x inp).errs = x.errs) :
    stringLoop q e (ext b k x) (inp ++ b) = ext b k (stringLoop q e x inp) := by
  induction inp generalizing x e with
  | nil =>
    cases e <;>
    · simp only [stringLoop, Lexer.Errorf] at h
      exact absurd h (errs_append_ne _ _)
  | cons c cs ih =>
    show stringLoop q e (ext b k x) (c :: (cs ++ b)) = _
    cases e with
    | true =>
      simp only [stringLoop] at h ⊢
      exact ih false { x with buf := x.buf ++ [c] } h
    | false =>
      by_cases h1 : c = '\n'
      · simp only [stringLoop, h1, if_true, Lexer.Errorf] at h
        exact absurd h (errs_append_ne _ _)
      by_cases h2 : c = backslash
      · simp only [stringLoop, h1, h2, if_true, if_false] at h ⊢
        exact ih true { x with buf := x.buf ++ [backslash] } h
      by_cases h3 : c = q
      · subst h3
        simp only [stringLoop, h1, h2, if_true, if_false]
        simp [ext]
      · simp only [stringLoop, h1, h2, h3, if_false] at h ⊢
        exact ih false { x with buf := x.buf ++ [c] } h

theorem ext_Next (b : List Char) (k : Nat) (x : Lexer) (h : x.input ≠ []) :
    (ext b k x).Next = ext b k x.Next := by
  obtain ⟨c, cs, hx⟩ := List.exists_cons_of_ne_nil h
  simp only [Lexer.Next, ext, hx, List.cons_append]

theorem ext_Rune (b : List Char) (k : Nat) (x : Lexer) (h : x.input ≠ []) :
    (ext b k x).Rune = x.Rune := by
  obtain ⟨c, cs, hx⟩ := List.exists_cons_of_ne_nil h
  simp only [Lexer.Rune, ext, hx, List.cons_append, List.headD_cons]

theorem ext_See (b : List Char) (k : Nat) (x : Lexer) (r : Char) (h : x.input ≠ []) :
    (ext b k x).See r = x.See r := by
  obtain ⟨c, cs, hx⟩ := List.exists_cons_of_ne_nil h
  simp only [Lexer.See, ext, hx, List.cons_append, List.head?_cons]

theorem ext_MakeToken (b : List Char) (k : Nat) (x : Lexer) (t : Int) :
    (ext b k x).MakeToken t = (shiftTok k (x.MakeToken t).1, ext b k (x.MakeToken t).2) := by
  simp only [Lexer.MakeToken, ext, shiftTok, Lexer.here, Nat.add_right_comm]

theorem ext_input (b : List Char) (k : Nat) (x : Lexer) : (ext b k x).input = x.input ++ b := rfl

end jsonx

namespace jsonx
open lexing

theorem HeadEnds.digit {b : List Char} (h : HeadEnds b) :
    ∀ d, b.head? = some d → IsDigit d = false := by
  intro d hd
  have := h d hd
  simp only [Continues, Bool.or_eq_false_iff] at this
  exact this.1.1.1

theorem HeadEnds.not_see {b : List Char} (h : HeadEnds b) (c : Char)
    (hc : Continues c = true) (k : Nat) (x : Lexer) (hx : x.input = []) :
    (ext b k x).See c = false := by
  simp only [Lexer.See, ext, hx, List.nil_append, decide_eq_false_iff_not]
  intro hd
  have := h c hd
  rw [hc] at this
  exact Bool.noConfusion this

theorem See_nil (x : Lexer) (c : Char) (hx : x.input = []) : x.See c = false := by
  simp [Lexer.See, hx]

theorem lexSign_took (x : Lexer) : Took x x.input (lexSign x) := by
  unfold lexSign
  split
  · exact Took.next x
  · exact Took.took_refl x

theorem lexDigits_took (x : Lexer) (msg : String) : Took x x.input (lexDigits x msg) := by
  unfold lexDigits
  split
  · exact digitLoop_took x x.input
  · exact Took.took_errorf x msg

theorem lexFraction_took (x : Lexer) : Took x x.input (lexFraction x) := by
  unfold lexFraction
  split
  · exact Took.took_trans (Took.next x) (lexDigits_took _ _)
  · exact Took.took_refl x

theorem lexExponent_took (x : Lexer) : Took x x.input (lexExponent x) := by
  unfold lexExponent
  split
  · simp only []
    split
    · exact Took.took_trans (Took.took_trans (Took.next x) (Took.next _)) (lexDigits_took _ _)
    · exact Took.took_trans (Took.next x) (lexDigits_took _ _)
  · exact Took.took_refl x

theorem lexSign_ext (b : List Char) (k : Nat) (x : Lexer) (h : x.input ≠ []) :
    lexSign (ext b k x) = ext b k (lexSign x) := by
  unfold lexSign
  rw [ext_See b k x _ h]
  split
  · exact ext_Next b k x h
  · rfl

theorem Rune_digit_ne_nil (x : Lexer) (h : IsDigit x.Rune = true) : x.input ≠ [] := by
  intro hx
  simp only [Lexer.Rune, hx, List.headD_nil] at h
  exact absurd h (by decide)

theorem lexDigits_ext (b : List Char) (k : Nat) (x : Lexer) (msg : String)
    (he : (lexDigits x msg).errs = x.errs)
    (hb : (lexDigits x msg).input ≠ [] ∨ HeadEnds b) :
    lexDigits (ext b k x) msg = ext b k (lexDigits x msg) := by
  unfold lexDigits at he hb ⊢
  by_cases hd : IsDigit x.Rune = true
  · have hx := Rune_digit_ne_nil x hd
    rw [ext_Rune b k x hx]
    simp only [hd, if_true] at hb ⊢
    exact digitLoop_ext b k x x.input (hb.imp id HeadEnds.digit)
  · simp only [hd, if_false, Lexer.Errorf] at he
    exact absurd he (errs_append_ne _ _)

theorem lexFraction_ext (b : List Char) (k : Nat) (x : Lexer)
    (he : (lexFraction x).errs = x.errs) (hb : (lexFraction x).input ≠ [] ∨ HeadEnds b) :
    lexFraction (ext b k x) = ext b k (lexFraction x) := by
  unfold lexFraction at he hb ⊢
  by_cases hx : x.input = []
  · have h1 := See_nil x '.' hx
    simp only [h1, if_false, Bool.false_eq_true] at hb ⊢
    have hb' : HeadEnds b := hb.elim (fun h => absurd hx h) id
    rw [hb'.not_see '.' (by decide) k x hx]
    simp
  · rw [ext_See b k x _ hx]
    by_cases hs : x.See '.' = true
    · simp only [hs, if_true] at he hb ⊢
      have hn : x.Next.errs = x.errs := by
        obtain ⟨_, e, _, _, _, hee, _⟩ := Took.next x
        exact (Took.errs_eq (Took.next x) (lexDigits_took x.Next _) he).1
      rw [ext_Next b k x hx]
      exact lexDigits_ext b k x.Next _ (he.trans hn.symm) hb
    · simp only [hs, if_false, Bool.false_eq_true]

theorem lexExponent_ext (b : List Char) (k : Nat) (x : Lexer)
    (he : (lexExponent x).errs = x.errs) (hb : (lexExponent x).input ≠ [] ∨ HeadEnds b) :
    lexExponent (ext b k x) = ext b k (lexExponent x) := by
  unfold lexExponent at he hb ⊢
  by_cases hx : x.input = []
  · have h1 := See_nil x 'e' hx
    have h2 := See_nil x 'E' hx
    simp only [h1, h2, Bool.or_self, if_false, Bool.false_eq_true] at hb ⊢
    have hb' : HeadEnds b := hb.elim (fun h => absurd hx h) id
    rw [hb'.not_see 'e' (by decide) k x hx, hb'.not_see 'E' (by decide) k x hx]
    simp
  · rw [ext_See b k x _ hx, ext_See b k x _ hx]
    by_cases hs : (x.See 'e' || x.See 'E') = true
    · simp only [hs, if_true] at he hb ⊢
      rw [ext_Next b k x hx]
      by_cases hy : x.Next.input = []
      · exfalso
        have h1 := See_nil x.Next '+' hy
        have h2 := See_nil x.Next '-' hy
        simp only [h1, h2, Bool.or_self, if_false, Bool.false_eq_true] at he
        have hr : IsDigit x.Next.Rune = false := by
          simp only [Lexer.Rune, hy, List.headD_nil]; decide
        simp only [lexDigits, hr, if_false, Bool.false_eq_true, Lexer.Errorf] at he
        have hn : x.Next.errs = x.errs := by
          unfold Lexer.Next
          split <;> rfl
        rw [hn] at he
        exact absurd he (errs_append_ne _ _)
      · rw [ext_See b k x.Next _ hy, ext_See b k x.Next _ hy]
        have hn : x.Next.errs = x.errs := by
          unfold Lexer.Next
          split <;> rfl
        by_cases hs2 : (x.Next.See '+' || x.Next.See '-') = true
        · simp only [hs2, if_true] at he hb ⊢
          have hnn : x.Next.Next.errs = x.errs := by
            rw [← hn]
            unfold Lexer.Next
            split <;> rfl
          rw [ext_Next b k x.Next hy]
          exact lexDigits_ext b k x.Next.Next _ (he.trans hnn.symm) hb
        · simp only [hs2, if_false] at he hb ⊢
          exact lexDigits_ext b k x.Next _ (he.trans hn.symm) hb
    · simp only [hs, if_false, Bool.false_eq_true]

end jsonx

namespace jsonx
open lexing

theorem Took.or_ne_nil {x r : Lexer} {inp : List Char} {P : Prop} (h : Took x inp r)
    (hr : r.input ≠ [] ∨ P) : inp ≠ [] ∨ P :=
  hr.imp (fun h' => h.input_ne_nil h') id

theorem lexNumber_ext (b : List Char) (k : Nat) (x : Lexer) (hx : x.input ≠ [])
    (he : (lexNumber x).2.errs = x.errs) (hb : (lexNumber x).2.input ≠ [] ∨ HeadEnds b) :
    lexNumber (ext b k x) = (shiftTok k (lexNumber x).1, ext b k (lexNumber x).2) := by
  have t1 := lexSign_took x
  have t2 := lexDigits_took (lexSign x) "invalid number: no digit"
  have t3 := lexFraction_took (lexDigits (lexSign x) "invalid number: no digit")
  have t4 := lexExponent_took (lexFraction (lexDigits (lexSign x) "invalid number: no digit"))
  have he4 : (lexExponent (lexFraction (lexDigits (lexSign x) "invalid number: no digit"))).errs
      = x.errs := he
  have hb4 : (lexExponent (lexFraction (lexDigits (lexSign x) "invalid number: no digit"))).input
      ≠ [] ∨ HeadEnds b := hb
  obtain ⟨e3, e43⟩ := Took.errs_eq (Took.took_trans (Took.took_trans t1 t2) t3) t4 he4
  obtain ⟨e2, e32⟩ := Took.errs_eq (Took.took_trans t1 t2) t3 e3
  obtain ⟨e1, e21⟩ := Took.errs_eq t1 t2 e2
  have hb3 := t4.or_ne_nil hb4
  have hb2 := t3.or_ne_nil hb3
  unfold lexNumber
  rw [lexSign_ext b k x hx, lexDigits_ext b k _ _ e21 hb2, lexFraction_ext b k _ e32 hb3,
    lexExponent_ext b k _ e43 hb4, ext_MakeToken]

theorem LexIdent_ext (b : List Char) (k : Nat) (x : Lexer) (t : Int) (hx : x.input ≠ [])
    (hb : (LexIdent x t).2.input ≠ [] ∨ HeadEndsIdent b) :
    LexIdent (ext b k x) t = (shiftTok k (LexIdent x t).1, ext b k (LexIdent x t).2) := by
  have hb' : (identLoop x.Next x.Next.input).input ≠ [] ∨ HeadEndsIdent b := hb
  unfold LexIdent
  simp only []
  rw [ext_Next b k x hx, ext_input, identLoop_ext b k x.Next x.Next.input
    (hb'.imp id (fun h => h)), ext_MakeToken]

theorem Next_errs (x : Lexer) : x.Next.errs = x.errs := by
  unfold Lexer.Next
  split <;> rfl

theorem LexString_ext (b : List Char) (k : Nat) (x : Lexer) (t : Int) (hx : x.input ≠ [])
    (he : (LexString x t dquote).2.errs = x.errs) :
    LexString (ext b k x) t dquote
      = (shiftTok k (LexString x t dquote).1, ext b k (LexString x t dquote).2) := by
  have he' : (stringLoop dquote false x.Next x.Next.input).errs = x.Next.errs := by
    rw [Next_errs]; exact he
  unfold LexString
  simp only []
  rw [ext_Next b k x hx, ext_input, stringLoop_ext dquote false b k x.Next x.Next.input he',
    ext_MakeToken]

theorem LexRawString_ext (b : List Char) (k : Nat) (x : Lexer) (t : Int) (hx : x.input ≠ [])
    (he : (LexRawString x t).2.errs = x.errs) :
    LexRawString (ext b k x) t
      = (shiftTok k (LexRawString x t).1, ext b k (LexRawString x t).2) := by
  have he' : (rawStringLoop x.Next x.Next.input).errs = x.Next.errs := by
    rw [Next_errs]; exact he
  unfold LexRawString
  simp only []
  rw [ext_Next b k x hx, ext_input, rawStringLoop_ext b k x.Next x.Next.input he',
    ext_MakeToken]

theorem single_ext (b : List Char) (k : Nat) (x : Lexer) (t : Int) (hx : x.input ≠ []) :
    (ext b k x).Next.MakeToken t
      = (shiftTok k (x.Next.MakeToken t).1, ext b k (x.Next.MakeToken t).2) := by
  rw [ext_Next b k x hx, ext_MakeToken]

end jsonx

namespace jsonx
open lexing

theorem lexNumber_took (x : Lexer) :
    Took x x.input (lexExponent (lexFraction (lexDigits (lexSign x) "invalid number: no digit"))) :=
  Took.took_trans (Took.took_trans (Took.took_trans (lexSign_took x) (lexDigits_took _ _)) (lexFraction_took _))
    (lexExponent_took _)

theorem lexValue_shape (x : Lexer) : ∃ r t, Took x x.input r ∧ lexValue x = r.MakeToken t := by
  rw [lexValue]
  by_cases h0 : x.Rune = dquote
  · rw [if_pos h0]
    exact ⟨_, _, Took.took_trans (Took.next x) (stringLoop_took _ _ _ _), rfl⟩
  rw [if_neg h0]
  by_cases h1 : x.Rune = backquote
  · rw [if_pos h1]
    exact ⟨_, _, Took.took_trans (Took.next x) (rawStringLoop_took _ _), rfl⟩
  rw [if_neg h1]
  by_cases h2 : x.Rune = ':'
  · rw [if_pos h2]; exact ⟨_, _, Took.next x, rfl⟩
  rw [if_neg h2]
  by_cases h3 : x.Rune = ';'
  · rw [if_pos h3]; exact ⟨_, _, Took.next x, rfl⟩
  rw [if_neg h3]
  by_cases h4 : x.Rune = ','
  · rw [if_pos h4]; exact ⟨_, _, Took.next x, rfl⟩
  rw [if_neg h4]
  by_cases h5 : x.Rune = '['
  · rw [if_pos h5]; exact ⟨_, _, Took.next x, rfl⟩
  rw [if_neg h5]
  by_cases h6 : x.Rune = ']'
  · rw [if_pos h6]; exact ⟨_, _, Took.next x, rfl⟩
  rw [if_neg h6]
  by_cases h7 : x.Rune = '{'
  · rw [if_pos h7]; exact ⟨_, _, Took.next x, rfl⟩
  rw [if_neg h7]
  by_cases h8 : x.Rune = '}'
  · rw [if_pos h8]; exact ⟨_, _, Took.next x, rfl⟩
  rw [if_neg h8]
  by_cases h9 : (IsDigit x.Rune || decide (x.Rune = '-')) = true
  · rw [if_pos h9]; exact ⟨_, _, lexNumber_took x, rfl⟩
  rw [if_neg h9]
  by_cases h10 : IsIdentLetter x.Rune = true
  · rw [if_pos h10]
    exact ⟨_, _, Took.took_trans (Took.next x) (identLoop_took _ _), rfl⟩
  rw [if_neg h10]
  exact ⟨_, _, Took.took_trans (Took.took_errorf x _) (Took.next _), rfl⟩

theorem Lexed.lexed_refl (x : Lexer) (h : x.buf = []) : Lexed x x := ⟨[], [], by simp, h, by simp, rfl⟩

theorem Lexed.lexed_trans {x y z : Lexer} (h1 : Lexed x y) (h2 : Lexed y z) : Lexed x z := by
  obtain ⟨p1, e1, hi1, _, he1, hw1⟩ := h1
  obtain ⟨p2, e2, hi2, hb2, he2, hw2⟩ := h2
  exact ⟨p1 ++ p2, e1 ++ e2, by rw [hi1, hi2]; simp, hb2, by rw [he2, he1]; simp,
    by rw [hw2, hw1]⟩

theorem Lexed.lexed_errs_nil {x r : Lexer} (h : Lexed x r) (hr : r.errs = []) : x.errs = [] := by
  obtain ⟨_, e, _, _, he, _⟩ := h
  rw [hr] at he
  exact (List.append_eq_nil.1 he.symm).1

theorem skipWhite_lexed (x : Lexer) : Lexed x x.skipWhite := by
  obtain ⟨h1, h2, h3⟩ := skipWhiteLoop_input x x.input
  refine ⟨x.input.takeWhile x.IsWhite, [], ?_, rfl, ?_, ?_⟩
  · show x.input = _ ++ (skipWhiteLoop x x.input).input
    rw [h1, List.takeWhile_append_dropWhile]
  · show (skipWhiteLoop x x.input).errs = _
    rw [h3]; simp
  · exact h2

theorem MakeToken_lexed {x r : Lexer} (t : Int) (h : Took x x.input r) :
    Lexed x (r.MakeToken t).2 := by
  obtain ⟨p, e, hi, _, _, he, hw⟩ := h
  exact ⟨p, e, hi, rfl, he, hw⟩

theorem lexValue_lexed (x : Lexer) : Lexed x (lexValue x).2 := by
  obtain ⟨r, t, ht, hv⟩ := lexValue_shape x
  rw [hv]
  exact MakeToken_lexed t ht

theorem nextToken_lexed (x : Lexer) : Lexed x (nextToken x).2 := by
  unfold nextToken
  simp only []
  split
  · exact (skipWhite_lexed x).lexed_trans (MakeToken_lexed EOF (Took.took_refl _))
  · exact (skipWhite_lexed x).lexed_trans (lexValue_lexed _)

theorem shiftFrom_lexed (x : Lexer) : Lexed x (shiftFrom x).x := nextToken_lexed x

end jsonx

namespace jsonx
open lexing

theorem lexValue_ext (b : List Char) (k : Nat) (x : Lexer)
    (hx : x.input ≠ []) (he : (lexValue x).2.errs = x.errs)
    (hap : (lexValue x).2.input = [] →
      ∀ d, b.head? = some d → carriesOn (lexValue x).1.Typ d = false) :
    lexValue (ext b k x) = (shiftTok k (lexValue x).1, ext b k (lexValue x).2) := by
  by_cases h0 : x.Rune = dquote
  · have hv : lexValue x = LexString x tokString x.Rune := by
      rw [lexValue, if_pos h0]
    have hv' : lexValue (ext b k x) = LexString (ext b k x) tokString (ext b k x).Rune := by
      rw [lexValue, ext_Rune b k x hx, if_pos h0]
    rw [hv] at he
    rw [hv', hv]
    rw [ext_Rune b k x hx]
    rw [h0] at he ⊢
    exact LexString_ext b k x tokString hx he
  by_cases h1 : x.Rune = backquote
  · have hv : lexValue x = LexRawString x tokRawString := by
      rw [lexValue, if_neg h0, if_pos h1]
    have hv' : lexValue (ext b k x) = LexRawString (ext b k x) tokRawString := by
      rw [lexValue, ext_Rune b k x hx, if_neg h0, if_pos h1]
    rw [hv] at he
    rw [hv', hv]
    exact LexRawString_ext b k x tokRawString hx he
  by_cases h2 : x.Rune = ':'
  · have hv : lexValue x = x.Next.MakeToken tokColon := by
      rw [lexValue, if_neg h0, if_neg h1, if_pos h2]
    have hv' : lexValue (ext b k x) = (ext b k x).Next.MakeToken tokColon := by
      rw [lexValue, ext_Rune b k x hx, if_neg h0, if_neg h1, if_pos h2]
    rw [hv] at he
    rw [hv', hv]
    exact single_ext b k x _ hx
  by_cases h3 : x.Rune = ';'
  · have hv : lexValue x = x.Next.MakeToken tokSemi := by
      rw [lexValue, if_neg h0, if_neg h1, if_neg h2, if_pos h3]
    have hv' : lexValue (ext b k x) = (ext b k x).Next.MakeToken tokSemi := by
      rw [lexValue, ext_Rune b k x hx, if_neg h0, if_neg h1, if_neg h2, if_pos h3]
    rw [hv] at he
    rw [hv', hv]
    exact single_ext b k x _ hx
  by_cases h4 : x.Rune = ','
  · have hv : lexValue x = x.Next.MakeToken tokComma := by
      rw [lexValue, if_neg h0, if_neg h1, if_neg h2, if_neg h3, if_pos h4]
    have hv' : lexValue (ext b k x) = (ext b k x).Next.MakeToken tokComma := by
      rw [lexValue, ext_Rune b k x hx, if_neg h0, if_neg h1, if_neg h2, if_neg h3, if_pos h4]
    rw [hv] at he
    rw [hv', hv]
    exact single_ext b k x _ hx
  by_cases h5 : x.Rune = '['
  · have hv : lexValue x = x.Next.MakeToken tokLbrack := by
      rw [lexValue, if_neg h0, if_neg h1, if_neg h2, if_neg h3, if_neg h4, if_pos h5]
    have hv' : lexValue (ext b k x) = (ext b k x).Next.MakeToken tokLbrack := by
      rw [lexValue, ext_Rune b k x hx, if_neg h0, if_neg h1, if_neg h2, if_neg h3, if_neg h4, if_pos h5]
    rw [hv] at he
    rw [hv', hv]
    exact single_ext b k x _ hx
  by_cases h6 : x.Rune = ']'
  · have hv : lexValue x = x.Next.MakeToken tokRbrack := by
      rw [lexValue, if_neg h0, if_neg h1, if_neg h2, if_neg h3, if_neg h4, if_neg h5, if_pos h6]
    have hv' : lexValue (ext b k x) = (ext b k x).Next.MakeToken tokRbrack := by
      rw [lexValue, ext_Rune b k x hx, if_neg h0, if_neg h1, if_neg h2, if_neg h3, if_neg h4, if_neg h5, if_pos h6]
    rw [hv] at he
    rw [hv', hv]
    exact single_ext b k x _ hx
  by_cases h7 : x.Rune = '{'
  · have hv : lexValue x = x.Next.MakeToken tokLbrace := by
      rw [lexValue, if_neg h0, if_neg h1, if_neg h2, if_neg h3, if_neg h4, if_neg h5, if_neg h6, if_pos h7]
    have hv' : lexValue (ext b k x) = (ext b k x).Next.MakeToken tokLbrace := by
      rw [lexValue, ext_Rune b k x hx, if_neg h0, if_neg h1, if_neg h2, if_neg h3, if_neg h4, if_neg h5, if_neg h6, if_pos h7]
    rw [hv] at he
    rw [hv', hv]
    exact single_ext b k x _ hx
  by_cases h8 : x.Rune = '}'
  · have hv : lexValue x = x.Next.MakeToken tokRbrace := by
      rw [lexValue, if_neg h0, if_neg h1, if_neg h2, if_neg h3, if_neg h4, if_neg h5, if_neg h6, if_neg h7, if_pos h8]
    have hv' : lexValue (ext b k x) = (ext b k x).Next.MakeToken tokRbrace := by
      rw [lexValue, ext_Rune b k x hx, if_neg h0, if_neg h1, if_neg h2, if_neg h3, if_neg h4, if_neg h5, if_neg h6, if_neg h7, if_pos h8]
    rw [hv] at he
    rw [hv', hv]
    exact single_ext b k x _ hx
  by_cases h9 : (IsDigit x.Rune || decide (x.Rune = '-')) = true
  · have hv : lexValue x = lexNumber x := by
      rw [lexValue, if_neg h0, if_neg h1, if_neg h2, if_neg h3, if_neg h4, if_neg h5, if_neg h6, if_neg h7, if_neg h8, if_pos h9]
    have hv' : lexValue (ext b k x) = lexNumber (ext b k x) := by
      rw [lexValue, ext_Rune b k x hx, if_neg h0, if_neg h1, if_neg h2, if_neg h3, if_neg h4, if_neg h5, if_neg h6, if_neg h7, if_neg h8, if_pos h9]
    rw [hv] at he hap
    rw [hv', hv]
    refine lexNumber_ext b k x hx he ?_
    by_cases hin : (lexNumber x).2.input = []
    · right
      intro d hd
      have h := hap hin d hd
      have ht : (lexNumber x).1.Typ = tokNumber := rfl
      rw [ht] at h
      have e1 : decide (tokNumber = tokIdent) = false := by decide
      have e2 : decide (tokNumber = tokNumber) = true := by decide
      simp only [carriesOn, e1, e2, Bool.false_and, Bool.true_and, Bool.false_or] at h
      exact h
    · exact Or.inl hin
  by_cases h10 : IsIdentLetter x.Rune = true
  · have hv : lexValue x = LexIdent x tokIdent := by
      rw [lexValue, if_neg h0, if_neg h1, if_neg h2, if_neg h3, if_neg h4, if_neg h5, if_neg h6, if_neg h7, if_neg h8, if_neg h9, if_pos h10]
    have hv' : lexValue (ext b k x) = LexIdent (ext b k x) tokIdent := by
      rw [lexValue, ext_Rune b k x hx, if_neg h0, if_neg h1, if_neg h2, if_neg h3, if_neg h4, if_neg h5, if_neg h6, if_neg h7, if_neg h8, if_neg h9, if_pos h10]
    rw [hv] at he hap
    rw [hv', hv]
    refine LexIdent_ext b k x tokIdent hx ?_
    by_cases hin : (LexIdent x tokIdent).2.input = []
    · right
      intro d hd
      have h := hap hin d hd
      have ht : (LexIdent x tokIdent).1.Typ = tokIdent := rfl
      rw [ht] at h
      have e1 : decide (tokIdent = tokIdent) = true := by decide
      have e2 : decide (tokIdent = tokNumber) = false := by decide
      simp only [carriesOn, e1, e2, Bool.false_and, Bool.true_and, Bool.or_false, IsAlnum] at h
      exact h
    · exact Or.inl hin
  exfalso
  have hv : lexValue x
      = (x.Errorf ("illegal char " ++ String.singleton x.Rune)).Next.MakeToken Illegal := by
    rw [lexValue, if_neg h0, if_neg h1, if_neg h2, if_neg h3, if_neg h4, if_neg h5, if_neg h6, if_neg h7, if_neg h8, if_neg h9, if_neg h10]
  rw [hv] at he
  have : ((x.Errorf ("illegal char " ++ String.singleton x.Rune)).Next.MakeToken Illegal).2.errs
      = (x.Errorf ("illegal char " ++ String.singleton x.Rune)).errs := Next_errs _
  rw [this] at he
  exact absurd he (errs_append_ne _ _)

theorem tokenApart_iff (x : Lexer) (b : List Char) :
    tokenApart x b = true ↔
      ((nextToken x).2.input = [] →
        ∀ d, b.head? = some d → carriesOn (nextToken x).1.Typ d = false) := by
  unfold tokenApart
  cases hb : b.head? with
  | none => simp
  | some d =>
    cases hi : (nextToken x).2.input with
    | nil => simp
    | cons c cs => simp

theorem Apart.head {x : Lexer} {b : List Char} (h : Apart x b) : tokenApart x b = true := by
  have := h 1
  simp only [apartLoop, Bool.and_true] at this
  exact this

theorem Apart.apart_shift {x : Lexer} {b : List Char} (h : Apart x b) :
    Apart (shiftFrom x).x b := by
  intro n
  have := h (n + 1)
  simp only [apartLoop, Bool.and_eq_true] at this
  exact this.2

theorem skipWhite_ext (b : List Char) (k : Nat) (x : Lexer) (h : x.skipWhite.input ≠ []) :
    (ext b k x).skipWhite = ext b k x.skipWhite := by
  have h' : (skipWhiteLoop x x.input).input ≠ [] := h
  simp only [Lexer.skipWhite, ext_input, skipWhiteLoop_ext b k x x.input h']
  simp only [ext, Lexer.here, Nat.add_right_comm]

theorem skipWhite_errs (x : Lexer) : x.skipWhite.errs = x.errs :=
  (skipWhiteLoop_input x x.input).2.2

theorem nextToken_ext (b : List Char) (k : Nat) (x : Lexer)
    (hne : (nextToken x).1.Typ ≠ EOF) (he : (nextToken x).2.errs = x.errs)
    (hap : tokenApart x b = true) :
    nextToken (ext b k x) = (shiftTok k (nextToken x).1, ext b k (nextToken x).2) := by
  have hend : x.skipWhite.Ended = false := by
    by_contra hc
    simp only [Bool.not_eq_false] at hc
    apply hne
    simp only [nextToken, hc, if_true]
    rfl
  have hin : x.skipWhite.input ≠ [] := by
    simpa [Lexer.Ended] using hend
  have hend' : (ext b k x.skipWhite).Ended = false := by
    simp [Lexer.Ended, ext, hin]
  have hv : nextToken x = lexValue x.skipWhite := by
    simp only [nextToken, hend, Bool.false_eq_true, if_false]
  have hv' : nextToken (ext b k x) = lexValue (ext b k x.skipWhite) := by
    simp only [nextToken, skipWhite_ext b k x hin, hend', Bool.false_eq_true, if_false]
  have hap' := (tokenApart_iff x b).1 hap
  rw [hv] at he hap'
  rw [hv', hv]
  exact lexValue_ext b k x.skipWhite hin (he.trans (skipWhite_errs x).symm) hap'

end jsonx

/-! ## The parser over a longer input -/

namespace jsonx
open lexing

theorem Grew.grew_refl (p : parser) : Grew p p := ⟨[], by simp⟩

theorem Grew.grew_trans {p q r : parser} (h1 : Grew p q) (h2 : Grew q r) : Grew p r := by
  obtain ⟨e1, h1⟩ := h1
  obtain ⟨e2, h2⟩ := h2
  exact ⟨e1 ++ e2, by rw [h2, h1]; simp⟩

theorem Grew.grew_errs_nil {p q : parser} (h : Grew p q) (hq : q.x.errs = []) : p.x.errs = [] := by
  obtain ⟨e, h⟩ := h
  rw [hq] at h
  exact (List.append_eq_nil.1 h.symm).1

theorem Grew.shift (p : parser) : Grew p p.Shift := by
  obtain ⟨_, es, _, _, he, _⟩ := nextToken_lexed p.x
  exact ⟨es, he⟩

theorem Grew.grew_errorf (p : parser) (msg : String) : Grew p (p.Errorf msg) := ⟨[_], rfl⟩

theorem Errorf_errs_ne (p : parser) (msg : String) : (p.Errorf msg).x.errs ≠ [] := by
  simp [parser.Errorf]

theorem Grew.of_errorf {p q : parser} {msg : String} (h : Grew (p.Errorf msg) q) :
    q.x.errs ≠ [] := fun hq => Errorf_errs_ne p msg (h.grew_errs_nil hq)

theorem parseKey_grew (p : parser) : Grew p (parseKey p).2 := by
  unfold parseKey
  split
  · split
    · exact Grew.shift p
    · exact (Grew.grew_errorf p _).grew_trans (Grew.shift _)
  · split
    · exact Grew.shift p
    · exact Grew.grew_errorf p _

theorem parse_grew (f : Nat) :
    (∀ p, Grew p (parseValueFuel f p).2) ∧ (∀ p, Grew p (parseElems f p).2) ∧
    (∀ p, Grew p (parseMembers f p).2) := by
  induction f with
  | zero =>
    refine ⟨fun p => ?_, fun p => ?_, fun p => ?_⟩
    · rw [parseValueFuel]; exact Grew.grew_errorf p _
    · rw [parseElems]; exact Grew.grew_errorf p _
    · rw [parseMembers]; exact Grew.grew_errorf p _
  | succ f ih =>
    obtain ⟨ihv, ihe, ihm⟩ := ih
    refine ⟨fun p => ?_, fun p => ?_, fun p => ?_⟩
    · rw [parseValueFuel]
      split
      · split
        · exact Grew.shift p
        · exact (Grew.grew_errorf p _).grew_trans (Grew.shift _)
      · split
        · exact Grew.shift p
        · split
          · exact Grew.shift p
          · split
            · split
              · exact Grew.shift p
              · split
                · exact Grew.shift p
                · split
                  · exact Grew.shift p
                  · exact Grew.grew_errorf p _
            · split
              · simp only []
                split
                · exact (Grew.shift p).grew_trans (Grew.shift _)
                · exact (Grew.shift p).grew_trans (ihe _)
              · split
                · simp only []
                  split
                  · exact (Grew.shift p).grew_trans (Grew.shift _)
                  · exact (Grew.shift p).grew_trans (ihm _)
                · exact Grew.grew_errorf p _
    · rw [parseElems]
      simp only []
      split
      · exact (ihv p).grew_trans ((Grew.shift _).grew_trans (ihe _))
      · split
        · exact (ihv p).grew_trans (Grew.shift _)
        · exact (ihv p).grew_trans (Grew.grew_errorf _ _)
    · rw [parseMembers]
      simp only []
      split
      · split
        · exact (parseKey_grew p).grew_trans ((Grew.shift _).grew_trans ((ihv _).grew_trans
            ((Grew.shift _).grew_trans (ihm _))))
        · split
          · exact (parseKey_grew p).grew_trans ((Grew.shift _).grew_trans ((ihv _).grew_trans (Grew.shift _)))
          · exact (parseKey_grew p).grew_trans ((Grew.shift _).grew_trans ((ihv _).grew_trans
              (Grew.grew_errorf _ _)))
      · exact (parseKey_grew p).grew_trans (Grew.grew_errorf _ _)

end jsonx

namespace jsonx
open lexing

theorem extP_See (b : List Char) (k : Nat) (p : parser) (t : Int) :
    (extP b k p).See t = p.See t := rfl

theorem extP_Lit (b : List Char) (k : Nat) (p : parser) : (extP b k p).t.Lit = p.t.Lit := rfl

theorem extP_Shift (b : List Char) (k : Nat) (p : parser) :
    (extP b k p).Shift = shiftFrom (ext b k p.x) := rfl

theorem shiftFrom_ext (b : List Char) (k : Nat) (x0 : Lexer)
    (hb : Apart x0 b) (hE : (shiftFrom x0).x.errs = [])
    (hT : (shiftFrom x0).t.Typ ≠ EOF) :
    shiftFrom (ext b k x0) = extP b k (shiftFrom x0) := by
  have hx0 : x0.errs = [] := (shiftFrom_lexed x0).lexed_errs_nil hE
  have he : (nextToken x0).2.errs = x0.errs := by
    rw [hx0]; exact hE
  have h := nextToken_ext b k x0 hT he hb.head
  simp only [shiftFrom, h, extP]

theorem See_of_EOF (p : parser) (h : p.t.Typ = EOF) (t : Int) (ht : t ≠ EOF) :
    p.See t = false := by
  simp only [parser.See, h, decide_eq_false_iff_not]
  exact fun e => ht e.symm

theorem parseValueFuel_EOF (f : Nat) (p : parser) (h : p.t.Typ = EOF) :
    (parseValueFuel f p).2.x.errs ≠ [] := by
  cases f with
  | zero => rw [parseValueFuel]; exact Errorf_errs_ne p _
  | succ f =>
    rw [parseValueFuel, if_neg (by simp [See_of_EOF p h tokString (by decide)]),
      if_neg (by simp [See_of_EOF p h tokRawString (by decide)]),
      if_neg (by simp [See_of_EOF p h tokNumber (by decide)]),
      if_neg (by simp [See_of_EOF p h tokIdent (by decide)]),
      if_neg (by simp [See_of_EOF p h tokLbrack (by decide)]),
      if_neg (by simp [See_of_EOF p h tokLbrace (by decide)])]
    exact Errorf_errs_ne p _

theorem parseKey_EOF (p : parser) (h : p.t.Typ = EOF) : (parseKey p).2.x.errs ≠ [] := by
  rw [parseKey, if_neg (by simp [See_of_EOF p h tokString (by decide)]),
    if_neg (by simp [See_of_EOF p h tokIdent (by decide)])]
  exact Errorf_errs_ne p _

theorem parseElems_grew_inner (f : Nat) (p : parser) :
    Grew (parseValueFuel f p).2 (parseElems (f + 1) p).2 := by
  rw [parseElems]
  simp only []
  split
  · exact (Grew.shift _).grew_trans ((parse_grew f).2.1 _)
  · split
    · exact Grew.shift _
    · exact Grew.grew_errorf _ _

theorem parseMembers_grew_inner (f : Nat) (p : parser) :
    Grew (parseKey p).2 (parseMembers (f + 1) p).2 := by
  rw [parseMembers]
  simp only []
  split
  · split
    · exact (Grew.shift _).grew_trans (((parse_grew f).1 _).grew_trans
        ((Grew.shift _).grew_trans ((parse_grew f).2.2 _)))
    · split
      · exact (Grew.shift _).grew_trans (((parse_grew f).1 _).grew_trans (Grew.shift _))
      · exact (Grew.shift _).grew_trans (((parse_grew f).1 _).grew_trans (Grew.grew_errorf _ _))
  · exact Grew.grew_errorf _ _

theorem parseElems_EOF (f : Nat) (p : parser) (h : p.t.Typ = EOF) :
    (parseElems f p).2.x.errs ≠ [] := by
  cases f with
  | zero => rw [parseElems]; exact Errorf_errs_ne p _
  | succ f =>
    intro he
    exact parseValueFuel_EOF f p h ((parseElems_grew_inner f p).grew_errs_nil he)

theorem parseMembers_EOF (f : Nat) (p : parser) (h : p.t.Typ = EOF) :
    (parseMembers f p).2.x.errs ≠ [] := by
  cases f with
  | zero => rw [parseMembers]; exact Errorf_errs_ne p _
  | succ f =>
    intro he
    exact parseKey_EOF p h ((parseMembers_grew_inner f p).grew_errs_nil he)

end jsonx

namespace jsonx
open lexing

theorem simV_zero (b : List Char) (k : Nat) : SimV b k 0 := by
  intro x0 v p' _ hrun herr
  exfalso
  rw [parseValueFuel] at hrun
  have h2 := (Prod.mk.inj hrun).2
  rw [← h2] at herr
  exact Errorf_errs_ne _ _ herr

theorem simV_succ (b : List Char) (k f : Nat) (hE : SimE b k f) (hM : SimM b k f) :
    SimV b k (f + 1) := by
  intro x0 v p' hb hrun herr
  have hG : Grew (shiftFrom x0) p' := by
    have := (parse_grew (f + 1)).1 (shiftFrom x0)
    rw [hrun] at this
    exact this
  have hpE := hG.grew_errs_nil herr
  have hT : (shiftFrom x0).t.Typ ≠ EOF := by
    intro h
    have := parseValueFuel_EOF (f + 1) _ h
    rw [hrun] at this
    exact this herr
  have hq := shiftFrom_ext b k x0 hb hpE hT
  have hL0 := shiftFrom_lexed x0
  have hb1 : Apart (shiftFrom x0).x b := hb.apart_shift
  generalize shiftFrom x0 = p at hrun hG hpE hT hq hL0 hb1
  have hsucc : ∀ f', f + 1 ≤ f' → ∃ f'', f' = f'' + 1 ∧ f ≤ f'' :=
    fun f' hf => ⟨f' - 1, by omega, by omega⟩
  rw [parseValueFuel] at hrun
  by_cases h1 : p.See tokString = true
  · rw [if_pos h1] at hrun
    cases hu : strconv.Unquote p.t.Lit with
    | error e =>
      exfalso
      rw [hu] at hrun
      have h2 := (Prod.mk.inj hrun).2
      have hg : Grew (p.Errorf "invalid string literal") p' := by
        rw [← h2]; exact Grew.shift _
      exact hg.of_errorf herr
    | ok s =>
      rw [hu] at hrun
      obtain ⟨hv, hp⟩ := Prod.mk.inj hrun
      refine ⟨p.x, hL0, hb1, hp.symm, ?_⟩
      intro f' hf'
      obtain ⟨f'', rfl, _⟩ := hsucc f' hf'
      rw [hq, parseValueFuel, extP_See, if_pos h1, extP_Lit, hu, ← hv]
      rfl
  rw [if_neg h1] at hrun
  by_cases h2 : p.See tokRawString = true
  · rw [if_pos h2] at hrun
    obtain ⟨hv, hp⟩ := Prod.mk.inj hrun
    refine ⟨p.x, hL0, hb1, hp.symm, ?_⟩
    intro f' hf'
    obtain ⟨f'', rfl, _⟩ := hsucc f' hf'
    rw [hq, parseValueFuel, extP_See, if_neg h1, extP_See, if_pos h2, extP_Lit, ← hv]
    rfl
  rw [if_neg h2] at hrun
  by_cases h3 : p.See tokNumber = true
  · rw [if_pos h3] at hrun
    obtain ⟨hv, hp⟩ := Prod.mk.inj hrun
    refine ⟨p.x, hL0, hb1, hp.symm, ?_⟩
    intro f' hf'
    obtain ⟨f'', rfl, _⟩ := hsucc f' hf'
    rw [hq, parseValueFuel, extP_See, if_neg h1, extP_See, if_neg h2, extP_See, if_pos h3,
      extP_Lit, ← hv]
    rfl
  rw [if_neg h3] at hrun
  by_cases h4 : p.See tokIdent = true
  · rw [if_pos h4] at hrun
    have hqv : ∀ f'', parseValueFuel (f'' + 1) (extP b k p) =
        (if p.t.Lit = ['t', 'r', 'u', 'e'] then (Value.bool true, shiftFrom (ext b k p.x))
        else if p.t.Lit = ['f', 'a', 'l', 's', 'e'] then (Value.bool false, shiftFrom (ext b k p.x))
        else if p.t.Lit = ['n', 'u', 'l', 'l'] then (Value.null, shiftFrom (ext b k p.x))
        else (Value.null, (extP b k p).Errorf "expect a value, got an identifier")) := by
      intro f''
      rw [parseValueFuel, extP_See, if_neg h1, extP_See, if_neg h2, extP_See, if_neg h3,
        extP_See, if_pos h4, extP_Lit, extP_Shift]
    by_cases k1 : p.t.Lit = ['t', 'r', 'u', 'e']
    · rw [if_pos k1] at hrun
      obtain ⟨hv, hp⟩ := Prod.mk.inj hrun
      refine ⟨p.x, hL0, hb1, hp.symm, ?_⟩
      intro f' hf'
      obtain ⟨f'', rfl, _⟩ := hsucc f' hf'
      rw [hq, hqv, if_pos k1, ← hv]
    rw [if_neg k1] at hrun
    by_cases k2 : p.t.Lit = ['f', 'a', 'l', 's', 'e']
    · rw [if_pos k2] at hrun
      obtain ⟨hv, hp⟩ := Prod.mk.inj hrun
      refine ⟨p.x, hL0, hb1, hp.symm, ?_⟩
      intro f' hf'
      obtain ⟨f'', rfl, _⟩ := hsucc f' hf'
      rw [hq, hqv, if_neg k1, if_pos k2, ← hv]
    rw [if_neg k2] at hrun
    by_cases k3 : p.t.Lit = ['n', 'u', 'l', 'l']
    · rw [if_pos k3] at hrun
      obtain ⟨hv, hp⟩ := Prod.mk.inj hrun
      refine ⟨p.x, hL0, hb1, hp.symm, ?_⟩
      intro f' hf'
      obtain ⟨f'', rfl, _⟩ := hsucc f' hf'
      rw [hq, hqv, if_neg k1, if_neg k2, if_pos k3, ← hv]
    rw [if_neg k3] at hrun
    exfalso
    have hp := (Prod.mk.inj hrun).2
    rw [← hp] at herr
    exact Errorf_errs_ne _ _ herr
  rw [if_neg h4] at hrun
  by_cases h5 : p.See tokLbrack = true
  · rw [if_pos h5] at hrun
    simp only [] at hrun
    have hqv : ∀ f'', parseValueFuel (f'' + 1) (extP b k p) =
        (if (shiftFrom (ext b k p.x)).See tokRbrack = true then
          (Value.list [], (shiftFrom (ext b k p.x)).Shift)
        else (Value.list (parseElems f'' (shiftFrom (ext b k p.x))).1,
          (parseElems f'' (shiftFrom (ext b k p.x))).2)) := by
      intro f''
      rw [parseValueFuel, extP_See, if_neg h1, extP_See, if_neg h2, extP_See, if_neg h3,
        extP_See, if_neg h4, extP_See, if_pos h5, extP_Shift]
    by_cases h51 : p.Shift.See tokRbrack = true
    · rw [if_pos h51] at hrun
      obtain ⟨hv, hp⟩ := Prod.mk.inj hrun
      have hE1 : p.Shift.x.errs = [] := by
        apply (Grew.shift p.Shift).grew_errs_nil
        rw [hp]; exact herr
      have hT1 : p.Shift.t.Typ ≠ EOF := by
        intro h
        rw [See_of_EOF _ h tokRbrack (by decide)] at h51
        exact Bool.noConfusion h51
      have hq1 := shiftFrom_ext b k p.x hb1 hE1 hT1
      refine ⟨p.Shift.x, hL0.lexed_trans (shiftFrom_lexed p.x), hb1.apart_shift, hp.symm, ?_⟩
      intro f' hf'
      obtain ⟨f'', rfl, _⟩ := hsucc f' hf'
      rw [hq, hqv, hq1, extP_See, if_pos (show (shiftFrom p.x).See tokRbrack = true from h51), extP_Shift, ← hv]
      rfl
    · rw [if_neg h51] at hrun
      rcases hpe : parseElems f p.Shift with ⟨vs, p2⟩
      rw [hpe] at hrun
      obtain ⟨hv, hp⟩ := Prod.mk.inj hrun
      simp only [] at hp
      subst hp
      have hE1 : p.Shift.x.errs = [] := by
        have := (parse_grew f).2.1 p.Shift
        rw [hpe] at this
        exact this.grew_errs_nil herr
      have hT1 : p.Shift.t.Typ ≠ EOF := by
        intro h
        have := parseElems_EOF f _ h
        rw [hpe] at this
        exact this herr
      have hq1 := shiftFrom_ext b k p.x hb1 hE1 hT1
      obtain ⟨x1, hL1, hA1, hp1, hrun1⟩ := hE p.x vs p2 hb1 hpe herr
      refine ⟨x1, hL0.lexed_trans hL1, hA1, hp1, ?_⟩
      intro f' hf'
      obtain ⟨f'', rfl, hf''⟩ := hsucc f' hf'
      rw [hq, hqv, hrun1 f'' hf'', hq1, extP_See, if_neg (show ¬ (shiftFrom p.x).See tokRbrack = true from h51), ← hv]
  rw [if_neg h5] at hrun
  by_cases h6 : p.See tokLbrace = true
  · rw [if_pos h6] at hrun
    simp only [] at hrun
    have hqv : ∀ f'', parseValueFuel (f'' + 1) (extP b k p) =
        (if (shiftFrom (ext b k p.x)).See tokRbrace = true then
          (Value.object [], (shiftFrom (ext b k p.x)).Shift)
        else (Value.object (parseMembers f'' (shiftFrom (ext b k p.x))).1,
          (parseMembers f'' (shiftFrom (ext b k p.x))).2)) := by
      intro f''
      rw [parseValueFuel, extP_See, if_neg h1, extP_See, if_neg h2, extP_See, if_neg h3,
        extP_See, if_neg h4, extP_See, if_neg h5, extP_See, if_pos h6, extP_Shift]
    by_cases h61 : p.Shift.See tokRbrace = true
    · rw [if_pos h61] at hrun
      obtain ⟨hv, hp⟩ := Prod.mk.inj hrun
      have hE1 : p.Shift.x.errs = [] := by
        apply (Grew.shift p.Shift).grew_errs_nil
        rw [hp]; exact herr
      have hT1 : p.Shift.t.Typ ≠ EOF := by
        intro h
        rw [See_of_EOF _ h tokRbrace (by decide)] at h61
        exact Bool.noConfusion h61
      have hq1 := shiftFrom_ext b k p.x hb1 hE1 hT1
      refine ⟨p.Shift.x, hL0.lexed_trans (shiftFrom_lexed p.x), hb1.apart_shift, hp.symm, ?_⟩
      intro f' hf'
      obtain ⟨f'', rfl, _⟩ := hsucc f' hf'
      rw [hq, hqv, hq1, extP_See, if_pos (show (shiftFrom p.x).See tokRbrace = true from h61), extP_Shift, ← hv]
      rfl
    · rw [if_neg h61] at hrun
      rcases hpe : parseMembers f p.Shift with ⟨ms, p2⟩
      rw [hpe] at hrun
      obtain ⟨hv, hp⟩ := Prod.mk.inj hrun
      simp only [] at hp
      subst hp
      have hE1 : p.Shift.x.errs = [] := by
        have := (parse_grew f).2.2 p.Shift
        rw [hpe] at this
        exact this.grew_errs_nil herr
      have hT1 : p.Shift.t.Typ ≠ EOF := by
        intro h
        have := parseMembers_EOF f _ h
        rw [hpe] at this
        exact this herr
      have hq1 := shiftFrom_ext b k p.x hb1 hE1 hT1
      obtain ⟨x1, hL1, hA1, hp1, hrun1⟩ := hM p.x ms p2 hb1 hpe herr
      refine ⟨x1, hL0.lexed_trans hL1, hA1, hp1, ?_⟩
      intro f' hf'
      obtain ⟨f'', rfl, hf''⟩ := hsucc f' hf'
      rw [hq, hqv, hrun1 f'' hf'', hq1, extP_See, if_neg (show ¬ (shiftFrom p.x).See tokRbrace = true from h61), ← hv]
  rw [if_neg h6] at hrun
  exfalso
  have hp := (Prod.mk.inj hrun).2
  rw [← hp] at herr
  exact Errorf_errs_ne _ _ herr

end jsonx

namespace jsonx
open lexing

theorem parseElems_succ (f : Nat) (p : parser) :
    parseElems (f + 1) p =
      (if (parseValueFuel f p).2.See tokComma = true then
        ((parseValueFuel f p).1 :: (parseElems f (parseValueFuel f p).2.Shift).1,
          (parseElems f (parseValueFuel f p).2.Shift).2)
      else if (parseValueFuel f p).2.See tokRbrack = true then
        ([(parseValueFuel f p).1], (parseValueFuel f p).2.Shift)
      else ([(parseValueFuel f p).1],
        (parseValueFuel f p).2.Errorf "expect a comma or a closing bracket")) := by
  rw [parseElems]

theorem See_ne_EOF {p : parser} {t : Int} (h : p.See t = true) (ht : t ≠ EOF) :
    p.t.Typ ≠ EOF := by
  intro e
  rw [See_of_EOF p e t ht] at h
  exact Bool.noConfusion h

theorem simE_zero (b : List Char) (k : Nat) : SimE b k 0 := by
  intro x0 v p' _ hrun herr
  exfalso
  rw [parseElems] at hrun
  have h2 := (Prod.mk.inj hrun).2
  rw [← h2] at herr
  exact Errorf_errs_ne _ _ herr

theorem simE_succ (b : List Char) (k f : Nat) (hV : SimV b k f) (hE : SimE b k f) :
    SimE b k (f + 1) := by
  intro x0 vs p' hb hrun herr
  have hin : (parseValueFuel f (shiftFrom x0)).2.x.errs = [] := by
    have := parseElems_grew_inner f (shiftFrom x0)
    rw [hrun] at this
    exact this.grew_errs_nil herr
  obtain ⟨x1, hL1, hA1, hp1, hs1⟩ := hV x0 _ _ hb rfl hin
  rw [parseElems_succ, hp1] at hrun
  have hE1 : (shiftFrom x1).x.errs = [] := by rw [← hp1]; exact hin
  generalize (parseValueFuel f (shiftFrom x0)).1 = v at hrun hs1
  have hb1 : Apart x1 b := hA1
  have hsucc : ∀ f', f + 1 ≤ f' → ∃ f'', f' = f'' + 1 ∧ f ≤ f'' :=
    fun f' hf => ⟨f' - 1, by omega, by omega⟩
  have hq : ∀ f'', f ≤ f'' → parseElems (f'' + 1) (shiftFrom (ext b k x0)) =
      (if (shiftFrom (ext b k x1)).See tokComma = true then
        (v :: (parseElems f'' (shiftFrom (ext b k x1)).Shift).1,
          (parseElems f'' (shiftFrom (ext b k x1)).Shift).2)
      else if (shiftFrom (ext b k x1)).See tokRbrack = true then
        ([v], (shiftFrom (ext b k x1)).Shift)
      else ([v], (shiftFrom (ext b k x1)).Errorf "expect a comma or a closing bracket")) := by
    intro f'' hf
    rw [parseElems_succ, hs1 f'' hf]
  by_cases c1 : (shiftFrom x1).See tokComma = true
  · rw [if_pos c1] at hrun
    have hq1 := shiftFrom_ext b k x1 hb1 hE1 (See_ne_EOF c1 (by decide))
    have hb2 : Apart (shiftFrom x1).x b := hb1.apart_shift
    rcases hpe : parseElems f (shiftFrom (shiftFrom x1).x) with ⟨vs2, p2⟩
    have hpe' : parseElems f (shiftFrom x1).Shift = (vs2, p2) := hpe
    rw [hpe'] at hrun
    obtain ⟨hv, hp⟩ := Prod.mk.inj hrun
    simp only [] at hv hp
    subst hp
    obtain ⟨x2, hL2, hA2, hp2, hs2⟩ := hE (shiftFrom x1).x vs2 p2 hb2 hpe herr
    refine ⟨x2, hL1.lexed_trans ((shiftFrom_lexed x1).lexed_trans hL2), hA2, hp2, ?_⟩
    intro f' hf'
    obtain ⟨f'', rfl, hf''⟩ := hsucc f' hf'
    rw [hq f'' hf'', hq1, extP_See, if_pos c1, extP_Shift, hs2 f'' hf'', ← hv]
  rw [if_neg c1] at hrun
  by_cases c2 : (shiftFrom x1).See tokRbrack = true
  · rw [if_pos c2] at hrun
    have hq1 := shiftFrom_ext b k x1 hb1 hE1 (See_ne_EOF c2 (by decide))
    obtain ⟨hv, hp⟩ := Prod.mk.inj hrun
    refine ⟨(shiftFrom x1).x, hL1.lexed_trans (shiftFrom_lexed x1), hb1.apart_shift, hp.symm, ?_⟩
    intro f' hf'
    obtain ⟨f'', rfl, hf''⟩ := hsucc f' hf'
    rw [hq f'' hf'', hq1, extP_See, if_neg c1, extP_See, if_pos c2, extP_Shift, ← hv]
  rw [if_neg c2] at hrun
  exfalso
  have hp := (Prod.mk.inj hrun).2
  rw [← hp] at herr
  exact Errorf_errs_ne _ _ herr

theorem parseKey_ext (b : List Char) (k : Nat) (p : parser) (he : (parseKey p).2.x.errs = []) :
    (parseKey p).2 = shiftFrom p.x ∧
      parseKey (extP b k p) = ((parseKey p).1, shiftFrom (ext b k p.x)) := by
  unfold parseKey at he ⊢
  rw [extP_See, extP_See, extP_Lit, extP_Shift]
  by_cases h1 : p.See tokString = true
  · rw [if_pos h1] at he ⊢
    rw [if_pos h1]
    cases hu : strconv.Unquote p.t.Lit with
    | error e =>
      exfalso
      rw [hu] at he
      exact (Grew.shift (p.Errorf "invalid string literal")).of_errorf he
    | ok s => exact ⟨rfl, rfl⟩
  rw [if_neg h1] at he ⊢
  rw [if_neg h1]
  by_cases h2 : p.See tokIdent = true
  · rw [if_pos h2]
    rw [if_pos h2]
    exact ⟨rfl, rfl⟩
  exfalso
  rw [if_neg h2] at he
  exact Errorf_errs_ne _ _ he

end jsonx

namespace jsonx
open lexing

theorem parseMembers_succ (f : Nat) (p : parser) :
    parseMembers (f + 1) p =
      (if (parseKey p).2.See tokColon = true then
        (if (parseValueFuel f (parseKey p).2.Shift).2.See tokComma = true then
          (((parseKey p).1, (parseValueFuel f (parseKey p).2.Shift).1) ::
              (parseMembers f (parseValueFuel f (parseKey p).2.Shift).2.Shift).1,
            (parseMembers f (parseValueFuel f (parseKey p).2.Shift).2.Shift).2)
        else if (parseValueFuel f (parseKey p).2.Shift).2.See tokRbrace = true then
          ([((parseKey p).1, (parseValueFuel f (parseKey p).2.Shift).1)],
            (parseValueFuel f (parseKey p).2.Shift).2.Shift)
        else ([((parseKey p).1, (parseValueFuel f (parseKey p).2.Shift).1)],
          (parseValueFuel f (parseKey p).2.Shift).2.Errorf "expect a comma or a closing brace"))
      else ([], (parseKey p).2.Errorf "expect a colon")) := by
  rw [parseMembers]

theorem parseMembers_grew_value (f : Nat) (p : parser)
    (hc : (parseKey p).2.See tokColon = true) :
    Grew (parseValueFuel f (parseKey p).2.Shift).2 (parseMembers (f + 1) p).2 := by
  rw [parseMembers_succ, if_pos hc]
  split
  · exact (Grew.shift _).grew_trans ((parse_grew f).2.2 _)
  · split
    · exact Grew.shift _
    · exact Grew.grew_errorf _ _

theorem simM_zero (b : List Char) (k : Nat) : SimM b k 0 := by
  intro x0 v p' _ hrun herr
  exfalso
  rw [parseMembers] at hrun
  have h2 := (Prod.mk.inj hrun).2
  rw [← h2] at herr
  exact Errorf_errs_ne _ _ herr

theorem simM_succ (b : List Char) (k f : Nat) (hV : SimV b k f) (hM : SimM b k f) :
    SimM b k (f + 1) := by
  intro x0 ms p' hb hrun herr
  have hin : (parseKey (shiftFrom x0)).2.x.errs = [] := by
    have := parseMembers_grew_inner f (shiftFrom x0)
    rw [hrun] at this
    exact this.grew_errs_nil herr
  have hE0 : (shiftFrom x0).x.errs = [] := (parseKey_grew _).grew_errs_nil hin
  have hT0 : (shiftFrom x0).t.Typ ≠ EOF := fun h => parseKey_EOF _ h hin
  have hq0 := shiftFrom_ext b k x0 hb hE0 hT0
  obtain ⟨hk1, hk2⟩ := parseKey_ext b k (shiftFrom x0) hin
  have hL0 := shiftFrom_lexed x0
  have hb1 : Apart (shiftFrom x0).x b := hb.apart_shift
  have hE1 : (shiftFrom (shiftFrom x0).x).x.errs = [] := by rw [← hk1]; exact hin
  by_cases c0 : (parseKey (shiftFrom x0)).2.See tokColon = true
  swap
  · exfalso
    rw [parseMembers_succ, if_neg c0] at hrun
    have hp := (Prod.mk.inj hrun).2
    rw [← hp] at herr
    exact Errorf_errs_ne _ _ herr
  have hin2 : (parseValueFuel f (parseKey (shiftFrom x0)).2.Shift).2.x.errs = [] := by
    have := parseMembers_grew_value f (shiftFrom x0) c0
    rw [hrun] at this
    exact this.grew_errs_nil herr
  rw [parseMembers_succ, if_pos c0] at hrun
  have hqk : ∀ f'', parseMembers (f'' + 1) (shiftFrom (ext b k x0)) =
      parseMembers (f'' + 1) (extP b k (shiftFrom x0)) := by
    intro f''; rw [hq0]
  rw [hk1] at c0 hin2 hrun
  generalize (parseKey (shiftFrom x0)).1 = key at hrun hk2
  generalize hx1 : (shiftFrom x0).x = x1 at hk2 hL0 hb1 hE1 c0 hin2 hrun
  have hq1 := shiftFrom_ext b k x1 hb1 hE1 (See_ne_EOF c0 (by decide))
  have hL1 := shiftFrom_lexed x1
  have hb2 : Apart (shiftFrom x1).x b := hb1.apart_shift
  have hin2' : (parseValueFuel f (shiftFrom (shiftFrom x1).x)).2.x.errs = [] := hin2
  obtain ⟨x3, hL3, hA3, hp3, hs3⟩ := hV (shiftFrom x1).x _ _ hb2 rfl hin2'
  have hp3' : (parseValueFuel f (shiftFrom x1).Shift).2 = shiftFrom x3 := hp3
  have hv3 : (parseValueFuel f (shiftFrom x1).Shift).1
      = (parseValueFuel f (shiftFrom (shiftFrom x1).x)).1 := rfl
  rw [hp3', hv3] at hrun
  have hE3 : (shiftFrom x3).x.errs = [] := by rw [← hp3]; exact hin2'
  generalize (parseValueFuel f (shiftFrom (shiftFrom x1).x)).1 = v at hrun hs3
  have hb3 : Apart x3 b := hA3
  have hL03 : Lexed x0 x3 := hL0.lexed_trans (hL1.lexed_trans hL3)
  have hsucc : ∀ f', f + 1 ≤ f' → ∃ f'', f' = f'' + 1 ∧ f ≤ f'' :=
    fun f' hf => ⟨f' - 1, by omega, by omega⟩
  have hq : ∀ f'', f ≤ f'' → parseMembers (f'' + 1) (shiftFrom (ext b k x0)) =
      (if (shiftFrom (ext b k x3)).See tokComma = true then
        ((key, v) :: (parseMembers f'' (shiftFrom (ext b k x3)).Shift).1,
          (parseMembers f'' (shiftFrom (ext b k x3)).Shift).2)
      else if (shiftFrom (ext b k x3)).See tokRbrace = true then
        ([(key, v)], (shiftFrom (ext b k x3)).Shift)
      else ([(key, v)], (shiftFrom (ext b k x3)).Errorf "expect a comma or a closing brace")) := by
    intro f'' hf
    rw [hqk, parseMembers_succ, hk2]
    simp only []
    rw [hq1, extP_See, if_pos c0, extP_Shift, hs3 f'' hf]
  by_cases c1 : (shiftFrom x3).See tokComma = true
  · rw [if_pos c1] at hrun
    have hq3 := shiftFrom_ext b k x3 hb3 hE3 (See_ne_EOF c1 (by decide))
    have hb4 : Apart (shiftFrom x3).x b := hb3.apart_shift
    rcases hpe : parseMembers f (shiftFrom (shiftFrom x3).x) with ⟨ms2, p2⟩
    have hpe' : parseMembers f (shiftFrom x3).Shift = (ms2, p2) := hpe
    rw [hpe'] at hrun
    obtain ⟨hv, hp⟩ := Prod.mk.inj hrun
    simp only [] at hv hp
    subst hp
    obtain ⟨x4, hL4, hA4, hp4, hs4⟩ := hM (shiftFrom x3).x ms2 p2 hb4 hpe herr
    refine ⟨x4, hL03.lexed_trans ((shiftFrom_lexed x3).lexed_trans hL4), hA4, hp4, ?_⟩
    intro f' hf'
    obtain ⟨f'', rfl, hf''⟩ := hsucc f' hf'
    rw [hq f'' hf'', hq3, extP_See, if_pos c1, extP_Shift, hs4 f'' hf'', ← hv]
  rw [if_neg c1] at hrun
  by_cases c2 : (shiftFrom x3).See tokRbrace = true
  · rw [if_pos c2] at hrun
    have hq3 := shiftFrom_ext b k x3 hb3 hE3 (See_ne_EOF c2 (by decide))
    obtain ⟨hv, hp⟩ := Prod.mk.inj hrun
    refine ⟨(shiftFrom x3).x, hL03.lexed_trans (shiftFrom_lexed x3), hb3.apart_shift, hp.symm, ?_⟩
    intro f' hf'
    obtain ⟨f'', rfl, hf''⟩ := hsucc f' hf'
    rw [hq f'' hf'', hq3, extP_See, if_neg c1, extP_See, if_pos c2, extP_Shift, ← hv]
  rw [if_neg c2] at hrun
  exfalso
  have hp := (Prod.mk.inj hrun).2
  rw [← hp] at herr
  exact Errorf_errs_ne _ _ herr

theorem sim_all (b : List Char) (k f : Nat) : SimV b k f ∧ SimE b k f ∧ SimM b k f := by
  induction f with
  | zero => exact ⟨simV_zero b k, simE_zero b k, simM_zero b k⟩
  | succ f ih =>
    exact ⟨simV_succ b k f ih.2.1 ih.2.2, simE_succ b k f ih.1 ih.2.1,
      simM_succ b k f ih.1 ih.2.2⟩

end jsonx

/-! ## The boundary between two texts -/

namespace jsonx
open lexing

theorem Next_of_cons (x : Lexer) (c : Char) (cs : List Char) (h : x.input = c :: cs) :
    x.Next = { x with input := cs, buf := x.buf ++ [c] } := by
  unfold Lexer.Next
  rw [h]

theorem Took.of_next {x r : Lexer} (h : Took x.Next x.Next.input r) (hx : x.input ≠ []) :
    r.input.length < x.input.length := by
  obtain ⟨pre, _, hi, _⟩ := h
  cases hc : x.input with
  | nil => exact absurd hc hx
  | cons c cs =>
    rw [Next_of_cons x c cs hc] at hi
    have hl := congrArg List.length hi
    simp only [List.length_append] at hl
    simp only [List.length_cons]
    omega

theorem Took_errorf_next (x : Lexer) (msg : String) :
    Took x.Next x.Next.input (x.Errorf msg).Next := by
  obtain ⟨i, b, o, e, w⟩ := x
  cases i with
  | nil => exact ⟨[], [_], rfl, by simp [Lexer.Next, Lexer.Errorf], rfl, rfl, rfl⟩
  | cons c cs => exact ⟨[], [_], rfl, by simp [Lexer.Next, Lexer.Errorf], rfl, rfl, rfl⟩

theorem lexDigits_sign_took (x : Lexer) (msg : String) (hx : x.input ≠ [])
    (h : (IsDigit x.Rune || decide (x.Rune = '-')) = true) :
    Took x.Next x.Next.input (lexDigits (lexSign x) msg) := by
  cases hc : x.input with
  | nil => exact absurd hc hx
  | cons c cs =>
    have hr : x.Rune = c := by simp [Lexer.Rune, hc]
    rw [hr] at h
    by_cases hm : c = '-'
    · have hs : x.See '-' = true := by simp [Lexer.See, hc, hm]
      have hl : lexSign x = x.Next := by simp only [lexSign, hs, if_true]
      rw [hl]
      exact lexDigits_took x.Next msg
    · have hs : x.See '-' = false := by simp [Lexer.See, hc, hm]
      have hl : lexSign x = x := by simp [lexSign, hs]
      have hd : IsDigit c = true := by simpa [hm] using h
      have hl2 : lexDigits x msg = digitLoop { x with buf := x.buf ++ [c] } cs := by
        simp only [lexDigits, hr, hd, if_true, hc, digitLoop]
      rw [hl, hl2, Next_of_cons x c cs hc]
      exact digitLoop_took { x with buf := x.buf ++ [c] } cs

theorem lexValue_progress (x : Lexer) (hx : x.input ≠ []) :
    (lexValue x).2.input.length < x.input.length := by
  have key : ∃ r t, Took x.Next x.Next.input r ∧ lexValue x = r.MakeToken t := by
    rw [lexValue]
    by_cases h0 : x.Rune = dquote
    · rw [if_pos h0]
      exact ⟨_, _, stringLoop_took _ _ _ _, rfl⟩
    rw [if_neg h0]
    by_cases h1 : x.Rune = backquote
    · rw [if_pos h1]
      exact ⟨_, _, rawStringLoop_took _ _, rfl⟩
    rw [if_neg h1]
    by_cases h2 : x.Rune = ':'
    · rw [if_pos h2]; exact ⟨_, _, Took.took_refl _, rfl⟩
    rw [if_neg h2]
    by_cases h3 : x.Rune = ';'
    · rw [if_pos h3]; exact ⟨_, _, Took.took_refl _, rfl⟩
    rw [if_neg h3]
    by_cases h4 : x.Rune = ','
    · rw [if_pos h4]; exact ⟨_, _, Took.took_refl _, rfl⟩
    rw [if_neg h4]
    by_cases h5 : x.Rune = '['
    · rw [if_pos h5]; exact ⟨_, _, Took.took_refl _, rfl⟩
    rw [if_neg h5]
    by_cases h6 : x.Rune = ']'
    · rw [if_pos h6]; exact ⟨_, _, Took.took_refl _, rfl⟩
    rw [if_neg h6]
    by_cases h7 : x.Rune = '{'
    · rw [if_pos h7]; exact ⟨_, _, Took.took_refl _, rfl⟩
    rw [if_neg h7]
    by_cases h8 : x.Rune = '}'
    · rw [if_pos h8]; exact ⟨_, _, Took.took_refl _, rfl⟩
    rw [if_neg h8]
    by_cases h9 : (IsDigit x.Rune || decide (x.Rune = '-')) = true
    · rw [if_pos h9]
      exact ⟨_, _, Took.took_trans (Took.took_trans (lexDigits_sign_took x _ hx h9)
        (lexFraction_took _)) (lexExponent_took _), rfl⟩
    rw [if_neg h9]
    by_cases h10 : IsIdentLetter x.Rune = true
    · rw [if_pos h10]
      exact ⟨_, _, identLoop_took _ _, rfl⟩
    rw [if_neg h10]
    exact ⟨_, _, Took_errorf_next x _, rfl⟩
  obtain ⟨r, t, hT, hv⟩ := key
  rw [hv]
  exact hT.of_next hx

theorem nextToken_of_ended (x : Lexer) (h : x.skipWhite.Ended = true) :
    (nextToken x).1.Typ = EOF ∧ (nextToken x).2.input = [] := by
  have hi : x.skipWhite.input = [] := by simpa [Lexer.Ended] using h
  simp only [nextToken, h, if_true]
  exact ⟨rfl, hi⟩

theorem nextToken_progress (x : Lexer) (h : (nextToken x).1.Typ ≠ EOF) :
    (nextToken x).2.input.length < x.input.length := by
  have hend : x.skipWhite.Ended = false := by
    by_contra hc
    simp only [Bool.not_eq_false] at hc
    exact h (nextToken_of_ended x hc).1
  have hin : x.skipWhite.input ≠ [] := by
    simpa [Lexer.Ended] using hend
  have hv : nextToken x = lexValue x.skipWhite := by
    simp only [nextToken, hend, Bool.false_eq_true, if_false]
  rw [hv]
  have h1 := lexValue_progress x.skipWhite hin
  obtain ⟨pre, _, hi, _⟩ := skipWhite_lexed x
  have h2 : x.skipWhite.input.length ≤ x.input.length := by
    rw [hi, List.length_append]; omega
  omega

theorem tokenApart_of_EOF (x : Lexer) (b : List Char) (h : (nextToken x).1.Typ = EOF) :
    tokenApart x b = true := by
  rw [tokenApart_iff]
  intro _ d _
  rw [h]
  simp only [carriesOn, Bool.or_eq_false_iff, Bool.and_eq_false_imp, decide_eq_true_eq]
  exact ⟨fun e => absurd e (by decide), fun e => absurd e (by decide)⟩

theorem apartLoop_nil (n : Nat) (x : Lexer) (b : List Char) (hx : x.input = []) :
    apartLoop n x b = true := by
  induction n generalizing x with
  | zero => rfl
  | succ n ih =>
    have he : x.skipWhite.Ended = true := by
      rw [skipWhite_ended_iff, hx]
      rfl
    obtain ⟨h1, h2⟩ := nextToken_of_ended x he
    simp only [apartLoop, Bool.and_eq_true]
    exact ⟨tokenApart_of_EOF x b h1, ih _ h2⟩

theorem apartLoop_sound (b : List Char) (n : Nat) (x : Lexer) (hn : x.input.length < n)
    (h : apartLoop n x b = true) : Apart x b := by
  induction n generalizing x with
  | zero => omega
  | succ n ih =>
    simp only [apartLoop, Bool.and_eq_true] at h
    have hnext : Apart (nextToken x).2 b := by
      by_cases hT : (nextToken x).1.Typ = EOF
      · intro m
        have he : x.skipWhite.Ended = true := by
          by_contra hc
          have hc' : x.skipWhite.Ended = false := by simpa using hc
          have hv : nextToken x = lexValue x.skipWhite := by
            simp only [nextToken, hc', Bool.false_eq_true, if_false]
          rw [hv] at hT
          exact lexValue_typ_ne_EOF _ hT
        exact apartLoop_nil m _ b (nextToken_of_ended x he).2
      · exact ih _ (by have := nextToken_progress x hT; omega) h.2
    intro m
    cases m with
    | zero => rfl
    | succ m =>
      simp only [apartLoop, Bool.and_eq_true]
      exact ⟨h.1, hnext m⟩

theorem boundary_apart (s b : List Char) (h : boundary s b = true) :
    Apart ⟨s, [], 0, [], IsWhiteOrEndl⟩ b :=
  apartLoop_sound b (s.length + 1) ⟨s, [], 0, [], IsWhiteOrEndl⟩ (Nat.lt_succ_self _) h

theorem apartLoop_head (n : Nat) (x : Lexer) (b c : List Char) (h : b.head? = c.head?) :
    apartLoop n x b = apartLoop n x c := by
  induction n generalizing x with
  | zero => rfl
  | succ n ih =>
    simp only [apartLoop, tokenApart, h, ih]

end jsonx

/-! ## Decoding a value that is followed by more text -/

namespace jsonx
open lexing

theorem skipWhiteLoop_eq (x : Lexer) (inp : List Char) :
    skipWhiteLoop x inp = { x with input := inp.dropWhile x.IsWhite,
                                   buf := x.buf ++ inp.takeWhile x.IsWhite } := by
  induction inp generalizing x with
  | nil => simp [skipWhiteLoop]
  | cons c cs ih =>
    by_cases hc : x.IsWhite c = true
    · simp only [skipWhiteLoop, hc, if_true, List.dropWhile_cons_of_pos, List.takeWhile_cons_of_pos]
      rw [ih]
      simp
    · have hc' : x.IsWhite c = false := by simpa using hc
      simp [skipWhiteLoop, hc', List.dropWhile, List.takeWhile]

theorem skipWhite_eq (x : Lexer) :
    x.skipWhite = ⟨x.input.dropWhile x.IsWhite, [],
      x.off + (x.buf.length + (x.input.takeWhile x.IsWhite).length), x.errs, x.IsWhite⟩ := by
  simp [Lexer.skipWhite, skipWhiteLoop_eq, Lexer.here]

theorem nextToken_congr (x y : Lexer) (h : x.skipWhite = y.skipWhite) :
    nextToken x = nextToken y := by
  simp only [nextToken, h]

theorem white_of_EOF (y : Lexer) (hT : (shiftFrom y).t.Typ = EOF) :
    y.input.dropWhile y.IsWhite = [] := by
  have h : (nextToken y).1.Typ = EOF := hT
  unfold nextToken at h
  simp only [] at h
  by_cases he : y.skipWhite.Ended = true
  · rw [skipWhite_eq] at he
    simpa [Lexer.Ended] using he
  · rw [if_neg he] at h
    exact absurd h (lexValue_typ_ne_EOF _)

theorem shiftFrom_EOF_ext (b : List Char) (k : Nat) (y : Lexer)
    (hT : (shiftFrom y).t.Typ = EOF) (hbuf : y.buf = []) :
    shiftFrom (ext b k y)
      = shiftFrom ⟨b, [], y.off + k + y.input.length, y.errs, y.IsWhite⟩ := by
  have hw := white_of_EOF y hT
  have hall : ∀ c ∈ y.input, y.IsWhite c = true := by
    intro c hc
    by_contra hn
    have : y.input.dropWhile y.IsWhite ≠ [] := by
      intro h0
      have := List.dropWhile_eq_nil_iff.1 h0 c hc
      exact hn this
    exact this hw
  have ht : y.input.takeWhile y.IsWhite = y.input := List.takeWhile_eq_self_iff.2 hall
  have h1 : (y.input ++ b).dropWhile y.IsWhite = b.dropWhile y.IsWhite := by
    rw [List.dropWhile_append_of_pos hall]
  have h2 : (y.input ++ b).takeWhile y.IsWhite = y.input ++ b.takeWhile y.IsWhite := by
    rw [List.takeWhile_append_of_pos hall]
  have hs : (ext b k y).skipWhite
      = (⟨b, [], y.off + k + y.input.length, y.errs, y.IsWhite⟩ : Lexer).skipWhite := by
    rw [skipWhite_eq, skipWhite_eq]
    simp only [ext, hbuf, h1, h2, List.length_append, List.length_nil]
    congr 1
    omega
  show (let (t, z) := nextToken (ext b k y); (⟨z, t⟩ : parser)) = _
  rw [nextToken_congr _ _ hs]
  rfl

theorem Errs_eq_none {x : Lexer} (h : x.errs = []) : x.Errs = none := by
  simp [Lexer.Errs, h]

theorem Errs_none_iff (x : Lexer) : x.Errs = none ↔ x.errs = [] := by
  unfold Lexer.Errs
  cases x.errs <;> simp

theorem Errs_some (x : Lexer) (es : List Error) (h : x.Errs = some es) : es ≠ [] := by
  unfold Lexer.Errs at h
  split at h
  · exact absurd h (by simp)
  · rename_i hne
    have := Option.some.inj h
    subst this
    intro h0
    rw [h0] at hne
    exact hne rfl

end jsonx

namespace jsonx
open lexing

theorem Decode_ok {T : Type} (unm : Bridge T) (p p1 : parser) (zero r : T) (v : Value)
    (hpv : parseValue p = (v, p1)) (he : p1.x.errs = [])
    (hu : unm (marshalValue v) zero = (r, none)) :
    Decoder.Decode ops unm ⟨p⟩ zero
      = ⟨none, ⟨if p1.See tokSemi = true then p1.Shift else p1⟩, r⟩ := by
  have hErrs : ops.Errs p1 = none := Errs_eq_none he
  have hpv' : ops.parseValue p = (v, p1) := hpv
  have hm : ops.marshalValueLexing v = (marshalValue v, none) := rfl
  simp only [Decoder.Decode, hpv', hErrs, hm, hu]
  rfl

theorem Decode_bridge_err {T : Type} (unm : Bridge T) (p p1 : parser) (zero r : T) (v : Value)
    (err : String) (hpv : parseValue p = (v, p1)) (he : p1.x.errs = [])
    (hu : unm (marshalValue v) zero = (r, some err)) :
    (Decoder.Decode ops unm ⟨p⟩ zero).errs = some (SingleErr err) := by
  have hErrs : ops.Errs p1 = none := Errs_eq_none he
  have hpv' : ops.parseValue p = (v, p1) := hpv
  have hm : ops.marshalValueLexing v = (marshalValue v, none) := rfl
  simp only [Decoder.Decode, hpv', hErrs, hm, hu]

theorem Unmarshal_ok_inv {T : Type} (unm : Bridge T) (s : List Char) (zero r : T)
    (h : Unmarshal ops unm s zero = .ok (none, r)) :
    ∃ v p1, parseValue (newParser s) = (v, p1) ∧ p1.x.errs = [] ∧
      unm (marshalValue v) zero = (r, none) ∧
      (if p1.See tokSemi = true then p1.Shift else p1).t.Typ = EOF := by
  rcases hpv : parseValue (newParser s) with ⟨v, p1⟩
  refine ⟨v, p1, rfl, ?_⟩
  have hN : NewDecoder ops s = ⟨newParser s⟩ := rfl
  cases hE : p1.x.Errs with
  | some es =>
    exfalso
    have hD := Decode_of_parse_errs ops unm (NewDecoder ops s) zero es
      (by rw [NewDecoder_p, ops_parseValue, hpv]; exact hE)
    have hne := Errs_some _ _ hE
    unfold Unmarshal at h
    simp only [hD] at h
    cases es with
    | nil => exact hne rfl
    | cons e es => simp at h
  | none =>
    have he := (Errs_none_iff _).1 hE
    rcases hu : unm (marshalValue v) zero with ⟨w, e⟩
    cases e with
    | some err =>
      exfalso
      have hD := Decode_bridge_err unm (newParser s) p1 zero w v err hpv he hu
      unfold Unmarshal at h
      simp only [hN, hD, SingleErr] at h
      simp at h
    | none =>
      have hD := Decode_ok unm (newParser s) p1 zero w v hpv he hu
      unfold Unmarshal at h
      simp only [hN, hD] at h
      by_cases hm : Decoder.More ops ⟨if p1.See tokSemi = true then p1.Shift else p1⟩ = true
      · rw [if_pos hm] at h
        simp at h
      · rw [if_neg hm] at h
        have hw : w = r := by
          have := Except.ok.inj h
          exact (Prod.mk.inj this).2
        rw [More_eq] at hm
        refine ⟨he, by rw [hw], ?_⟩
        simpa using hm

end jsonx

namespace jsonx
open lexing

theorem parseValueFuel_semi (f : Nat) (p : parser) (h : p.t.Typ = tokSemi) :
    (parseValueFuel f p).2.x.errs ≠ [] := by
  have hs : ∀ t : Int, tokSemi ≠ t → p.See t = false := by
    intro t ht
    simp only [parser.See, h, decide_eq_false_iff_not]
    exact ht
  cases f with
  | zero => rw [parseValueFuel]; exact Errorf_errs_ne p _
  | succ f =>
    rw [parseValueFuel, if_neg (by simp [hs tokString (by decide)]),
      if_neg (by simp [hs tokRawString (by decide)]),
      if_neg (by simp [hs tokNumber (by decide)]),
      if_neg (by simp [hs tokIdent (by decide)]),
      if_neg (by simp [hs tokLbrack (by decide)]),
      if_neg (by simp [hs tokLbrace (by decide)])]
    exact Errorf_errs_ne p _

theorem Lexed.buf_nil {x r : Lexer} (h : Lexed x r) : r.buf = [] := by
  obtain ⟨_, _, _, hb, _, _⟩ := h
  exact hb

theorem Lexed.white {x r : Lexer} (h : Lexed x r) : r.IsWhite = x.IsWhite := by
  obtain ⟨_, _, _, _, _, hw⟩ := h
  exact hw

theorem ext_start (s b : List Char) (k : Nat) :
    (⟨s ++ b, [], k, [], IsWhiteOrEndl⟩ : Lexer) = ext b k ⟨s, [], 0, [], IsWhiteOrEndl⟩ := by
  simp [ext]

theorem alone_first {T : Type} (unm : Bridge T) (s b : List Char) (k : Nat) (zero r : T)
    (h : Unmarshal ops unm s zero = .ok (none, r)) (hb : boundary s b = true) :
    shiftFrom ⟨s ++ b, [], k, [], IsWhiteOrEndl⟩ = extP b k (newParser s) ∧
      (newParser s).x.errs = [] ∧ (newParser s).t.Typ ≠ EOF ∧
      (newParser s).t.Typ ≠ tokSemi := by
  obtain ⟨v, p1, hpv, he, _, _⟩ := Unmarshal_ok_inv unm s zero r h
  have hG : Grew (newParser s) p1 := by
    have := (parse_grew (2 * (newParser s).x.input.length + 4)).1 (newParser s)
    rw [show parseValueFuel (2 * (newParser s).x.input.length + 4) (newParser s) = (v, p1)
      from hpv] at this
    exact this
  have hE0 : (newParser s).x.errs = [] := hG.grew_errs_nil he
  have hT0 : (newParser s).t.Typ ≠ EOF := by
    intro hT
    have := parseValueFuel_EOF (2 * (newParser s).x.input.length + 4) (newParser s) hT
    rw [show parseValueFuel (2 * (newParser s).x.input.length + 4) (newParser s) = (v, p1)
      from hpv] at this
    exact this he
  have hS0 : (newParser s).t.Typ ≠ tokSemi := by
    intro hT
    have := parseValueFuel_semi (2 * (newParser s).x.input.length + 4) (newParser s) hT
    rw [show parseValueFuel (2 * (newParser s).x.input.length + 4) (newParser s) = (v, p1)
      from hpv] at this
    exact this he
  refine ⟨?_, hE0, hT0, hS0⟩
  rw [ext_start]
  exact shiftFrom_ext b k ⟨s, [], 0, [], IsWhiteOrEndl⟩ (boundary_apart s b hb) hE0 hT0

theorem Decode_followed {T : Type} (unm : Bridge T) (zero r : T) (s b : List Char) (k : Nat)
    (h : Unmarshal ops unm s zero = .ok (none, r)) (hb : boundary s b = true)
    (hnext : ∀ o, (shiftFrom ⟨b, [], o, [], IsWhiteOrEndl⟩).x.errs = [] ∧
      (shiftFrom ⟨b, [], o, [], IsWhiteOrEndl⟩).t.Typ ≠ tokSemi) :
    ∃ o, Decoder.Decode ops unm ⟨shiftFrom ⟨s ++ b, [], k, [], IsWhiteOrEndl⟩⟩ zero
      = ⟨none, ⟨shiftFrom ⟨b, [], o, [], IsWhiteOrEndl⟩⟩, r⟩ := by
  obtain ⟨hq0, hE0, hT0, _⟩ := alone_first unm s b k zero r h hb
  obtain ⟨v, p1, hpv, he, hu, hend⟩ := Unmarshal_ok_inv unm s zero r h
  have hpv0 : parseValueFuel (2 * (newParser s).x.input.length + 4)
      (shiftFrom ⟨s, [], 0, [], IsWhiteOrEndl⟩) = (v, p1) := hpv
  obtain ⟨x1, hL1, hA1, hp1, hs1⟩ := (sim_all b k _).1 ⟨s, [], 0, [], IsWhiteOrEndl⟩ v p1
    (boundary_apart s b hb) hpv0 he
  subst hp1
  have hpvq : parseValue (shiftFrom ⟨s ++ b, [], k, [], IsWhiteOrEndl⟩)
      = (v, shiftFrom (ext b k x1)) := by
    unfold parseValue
    rw [← ext_start] at hs1
    apply hs1
    rw [hq0]
    show _ ≤ 2 * ((newParser s).x.input ++ b).length + 4
    rw [List.length_append]
    omega
  have hL1' := shiftFrom_lexed x1
  have hx1e : x1.errs = [] := hL1'.lexed_errs_nil he
  have hx1b : x1.buf = [] := hL1.buf_nil
  have hx1w : x1.IsWhite = IsWhiteOrEndl := hL1.white
  have hb1 : Apart x1 b := hA1
  by_cases hsemi : (shiftFrom x1).See tokSemi = true
  · rw [if_pos hsemi] at hend
    have hq1 := shiftFrom_ext b k x1 hb1 he (See_ne_EOF hsemi (by decide))
    have hy := shiftFrom_EOF_ext b k (shiftFrom x1).x hend hL1'.buf_nil
    have hyw : (shiftFrom x1).x.IsWhite = IsWhiteOrEndl := by
      rw [hL1'.white, hx1w]
    rw [he, hyw] at hy
    refine ⟨(shiftFrom x1).x.off + k + (shiftFrom x1).x.input.length, ?_⟩
    rw [Decode_ok unm _ (extP b k (shiftFrom x1)) zero r v (by rw [hpvq, hq1]) he hu,
      extP_See, if_pos hsemi, extP_Shift, hy]
  · rw [if_neg hsemi] at hend
    have hy := shiftFrom_EOF_ext b k x1 hend hx1b
    rw [hx1e, hx1w] at hy
    obtain ⟨hne, hns⟩ := hnext (x1.off + k + x1.input.length)
    refine ⟨x1.off + k + x1.input.length, ?_⟩
    rw [Decode_ok unm _ (shiftFrom ⟨b, [], x1.off + k + x1.input.length, [], IsWhiteOrEndl⟩)
      zero r v (by rw [hpvq, hy]) hne hu, if_neg]
    intro hc
    apply hns
    simpa [parser.See] using hc

end jsonx

namespace jsonx
open lexing

theorem boundary_nil (a : List Char) : boundary a [] = true := by
  unfold boundary
  generalize a.length + 1 = n
  generalize (⟨a, [], 0, [], IsWhiteOrEndl⟩ : Lexer) = x
  induction n generalizing x with
  | zero => rfl
  | succ n ih => simp only [apartLoop, tokenApart, List.head?_nil, Bool.or_true, Bool.true_and, ih]

theorem boundary_head (a b c : List Char) (h : b.head? = c.head?) :
    boundary a b = boundary a c :=
  apartLoop_head _ _ b c h

theorem alone_ne_nil {T : Type} (unm : Bridge T) (s : List Char) (zero r : T)
    (h : Unmarshal ops unm s zero = .ok (none, r)) : s ≠ [] := by
  intro hs
  subst hs
  have := (alone_first unm [] [] 0 zero r h (boundary_nil _)).2.2.1
  exact this rfl

theorem Separable_tail (a : List Char) (l : List (List Char)) (h : Separable (a :: l) = true) :
    Separable l = true := by
  cases l with
  | nil => rfl
  | cons b l =>
    simp only [Separable, Bool.and_eq_true] at h
    exact h.2

theorem boundary_flatten {T : Type} (unm : Bridge T) (zero : T) (a : List Char)
    (l : List (List Char)) (rs : List T)
    (h : List.Forall₂ (fun s r => Unmarshal ops unm s zero = .ok (none, r)) l rs)
    (hsep : Separable (a :: l) = true) : boundary a l.flatten = true := by
  cases h with
  | nil => exact boundary_nil a
  | @cons s r rest rs2 hs _ =>
    simp only [Separable, Bool.and_eq_true] at hsep
    have hne := alone_ne_nil unm s zero r hs
    rw [List.flatten_cons, boundary_head a (s ++ rest.flatten) s (List.head?_append_of_ne_nil _ hne)]
    exact hsep.1

theorem follows_flatten {T : Type} (unm : Bridge T) (zero : T) (l : List (List Char))
    (rs : List T)
    (h : List.Forall₂ (fun s r => Unmarshal ops unm s zero = .ok (none, r)) l rs)
    (hsep : Separable l = true) (o : Nat) :
    (shiftFrom ⟨l.flatten, [], o, [], IsWhiteOrEndl⟩).x.errs = [] ∧
      (shiftFrom ⟨l.flatten, [], o, [], IsWhiteOrEndl⟩).t.Typ ≠ tokSemi := by
  cases h with
  | nil => exact ⟨rfl, fun e => (by decide : EOF ≠ tokSemi) e⟩
  | @cons s r rest rs2 hs hrest =>
    have hb := boundary_flatten unm zero s rest rs2 hrest hsep
    obtain ⟨hq, hE, _, hS⟩ := alone_first unm s rest.flatten o zero r hs hb
    rw [List.flatten_cons, hq]
    exact ⟨hE, hS⟩

theorem decodeAll_slices {T : Type} (unm : Bridge T) (zero : T) (slices : List (List Char))
    (rs : List T)
    (h : List.Forall₂ (fun s r => Unmarshal ops unm s zero = .ok (none, r)) slices rs) :
    Separable slices = true → ∀ k fuel, slices.length < fuel →
      decodeAll ops unm zero fuel ⟨shiftFrom ⟨slices.flatten, [], k, [], IsWhiteOrEndl⟩⟩
        = (rs, none) := by
  induction h with
  | nil =>
    intro _ k fuel hfuel
    obtain ⟨f, rfl⟩ : ∃ f, fuel = f + 1 := ⟨fuel - 1, by simp at hfuel; omega⟩
    rw [decodeAll, if_neg]
    rw [More_eq]
    have hT : (shiftFrom ⟨([] : List (List Char)).flatten, [], k, [], IsWhiteOrEndl⟩).t.Typ = EOF :=
      rfl
    rw [hT]
    simp
  | @cons s r rest rs2 hs hrest ih =>
    intro hsep k fuel hfuel
    obtain ⟨f, rfl⟩ : ∃ f, fuel = f + 1 := ⟨fuel - 1, by simp at hfuel; omega⟩
    have hb := boundary_flatten unm zero s rest rs2 hrest hsep
    have hsep2 := Separable_tail s rest hsep
    obtain ⟨hq, _, hT, _⟩ := alone_first unm s rest.flatten k zero r hs hb
    obtain ⟨o, hD⟩ := Decode_followed unm zero r s rest.flatten k hs hb
      (follows_flatten unm zero rest rs2 hrest hsep2)
    have hm : Decoder.More ops
        ⟨shiftFrom ⟨(s :: rest).flatten, [], k, [], IsWhiteOrEndl⟩⟩ = true := by
      rw [More_eq, List.flatten_cons, hq]
      simpa using hT
    rw [decodeAll, if_pos hm]
    rw [List.flatten_cons, hD]
    simp only []
    rw [ih hsep2 o f (by simp at hfuel; omega)]

end jsonx

/-! ## C3: values written one after the other -/

namespace jsonx
open lexing

/-- C3, amended. For every input made of `N` consecutive texts, each of which
decodes alone from its own text without an error and with nothing left over,
where no text that ends on an identifier is directly followed by a text that
starts with a letter, a digit or an underscore, and no text that ends on a
number is directly followed by a text that starts with a digit, a point or an
exponent mark, the loop `for dec.More() { dec.Decode(&x) }` over the texts
written one after the other performs exactly `N` decodes, all successful, and
the `i`-th result is the result of decoding the `i`-th text alone, whatever the
standard decode routine and the type of the target are. A number directly
followed by an identifier, as in `1true`, is within the statement. -/
theorem decodeAll_separable {T : Type} (unm : Bridge T) (zero : T) (slices : List (List Char))
    (rs : List T) (fuel : Nat)
    (halone : List.Forall₂ (fun s r => Unmarshal ops unm s zero = .ok (none, r)) slices rs)
    (hsep : Separable slices = true) (hfuel : slices.length < fuel) :
    decodeAll ops unm zero fuel (NewDecoder ops slices.flatten) = (rs, none) :=
  decodeAll_slices unm zero slices rs halone hsep 0 fuel hfuel

/-- C3 amended, at the input `"a""b";"c"` of the package test, as the texts
`"a"`, `"b";` and `"c"`: each decodes alone, and the loop yields `a`, `b`, `c`;
and at the input `1-2`, as the texts `1` and `-2`: the loop yields 1 and -2. The
texts `1` and `true` are within the statement as well. -/
theorem decodeAll_separable_witness :
    Unmarshal ops json.UnmarshalString [dquote, 'a', dquote] [] = .ok (none, ['a']) ∧
    Unmarshal ops json.UnmarshalString [dquote, 'b', dquote, ';'] [] = .ok (none, ['b']) ∧
    Unmarshal ops json.UnmarshalString [dquote, 'c', dquote] [] = .ok (none, ['c']) ∧
    decodeAll ops json.UnmarshalString [] 4
        (NewDecoder ops
          [[dquote, 'a', dquote], [dquote, 'b', dquote, ';'], [dquote, 'c', dquote]].flatten)
      = ([['a'], ['b'], ['c']], none) ∧
    decodeAll ops json.UnmarshalInt 0 3 (NewDecoder ops [['1'], ['-', '2']].flatten)
      = ([1, -2], none) ∧
    Separable [['1'], ['t', 'r', 'u', 'e']] = true :=
  ⟨by rfl, by rfl, by rfl,
    decodeAll_separable json.UnmarshalString []
      [[dquote, 'a', dquote], [dquote, 'b', dquote, ';'], [dquote, 'c', dquote]]
      [['a'], ['b'], ['c']] 4
      (.cons (by rfl) (.cons (by rfl) (.cons (by rfl) .nil))) (by decide) (by decide),
    decodeAll_separable json.UnmarshalInt 0 [['1'], ['-', '2']] [1, -2] 3
      (.cons (by rfl) (.cons (by rfl) .nil)) (by decide) (by decide),
    by decide⟩

end jsonx

/-! ## C11: the terminator after a value -/

namespace jsonx
open lexing

/-- C11. For every parser, every decoder state `d`, every target and every
standard decode routine: when the parser holds no error after parsing the next
value, `Decode` leaves the decoder one `Shift` past the token that follows the
value if that token is a terminator, and on that token if it is not, whatever
the canonicalizer and the standard decode routine return afterwards. -/
theorem Decode_optional_terminator {P V T : Type} (ops : ParserOps P V) (unmarshal : Bridge T)
    (d : Decoder P) (v : T) (h : ops.Errs (ops.parseValue d.p).2 = none) :
    (ops.See (ops.parseValue d.p).2 ops.tokSemi = true →
      (d.Decode ops unmarshal v).dec.p = ops.Shift (ops.parseValue d.p).2) ∧
    (ops.See (ops.parseValue d.p).2 ops.tokSemi = false →
      (d.Decode ops unmarshal v).dec.p = (ops.parseValue d.p).2) := by
  have key : (d.Decode ops unmarshal v).dec.p
      = if ops.See (ops.parseValue d.p).2 ops.tokSemi = true then ops.Shift (ops.parseValue d.p).2
        else (ops.parseValue d.p).2 := by
    simp only [Decoder.Decode, h]
    rcases ops.marshalValueLexing (ops.parseValue d.p).1 with ⟨bs, _ | errs⟩
    · dsimp only
      rcases unmarshal bs v with ⟨w, _ | err⟩ <;> rfl
    · rfl
  constructor
  · intro hs
    rw [key, if_pos hs]
  · intro hs
    rw [key, if_neg (by simp [hs])]

/-- C11, at the inputs `"a";;"b"` and `"a""b"`: after the first decode the
cursor is on the second terminator, at offset 4, of the one input, and on the
literal `"b"`, at offset 3, of the other. -/
theorem Decode_optional_terminator_witness :
    ((NewDecoder ops [dquote, 'a', dquote, ';', ';', dquote, 'b', dquote]).Decode ops
        json.UnmarshalString []).dec.p.t = ⟨tokSemi, [';'], 4⟩ ∧
    ((NewDecoder ops [dquote, 'a', dquote, dquote, 'b', dquote]).Decode ops
        json.UnmarshalString []).dec.p.t = ⟨tokString, [dquote, 'b', dquote], 3⟩ := by
  constructor
  · rw [(Decode_optional_terminator ops json.UnmarshalString
      (NewDecoder ops [dquote, 'a', dquote, ';', ';', dquote, 'b', dquote]) [] (by rfl)).1
      (by rfl)]
    rfl
  · rw [(Decode_optional_terminator ops json.UnmarshalString
      (NewDecoder ops [dquote, 'a', dquote, dquote, 'b', dquote]) [] (by rfl)).2 (by rfl)]
    rfl

end jsonx

/-! ## Option lines: every line is lexed to its end -/

namespace optline
open lexing jsonx

theorem skipWhite_rune (x : Lexer) (h : x.skipWhite.Ended = false) :
    x.skipWhite.IsWhite x.skipWhite.Rune = false := by
  rw [skipWhite_eq] at h ⊢
  simp only [Lexer.Ended, Lexer.Rune] at h ⊢
  cases hd : x.input.dropWhile x.IsWhite with
  | nil => rw [hd] at h; simp at h
  | cons c cs =>
    have := List.head?_dropWhile_not x.IsWhite x.input
    rw [hd] at this
    simpa using this

theorem Illegal_ne_EOF : Illegal ≠ EOF := by decide

theorem lexLine_shape (x : Lexer) (hw : x.IsWhite x.Rune = false) :
    ∃ r t, Took x.Next x.Next.input r ∧ t ≠ EOF ∧ lexLine x = .ok (r.MakeToken t) := by
  unfold lexLine
  simp only [hw, Bool.false_eq_true, if_false]
  by_cases h0 : x.Rune = dquote
  · rw [if_pos h0]
    exact ⟨_, tokString, stringLoop_took _ _ _ _, by decide, rfl⟩
  rw [if_neg h0]
  by_cases h1 : x.Rune = backquote
  · rw [if_pos h1]
    exact ⟨_, tokString, rawStringLoop_took _ _, by decide, rfl⟩
  rw [if_neg h1]
  by_cases h2 : x.Rune = ':'
  · rw [if_pos h2]
    exact ⟨_, tokCollon, Took.took_refl _, by decide, rfl⟩
  rw [if_neg h2]
  by_cases h3 : IsIdentLetter x.Rune = true
  · rw [if_pos h3]
    exact ⟨_, tokIdent, identLoop_took _ _, by decide, rfl⟩
  rw [if_neg h3]
  exact ⟨(x.Errorf ("illegal char " ++ String.singleton x.Rune)).Next, Illegal,
    Took_errorf_next x _, Illegal_ne_EOF, rfl⟩

theorem Next_input_length (x : Lexer) (h : x.input ≠ []) :
    x.Next.input.length + 1 = x.input.length := by
  unfold Lexer.Next
  cases hx : x.input with
  | nil => exact absurd hx h
  | cons c cs => simp

theorem Next_white (x : Lexer) : x.Next.IsWhite = x.IsWhite := by
  unfold Lexer.Next
  split <;> rfl

/-- One call of `x.Token()` under `lexLine`: at the end of the input it gives the
end-of-input token; otherwise it gives a token of another kind and takes at
least one rune. It never panics. -/
theorem Token_shape (x : Lexer) :
    (x.skipWhite.Ended = true ∧ Lexer.Token lexLine x = .ok (x.skipWhite.MakeToken EOF)) ∨
    (x.skipWhite.Ended = false ∧ ∃ tok y, Lexer.Token lexLine x = .ok (tok, y) ∧
      tok.Typ ≠ EOF ∧ y.input.length < x.input.length ∧ (∃ es, y.errs = x.errs ++ es) ∧
      y.IsWhite = x.IsWhite) := by
  by_cases he : x.skipWhite.Ended = true
  · left
    refine ⟨he, ?_⟩
    simp only [Lexer.Token, he, if_true]
  · right
    have he' : x.skipWhite.Ended = false := by simpa using he
    refine ⟨he', ?_⟩
    obtain ⟨r, t, hT, ht, hl⟩ := lexLine_shape x.skipWhite (skipWhite_rune x he')
    refine ⟨(r.MakeToken t).1, (r.MakeToken t).2, ?_, ht, ?_, ?_, ?_⟩
    · simp only [Lexer.Token, he', Bool.false_eq_true, if_false, hl]
    · obtain ⟨pre, es, hi, _, _, _, _⟩ := hT
      have hne : x.skipWhite.input ≠ [] := by
        intro h0
        simp [Lexer.Ended, h0] at he'
      have h1 := Next_input_length x.skipWhite hne
      obtain ⟨p0, _, hi0, _⟩ := skipWhite_lexed x
      have h3 : x.skipWhite.input.length ≤ x.input.length := by
        rw [hi0, List.length_append]; omega
      have h4 : r.input.length ≤ x.skipWhite.Next.input.length := by
        rw [hi, List.length_append]; omega
      show r.input.length < _
      omega
    · obtain ⟨pre, es, _, _, _, hes, _⟩ := hT
      obtain ⟨_, _, _, _, he0, _⟩ := skipWhite_lexed x
      refine ⟨es, ?_⟩
      show r.errs = _
      rw [hes, Next_errs]
      have : x.skipWhite.errs = x.errs := by
        rw [skipWhite_eq]
      rw [this]
    · obtain ⟨pre, es, _, _, _, _, hw⟩ := hT
      show r.IsWhite = _
      rw [hw, Next_white, skipWhite_eq]

end optline

namespace optline
open lexing jsonx

theorem TokenAllLoop_ok (fuel : Nat) (x : Lexer) :
    ∃ toks y, TokenAllLoop lexLine fuel x = .ok (toks, y) ∧ ∃ es, y.errs = x.errs ++ es := by
  induction fuel generalizing x with
  | zero => exact ⟨[], x, rfl, [], by simp⟩
  | succ f ih =>
    rcases Token_shape x with ⟨_, hT⟩ | ⟨_, tok, y, hT, hne, _, ⟨es, hes⟩, _⟩
    · refine ⟨[(x.skipWhite.MakeToken EOF).1], (x.skipWhite.MakeToken EOF).2, ?_, [], ?_⟩
      · simp only [TokenAllLoop, hT]
        rfl
      · rw [skipWhite_eq]
        simp [Lexer.MakeToken]
    · obtain ⟨toks, z, hz, es2, hes2⟩ := ih y
      refine ⟨tok :: toks, z, ?_, es ++ es2, ?_⟩
      · simp only [TokenAllLoop, hT, hne, if_false, hz]
      · rw [hes2, hes, List.append_assoc]

theorem TokenAllLoop_fuel (f1 f2 : Nat) (x : Lexer) (h1 : x.input.length < f1)
    (h2 : x.input.length < f2) :
    TokenAllLoop lexLine f1 x = TokenAllLoop lexLine f2 x := by
  induction f1 generalizing f2 x with
  | zero => omega
  | succ f ih =>
    obtain ⟨g, rfl⟩ : ∃ g, f2 = g + 1 := ⟨f2 - 1, by omega⟩
    rcases Token_shape x with ⟨_, hT⟩ | ⟨_, tok, y, hT, hne, hlt, _, _⟩
    · simp only [TokenAllLoop, hT]
      have hE : (x.skipWhite.MakeToken EOF).1.Typ = EOF := rfl
      rw [if_pos hE, if_pos hE]
    · simp only [TokenAllLoop, hT, hne, if_false]
      rw [ih g y (by omega) (by omega)]

theorem Errs_ne_some_nil (x : Lexer) : x.Errs ≠ some [] := by
  intro h
  exact Errs_some x [] h rfl

end optline

namespace optline
open lexing jsonx

theorem TokenAll_ok (line : List Char) :
    ∃ toks x, ∀ fuel, line.length < fuel →
      TokenAllLoop lexLine fuel (lineLexer line) = .ok (toks, x) := by
  obtain ⟨toks, x, h, _⟩ := TokenAllLoop_ok (line.length + 1) (lineLexer line)
  refine ⟨toks, x, fun fuel hf => ?_⟩
  rw [← h]
  exact TokenAllLoop_fuel fuel (line.length + 1) (lineLexer line) hf (Nat.lt_succ_self _)

theorem Parse_of_tokens (line : List Char) (toks : List Token) (x : Lexer)
    (h : TokenAll lexLine (lineLexer line) = .ok (toks, x)) :
    (IsFourTokens toks x = true → ∃ o, Parse line = .ok (some o, none)) ∧
    (IsFourTokens toks x = false → ∃ e, Parse line = .ok (none, some e)) := by
  have h' : TokenAll lexLine { MakeLexer line with IsWhite := IsWhiteOrEndl } = .ok (toks, x) := h
  simp only [Parse, h']
  cases hx : x.errs with
  | cons e es =>
    have hE : x.Errs = some (e :: es) := by simp [Lexer.Errs, hx]
    simp only [hE, IsFourTokens, hx, List.isEmpty_cons, Bool.false_and]
    exact ⟨fun hf => absurd hf (by simp), fun _ => ⟨_, rfl⟩⟩
  | nil =>
    have hE : x.Errs = none := by simp [Lexer.Errs, hx]
    simp only [hE, IsFourTokens, hx, List.isEmpty_nil, Bool.true_and]
    rcases toks with _ | ⟨a, _ | ⟨b, _ | ⟨c, _ | ⟨d, _ | ⟨e, rest⟩⟩⟩⟩⟩
    · exact ⟨fun hf => absurd hf (by simp), fun _ => ⟨_, rfl⟩⟩
    · exact ⟨fun hf => absurd hf (by simp), fun _ => ⟨_, rfl⟩⟩
    · exact ⟨fun hf => absurd hf (by simp), fun _ => ⟨_, rfl⟩⟩
    · exact ⟨fun hf => absurd hf (by simp), fun _ => ⟨_, rfl⟩⟩
    · simp only []
      by_cases h1 : a.Typ = tokIdent
      swap
      · simp only [h1, ne_eq, not_false_eq_true, if_true, decide_False, Bool.false_and]
        exact ⟨fun hf => absurd hf (by simp), fun _ => ⟨_, rfl⟩⟩
      by_cases h2 : b.Typ = tokCollon
      swap
      · simp only [h1, h2, ne_eq, not_true_eq_false, not_false_eq_true, if_true, if_false,
          decide_True, decide_False, Bool.false_and, Bool.and_false, Bool.true_and]
        exact ⟨fun hf => absurd hf (by simp), fun _ => ⟨_, rfl⟩⟩
      by_cases h3 : c.Typ = tokString
      swap
      · simp only [h1, h2, h3, ne_eq, not_true_eq_false, not_false_eq_true, if_true, if_false,
          decide_True, decide_False, Bool.false_and, Bool.and_false, Bool.true_and]
        exact ⟨fun hf => absurd hf (by simp), fun _ => ⟨_, rfl⟩⟩
      by_cases h4 : d.Typ = EOF
      swap
      · simp only [h1, h2, h3, h4, ne_eq, not_true_eq_false, not_false_eq_true, if_true,
          if_false, decide_True, decide_False, Bool.false_and, Bool.and_false, Bool.true_and]
        exact ⟨fun hf => absurd hf (by simp), fun _ => ⟨_, rfl⟩⟩
      simp only [h1, h2, h3, h4, ne_eq, not_true_eq_false, if_false, decide_True,
        Bool.true_and, Bool.and_true]
      cases strconv.Unquote c.Lit with
      | error err => exact ⟨fun hf => absurd hf (by simp), fun _ => ⟨_, rfl⟩⟩
      | ok v => exact ⟨fun _ => ⟨_, rfl⟩, fun hf => absurd hf (by simp)⟩
    · exact ⟨fun hf => absurd hf (by simp), fun _ => ⟨_, rfl⟩⟩

end optline

namespace optline
open lexing jsonx

/-- C12. For every line, lexing ends with one list of tokens and one lexer state,
whatever fuel above the length of the line the token loop is given, and `Parse`
returns a non-nil option with a nil error if and only if the lexer recorded no
error, the tokens are exactly an identifier, a colon, a string and the end of
the input, and the string literal unquotes; otherwise it returns a nil option
and a non-nil error. -/
theorem Parse_four_tokens (line : List Char) :
    ∃ toks x,
      (∀ fuel, line.length < fuel →
        TokenAllLoop lexLine fuel (lineLexer line) = .ok (toks, x)) ∧
      ((∃ o, Parse line = .ok (some o, none)) ↔ IsFourTokens toks x = true) ∧
      (IsFourTokens toks x = false → ∃ e, Parse line = .ok (none, some e)) := by
  obtain ⟨toks, x, h⟩ := TokenAll_ok line
  have hT : TokenAll lexLine (lineLexer line) = .ok (toks, x) :=
    h (line.length + 1) (Nat.lt_succ_self _)
  obtain ⟨h1, h2⟩ := Parse_of_tokens line toks x hT
  refine ⟨toks, x, h, ⟨?_, h1⟩, h2⟩
  rintro ⟨o, ho⟩
  by_contra hn
  obtain ⟨e, he⟩ := h2 (by simpa using hn)
  rw [ho] at he
  cases he

/-- C14. For every line `Parse` does not panic; and for every lexer state, the
state on which `x.Token()` invokes `lexLine`, which is the state after the
whitespace is skipped when the input has not ended there, is not on a
whitespace or line-ending character, and `lexLine` does not panic on it. -/
theorem Parse_never_on_white (line : List Char) :
    (∀ msg, Parse line ≠ .error msg) ∧
    (∀ x : Lexer, x.skipWhite.Ended = false →
      x.skipWhite.IsWhite x.skipWhite.Rune = false ∧
        ∀ msg, lexLine x.skipWhite ≠ .error msg) ∧
    ∀ (fuel : Nat) (x : Lexer) (msg : String), TokenAllLoop lexLine fuel x ≠ .error msg := by
  refine ⟨?_, ?_, ?_⟩
  · intro msg hm
    obtain ⟨toks, x, h⟩ := TokenAll_ok line
    have hT : TokenAll lexLine (lineLexer line) = .ok (toks, x) :=
      h (line.length + 1) (Nat.lt_succ_self _)
    obtain ⟨h1, h2⟩ := Parse_of_tokens line toks x hT
    cases hf : IsFourTokens toks x with
    | true =>
      obtain ⟨o, ho⟩ := h1 hf
      rw [ho] at hm
      cases hm
    | false =>
      obtain ⟨e, he⟩ := h2 hf
      rw [he] at hm
      cases hm
  · intro x hx
    have hw := skipWhite_rune x hx
    refine ⟨hw, fun msg hm => ?_⟩
    obtain ⟨r, t, _, _, hl⟩ := lexLine_shape x.skipWhite hw
    rw [hl] at hm
    cases hm
  · intro fuel x msg hm
    obtain ⟨toks, y, h, _⟩ := TokenAllLoop_ok fuel x
    rw [h] at hm
    cases hm

end optline

/-! ## C15: the operations of the client when no request can be built -/

namespace httputil

theorem reqJSON_error {Ctx Val Tgt W : Type} (c : Client Ctx) (env : Env Ctx Val Tgt W)
    (m p : String) (r : Nilable (List Char)) (err : String)
    (h : c.req env m p r = .error err) : c.reqJSON env m p r = .error err := by
  simp only [Client.reqJSON, h]

/-- Building a request fails exactly when the URL cannot be made, the request
cannot be created, or adding the authorization fails. -/
theorem req_error_iff {Ctx Val Tgt W : Type} (c : Client Ctx) (env : Env Ctx Val Tgt W)
    (m p : String) (r : Nilable (List Char)) (err : String) :
    c.req env m p r = .error err ↔
      env.makeURL c.Server p = .error err ∨
      (∃ u, env.makeURL c.Server p = .ok u ∧ env.NewRequest m u r = .error err) ∨
      (∃ u req, env.makeURL c.Server p = .ok u ∧ env.NewRequest m u r = .ok req ∧
        (c.addAuth req).2 = some err) := by
  unfold Client.req
  cases hu : env.makeURL c.Server p with
  | error e => simp
  | ok u =>
    cases hr : env.NewRequest m u r with
    | error e => simp [hr]
    | ok req =>
      rcases ha : c.addAuth req with ⟨req2, _ | e⟩
      · simp [hr, ha]
      · simp [hr, ha]

/-- C15, on the code. For every client, every environment and every path: when
the request cannot be built, `Put`, `Get`, `GetCode`, `Post`, `Poke`, `Delete`
and `JSONCall` return the error of the building and send nothing, and `JSONGet`
sends nothing too but returns a nil error. -/
theorem Client_build_failure {Ctx Val Tgt W : Type} (c : Client Ctx)
    (env : Env Ctx Val Tgt W) (p : String) :
    (∀ r err, c.req env "PUT" p (some r) = .error err → c.Put env p r = (some err, [])) ∧
    (∀ err, c.req env "GET" p none = .error err →
      c.Get env p = ((none, some err), []) ∧ c.GetCode env p = ((0, some err), []) ∧
      ∀ resp, c.JSONGet env p resp = (none, [])) ∧
    (∀ r w err, c.req env "POST" p r = .error err → c.Post env p r w = (some err, [])) ∧
    (∀ err, c.req env "POST" p none = .error err → c.Poke env p = (some err, [])) ∧
    (∀ err, c.req env "DELETE" p none = .error err → c.Delete env p = (some err, [])) ∧
    (∀ v bs resp err, env.Marshal v = .ok bs → c.req env "POST" p (some bs) = .error err →
      c.JSONCall env p v resp = (some err, [])) := by
  refine ⟨?_, ?_, ?_, ?_, ?_, ?_⟩
  · intro r err h
    simp only [Client.Put, h]
  · intro err h
    refine ⟨?_, ?_, ?_⟩
    · simp only [Client.Get, h]
    · simp only [Client.GetCode, h]
    · intro resp
      simp only [Client.JSONGet, reqJSON_error c env "GET" p none err h]
  · intro r w err h
    simp only [Client.Post, h]
  · intro err h
    simp only [Client.Poke, Client.poke, h]
  · intro err h
    simp only [Client.Delete, Client.poke, h]
  · intro v bs resp err hm h
    simp only [Client.JSONCall, Client.jsonPost, hm, reqJSON_error c env "POST" p (some bs) err h]

/-- C15, at a client whose token source fails with `no token`: `Get` returns
that error, `JSONGet` returns nil, and neither sends a request. -/
theorem Client_build_failure_witness :
    failingClient.req plainEnv "GET" "/x" none = .error "no token" ∧
    failingClient.Get plainEnv "/x" = ((none, some "no token"), []) ∧
    failingClient.JSONGet plainEnv "/x" () = (none, []) :=
  ⟨rfl, ((Client_build_failure failingClient plainEnv "/x").2.1 "no token" rfl).1,
    ((Client_build_failure failingClient plainEnv "/x").2.1 "no token" rfl).2.2 ()⟩

end httputil

/-! ## Option lines: a character that starts no token -/

namespace optline
open lexing jsonx

theorem dropWhile_append_stop (P : Char → Bool) (p : List Char) (c : Char) (rest : List Char)
    (hc : P c = false) : (p ++ c :: rest).dropWhile P = p.dropWhile P ++ c :: rest := by
  induction p with
  | nil => simp [List.dropWhile, hc]
  | cons a p ih =>
    by_cases ha : P a = true
    · simp [List.dropWhile, ha, ih]
    · simp [List.dropWhile, ha]

theorem dropWhile_append_of_mem (P : Char → Bool) (p s : List Char) (a : Char) (ha : a ∈ p)
    (hP : P a = false) : (p ++ s).dropWhile P = p.dropWhile P ++ s := by
  induction p with
  | nil => simp at ha
  | cons b p ih =>
    by_cases hb : P b = true
    · have : a ∈ p := by
        rcases List.mem_cons.1 ha with rfl | h
        · rw [hP] at hb; exact absurd hb (by simp)
        · exact h
      simp [List.dropWhile, hb, ih this]
    · simp [List.dropWhile, hb]

theorem scanQuote_skip (l1 l2 : List Char) (h : ∀ a ∈ l1, a ≠ dquote ∧ a ≠ backquote) :
    scanQuote .out (l1 ++ l2) = scanQuote .out l2 := by
  induction l1 with
  | nil => rfl
  | cons a l1 ih =>
    obtain ⟨h1, h2⟩ := h a (List.mem_cons_self _ _)
    show scanQuote .out (a :: (l1 ++ l2)) = _
    rw [scanQuote, if_neg h1, if_neg h2]
    exact ih (fun b hb => h b (List.mem_cons_of_mem _ hb))

theorem scanQuote_dropWhile (P : Char → Bool) (p : List Char)
    (hP : ∀ a, P a = true → a ≠ dquote ∧ a ≠ backquote) (hs : scanQuote .out p = .out) :
    scanQuote .out (p.dropWhile P) = .out := by
  have h := scanQuote_skip (p.takeWhile P) (p.dropWhile P)
    (fun a ha => hP a (List.mem_takeWhile_imp ha))
  rw [List.takeWhile_append_dropWhile] at h
  rw [← h]
  exact hs

theorem Detached_suffix (q p : List Char) (c : Char) (h : Detached (q ++ p) c = true) :
    Detached p c = true := by
  cases p with
  | nil => simp [Detached]
  | cons a p =>
    have : (q ++ a :: p).getLast? = (a :: p).getLast? :=
      List.getLast?_append_of_ne_nil q (by simp)
    simpa [Detached, this] using h

theorem dropWhile_suffix (P : Char → Bool) (p : List Char) :
    ∃ q, p = q ++ p.dropWhile P :=
  ⟨p.takeWhile P, (List.takeWhile_append_dropWhile P p).symm⟩

end optline

namespace optline
open lexing jsonx

theorem stringLoop_scan (e : Bool) (x : Lexer) (p s : List Char)
    (hs : scanQuote (.str e) p = .out) :
    (stringLoop dquote e x (p ++ s)).errs ≠ [] ∨
    (∃ q p', p = q ++ p' ∧ (stringLoop dquote e x (p ++ s)).input = p' ++ s ∧
      scanQuote .out p' = .out) := by
  induction p generalizing e x with
  | nil =>
    rw [scanQuote] at hs
    cases hs
  | cons a p ih =>
    simp only [List.cons_append]
    cases e with
    | true =>
      rw [scanQuote] at hs
      rw [stringLoop]
      rcases ih false { x with buf := x.buf ++ [a] } hs with h | ⟨q, p', hq, hi, hp⟩
      · exact Or.inl h
      · exact Or.inr ⟨a :: q, p', by rw [hq]; rfl, hi, hp⟩
    | false =>
      rw [scanQuote] at hs
      rw [stringLoop]
      by_cases h1 : a = '\n'
      · rw [if_pos h1]
        left
        simp [Lexer.Errorf]
      rw [if_neg h1] at hs ⊢
      by_cases h2 : a = backslash
      · rw [if_pos h2] at hs ⊢
        rcases ih true { x with buf := x.buf ++ [a] } hs with h | ⟨q, p', hq, hi, hp⟩
        · exact Or.inl h
        · exact Or.inr ⟨a :: q, p', by rw [hq]; rfl, hi, hp⟩
      rw [if_neg h2] at hs ⊢
      by_cases h3 : a = dquote
      · rw [if_pos h3] at hs ⊢
        exact Or.inr ⟨[a], p, rfl, rfl, hs⟩
      rw [if_neg h3] at hs ⊢
      rcases ih false { x with buf := x.buf ++ [a] } hs with h | ⟨q, p', hq, hi, hp⟩
      · exact Or.inl h
      · exact Or.inr ⟨a :: q, p', by rw [hq]; rfl, hi, hp⟩

theorem rawStringLoop_scan (x : Lexer) (p s : List Char) (hs : scanQuote .raw p = .out) :
    ∃ q p', p = q ++ p' ∧ (rawStringLoop x (p ++ s)).input = p' ++ s ∧
      scanQuote .out p' = .out := by
  induction p generalizing x with
  | nil =>
    rw [scanQuote] at hs
    cases hs
  | cons a p ih =>
    simp only [List.cons_append]
    rw [scanQuote] at hs
    rw [rawStringLoop]
    by_cases h1 : a = backquote
    · rw [if_pos h1] at hs ⊢
      exact ⟨[a], p, rfl, rfl, hs⟩
    · rw [if_neg h1] at hs ⊢
      obtain ⟨q, p', hq, hi, hp⟩ := ih { x with buf := x.buf ++ [a] } hs
      exact ⟨a :: q, p', by rw [hq]; rfl, hi, hp⟩

theorem identLoop_input (x : Lexer) (inp : List Char) :
    (identLoop x inp).input = inp.dropWhile (fun c => IsIdentLetter c || IsDigit c) := by
  induction inp generalizing x with
  | nil => simp [identLoop]
  | cons c cs ih =>
    by_cases hc : (IsIdentLetter c || IsDigit c) = true
    · rw [identLoop, if_pos hc, ih]
      simp [List.dropWhile, hc]
    · rw [identLoop, if_neg hc]
      simp [List.dropWhile, hc]

end optline

namespace optline
open lexing jsonx

theorem StartsNoToken_iff (c : Char) :
    StartsNoToken c = true ↔
      c ≠ dquote ∧ c ≠ backquote ∧ c ≠ ':' ∧ IsIdentLetter c = false := by
  simp [StartsNoToken, and_assoc]

theorem lexLine_dquote (z : Lexer) (hw : z.IsWhite z.Rune = false) (h : z.Rune = dquote) :
    lexLine z = .ok (LexString z tokString dquote) := by
  unfold lexLine
  simp only [hw, Bool.false_eq_true, if_false]
  rw [if_pos h, h]

theorem lexLine_backquote (z : Lexer) (hw : z.IsWhite z.Rune = false)
    (h : z.Rune = backquote) : lexLine z = .ok (LexRawString z tokString) := by
  unfold lexLine
  simp only [hw, Bool.false_eq_true, if_false]
  rw [if_neg (by rw [h]; decide), if_pos h]

theorem lexLine_colon (z : Lexer) (hw : z.IsWhite z.Rune = false) (h : z.Rune = ':') :
    lexLine z = .ok (z.Next.MakeToken tokCollon) := by
  unfold lexLine
  simp only [hw, Bool.false_eq_true, if_false]
  rw [if_neg (by rw [h]; decide), if_neg (by rw [h]; decide), if_pos h]

theorem lexLine_ident (z : Lexer) (hw : z.IsWhite z.Rune = false)
    (h : IsIdentLetter z.Rune = true) : lexLine z = .ok (LexIdent z tokIdent) := by
  have h1 : z.Rune ≠ dquote := by intro e; rw [e] at h; revert h; decide
  have h2 : z.Rune ≠ backquote := by intro e; rw [e] at h; revert h; decide
  have h3 : z.Rune ≠ ':' := by intro e; rw [e] at h; revert h; decide
  unfold lexLine
  simp only [hw, Bool.false_eq_true, if_false]
  rw [if_neg h1, if_neg h2, if_neg h3, if_pos h]

theorem lexLine_illegal (z : Lexer) (hw : z.IsWhite z.Rune = false)
    (h : StartsNoToken z.Rune = true) :
    lexLine z = .ok ((z.Errorf ("illegal char " ++ String.singleton z.Rune)).Next.MakeToken
      Illegal) := by
  obtain ⟨h1, h2, h3, h4⟩ := (StartsNoToken_iff _).1 h
  unfold lexLine
  simp only [hw, Bool.false_eq_true, if_false]
  rw [if_neg h1, if_neg h2, if_neg h3, if_neg (by simp [h4])]

theorem Next_cons (z : Lexer) (d : Char) (t : List Char) (h : z.input = d :: t) :
    z.Next = { z with input := t, buf := z.buf ++ [d] } := by
  unfold Lexer.Next
  rw [h]

theorem Rune_cons (z : Lexer) (d : Char) (t : List Char) (h : z.input = d :: t) :
    z.Rune = d := by
  simp [Lexer.Rune, h]

theorem alnum_not_quote (a : Char) (h : (IsIdentLetter a || IsDigit a) = true) :
    a ≠ dquote ∧ a ≠ backquote := by
  constructor
  · intro e; rw [e] at h; revert h; decide
  · intro e; rw [e] at h; revert h; decide

theorem white_not_quote (a : Char) (h : IsWhiteOrEndl a = true) :
    a ≠ dquote ∧ a ≠ backquote := by
  constructor
  · intro e; rw [e] at h; revert h; decide
  · intro e; rw [e] at h; revert h; decide

end optline

namespace optline
open lexing jsonx

theorem lexLine_progress (z : Lexer) (p : List Char) (c : Char) (rest : List Char)
    (hz : z.input = p ++ c :: rest) (hw : z.IsWhite z.Rune = false)
    (hs : scanQuote .out p = .out) (hd : Detached p c = true)
    (hc : StartsNoToken c = true) :
    ∃ tok y, lexLine z = .ok (tok, y) ∧
      (y.errs ≠ [] ∨ ∃ p', p'.length < p.length ∧ y.input = p' ++ c :: rest ∧
        scanQuote .out p' = .out ∧ Detached p' c = true) := by
  cases p with
  | nil =>
    have hr : z.Rune = c := Rune_cons z c rest hz
    rw [lexLine_illegal z hw (by rw [hr]; exact hc)]
    refine ⟨_, _, rfl, Or.inl ?_⟩
    show (z.Errorf _).Next.errs ≠ []
    rw [Next_errs]
    simp [Lexer.Errorf]
  | cons d p2 =>
    have hz' : z.input = d :: (p2 ++ c :: rest) := hz
    have hr : z.Rune = d := Rune_cons z d _ hz'
    have hN := Next_cons z d _ hz'
    by_cases h1 : d = dquote
    · rw [lexLine_dquote z hw (by rw [hr]; exact h1)]
      refine ⟨_, _, rfl, ?_⟩
      have hs' : scanQuote (.str false) p2 = .out := by
        rw [scanQuote, if_pos h1] at hs
        exact hs
      show (stringLoop dquote false z.Next z.Next.input).errs ≠ [] ∨
        ∃ p', _ ∧ (stringLoop dquote false z.Next z.Next.input).input = _ ∧ _
      rw [hN]
      rcases stringLoop_scan false { z with input := p2 ++ c :: rest, buf := z.buf ++ [d] }
        p2 (c :: rest) hs' with h | ⟨q, p', hq, hi, hp⟩
      · exact Or.inl h
      · refine Or.inr ⟨p', ?_, hi, hp, Detached_suffix (d :: q) p' c (by rw [hq] at hd; exact hd)⟩
        rw [hq]
        simp
        omega
    by_cases h2 : d = backquote
    · rw [lexLine_backquote z hw (by rw [hr]; exact h2)]
      refine ⟨_, _, rfl, ?_⟩
      have hs' : scanQuote .raw p2 = .out := by
        rw [scanQuote, if_neg h1, if_pos h2] at hs
        exact hs
      show (rawStringLoop z.Next z.Next.input).errs ≠ [] ∨
        ∃ p', _ ∧ (rawStringLoop z.Next z.Next.input).input = _ ∧ _
      rw [hN]
      obtain ⟨q, p', hq, hi, hp⟩ := rawStringLoop_scan
        { z with input := p2 ++ c :: rest, buf := z.buf ++ [d] } p2 (c :: rest) hs'
      refine Or.inr ⟨p', ?_, hi, hp, Detached_suffix (d :: q) p' c (by rw [hq] at hd; exact hd)⟩
      rw [hq]
      simp
      omega
    have hs2 : scanQuote .out p2 = .out := by
      rw [scanQuote, if_neg h1, if_neg h2] at hs
      exact hs
    have hd2 : Detached p2 c = true := Detached_suffix [d] p2 c hd
    by_cases h3 : d = ':'
    · rw [lexLine_colon z hw (by rw [hr]; exact h3)]
      refine ⟨_, _, rfl, Or.inr ⟨p2, by simp, ?_, hs2, hd2⟩⟩
      show z.Next.input = _
      rw [hN]
    by_cases h4 : IsIdentLetter d = true
    · rw [lexLine_ident z hw (by rw [hr]; exact h4)]
      have hstop : (p2 ++ c :: rest).dropWhile (fun a => IsIdentLetter a || IsDigit a)
          = p2.dropWhile (fun a => IsIdentLetter a || IsDigit a) ++ c :: rest := by
        by_cases hdig : IsDigit c = true
        · have hl : ∃ l, (d :: p2).getLast? = some l := by
            cases h : (d :: p2).getLast? with
            | none => simp at h
            | some l => exact ⟨l, rfl⟩
          obtain ⟨l, hl⟩ := hl
          have hnl : (IsIdentLetter l || IsDigit l) = false := by
            simpa [Detached, hdig, hl] using hd
          have hm := List.mem_of_getLast?_eq_some hl
          rcases List.mem_cons.1 hm with rfl | hm
          · rw [h4] at hnl
            simp at hnl
          · exact dropWhile_append_of_mem _ p2 (c :: rest) l hm hnl
        · apply dropWhile_append_stop
          have := ((StartsNoToken_iff c).1 hc).2.2.2
          simp [this, hdig]
      refine ⟨_, _, rfl, Or.inr ⟨p2.dropWhile (fun a => IsIdentLetter a || IsDigit a), ?_, ?_,
        scanQuote_dropWhile _ p2 alnum_not_quote hs2, ?_⟩⟩
      · obtain ⟨q, hq⟩ := dropWhile_suffix (fun a => IsIdentLetter a || IsDigit a) p2
        have := congrArg List.length hq
        rw [List.length_append] at this
        simp only [List.length_cons]
        omega
      · show (identLoop z.Next z.Next.input).input = _
        rw [identLoop_input, hN, hstop]
      · obtain ⟨q, hq⟩ := dropWhile_suffix (fun a => IsIdentLetter a || IsDigit a) p2
        exact Detached_suffix q _ c (by rw [← hq]; exact hd2)
    · have hI : StartsNoToken d = true := by
        rw [StartsNoToken_iff]
        exact ⟨h1, h2, h3, by simpa using h4⟩
      rw [lexLine_illegal z hw (by rw [hr]; exact hI)]
      refine ⟨_, _, rfl, Or.inl ?_⟩
      show (z.Errorf _).Next.errs ≠ []
      rw [Next_errs]
      simp [Lexer.Errorf]

end optline

namespace optline
open lexing jsonx

theorem Token_progress (x : Lexer) (p : List Char) (c : Char) (rest : List Char)
    (hx : x.input = p ++ c :: rest) (hw : x.IsWhite = IsWhiteOrEndl)
    (hs : scanQuote .out p = .out) (hd : Detached p c = true)
    (hc1 : StartsNoToken c = true) (hc2 : IsWhiteOrEndl c = false) :
    ∃ tok y, Lexer.Token lexLine x = .ok (tok, y) ∧ tok.Typ ≠ EOF ∧
      y.IsWhite = IsWhiteOrEndl ∧ y.input.length < x.input.length ∧
      (y.errs ≠ [] ∨ ∃ p', y.input = p' ++ c :: rest ∧ scanQuote .out p' = .out ∧
        Detached p' c = true) := by
  have hin : x.skipWhite.input = p.dropWhile IsWhiteOrEndl ++ c :: rest := by
    rw [skipWhite_eq]
    show x.input.dropWhile x.IsWhite = _
    rw [hx, hw, dropWhile_append_stop _ p c rest hc2]
  rcases Token_shape x with ⟨he, _⟩ | ⟨he, tok, y, hT, hne, hlt, _, hwy⟩
  · exfalso
    simp [Lexer.Ended, hin] at he
  · refine ⟨tok, y, hT, hne, by rw [hwy, hw], hlt, ?_⟩
    obtain ⟨q, hq⟩ := dropWhile_suffix IsWhiteOrEndl p
    obtain ⟨tok2, y2, hl, hres⟩ := lexLine_progress x.skipWhite (p.dropWhile IsWhiteOrEndl) c rest
      hin (skipWhite_rune x he) (scanQuote_dropWhile _ p white_not_quote hs)
      (Detached_suffix q _ c (by rw [← hq]; exact hd)) hc1
    have hT2 : Lexer.Token lexLine x = lexLine x.skipWhite := by
      simp only [Lexer.Token, he, Bool.false_eq_true, if_false]
    rw [hT2, hl] at hT
    have hy : y2 = y := (Prod.mk.inj (Except.ok.inj hT)).2
    subst hy
    rcases hres with h | ⟨p', _, hi, hp, hdp⟩
    · exact Or.inl h
    · exact Or.inr ⟨p', hi, hp, hdp⟩

theorem TokenAllLoop_reaches (fuel : Nat) (x : Lexer) (p : List Char) (c : Char)
    (rest : List Char) (hx : x.input = p ++ c :: rest) (hw : x.IsWhite = IsWhiteOrEndl)
    (hs : scanQuote .out p = .out) (hd : Detached p c = true)
    (hc1 : StartsNoToken c = true) (hc2 : IsWhiteOrEndl c = false)
    (hf : x.input.length < fuel) (toks : List Token) (y : Lexer)
    (h : TokenAllLoop lexLine fuel x = .ok (toks, y)) : y.errs ≠ [] := by
  induction fuel generalizing x p toks y with
  | zero => omega
  | succ f ih =>
    obtain ⟨tok, y1, hT, hne, hwy, hlt, hres⟩ := Token_progress x p c rest hx hw hs hd hc1 hc2
    obtain ⟨toks1, z, hz, es, hes⟩ := TokenAllLoop_ok f y1
    simp only [TokenAllLoop, hT, hne, if_false, hz] at h
    have hy : z = y := (Prod.mk.inj (Except.ok.inj h)).2
    subst hy
    rcases hres with h1 | ⟨p', hi, hp, hdp⟩
    · rw [hes]
      intro h0
      exact h1 (List.append_eq_nil.1 h0).1
    · exact ih y1 p' hi hwy hp hdp (by omega) toks1 z hz

theorem Parse_lexError_of_errs (line : List Char) (toks : List Token) (x : Lexer)
    (h : TokenAll lexLine (lineLexer line) = .ok (toks, x)) (he : x.errs ≠ []) :
    ∃ e, Parse line = .ok (none, some (.lexError line e)) := by
  have h' : TokenAll lexLine { MakeLexer line with IsWhite := IsWhiteOrEndl } = .ok (toks, x) := h
  simp only [Parse, h']
  cases hx : x.errs with
  | nil => exact absurd hx he
  | cons e es =>
    have hE : x.Errs = some (e :: es) := by simp [Lexer.Errs, hx]
    simp only [hE]
    exact ⟨e, rfl⟩

theorem Parse_reaches (pre : List Char) (c : Char) (rest : List Char)
    (hs : Outside pre = true) (hc1 : StartsNoToken c = true) (hc2 : IsWhiteOrEndl c = false)
    (hd : Detached pre c = true) :
    ∃ e, Parse (pre ++ c :: rest) = .ok (none, some (.lexError (pre ++ c :: rest) e)) := by
  obtain ⟨toks, x, h⟩ := TokenAll_ok (pre ++ c :: rest)
  have hT : TokenAll lexLine (lineLexer (pre ++ c :: rest)) = .ok (toks, x) :=
    h _ (Nat.lt_succ_self _)
  refine Parse_lexError_of_errs _ toks x hT ?_
  exact TokenAllLoop_reaches _ (lineLexer (pre ++ c :: rest)) pre c rest rfl rfl
    (by simpa [Outside] using hs) hd hc1 hc2 (Nat.lt_succ_self _) toks x hT

end optline

namespace optline
open lexing jsonx

/-- C13, refuted as stated, on the line `k1: "value"` of the package test: a
blank and the digit `1` are no double quote, backtick, colon or identifier
letter; on the blank `lexLine` panics, and it records no error; the line holds
the digit after `k` and the blank after the colon, both outside any string
literal, and `Parse` returns the option of key `k1`. -/
theorem lexLine_blank_and_digit :
    StartsNoToken ' ' = true ∧
    lexLine (lineLexer [' ']) = .error "incorrect token start" ∧
    StartsNoToken '1' = true ∧ Outside ['k'] = true ∧ Outside ['k', '1', ':'] = true ∧
    Parse (['k'] ++ '1' :: ':' :: ' ' :: dquote :: ['v', 'a', 'l', 'u', 'e', dquote])
      = .ok (some { Key := ['k', '1'], Value := ['v', 'a', 'l', 'u', 'e'] }, none) := by
  refine ⟨by decide, by rfl, by decide, by decide, by decide, by rfl⟩

/-- C13, amended. On a character that is not whitespace and is no double quote,
backtick, colon or identifier letter, `lexLine` records a lex error at the
position of the character, takes exactly that character and gives an illegal
token; and for every line `pre ++ c :: rest` in which such a character `c` stands
outside any string literal and is no digit that directly follows a letter, a
digit or an underscore, `Parse` returns a nil option and the first lex error. -/
theorem lexLine_illegal_char :
    (∀ (x : Lexer) (c : Char) (cs : List Char), x.input = c :: cs → x.IsWhite c = false →
      StartsNoToken c = true →
      lexLine x = .ok (⟨Illegal, x.buf ++ [c], x.off⟩,
        ⟨cs, [], x.off + (x.buf ++ [c]).length,
          x.errs ++ [⟨some (x.off + x.buf.length), "illegal char " ++ String.singleton c⟩],
          x.IsWhite⟩)) ∧
    (∀ (pre : List Char) (c : Char) (rest : List Char), Outside pre = true →
      StartsNoToken c = true → IsWhiteOrEndl c = false → Detached pre c = true →
      ∃ e, Parse (pre ++ c :: rest) = .ok (none, some (.lexError (pre ++ c :: rest) e))) := by
  refine ⟨?_, Parse_reaches⟩
  intro x c cs hx hw hc
  have hr : x.Rune = c := Rune_cons x c cs hx
  rw [lexLine_illegal x (by rw [hr]; exact hw) (by rw [hr]; exact hc), hr]
  have hN : (x.Errorf ("illegal char " ++ String.singleton c)).Next
      = { x.Errorf ("illegal char " ++ String.singleton c) with
          input := cs, buf := x.buf ++ [c] } :=
    Next_cons _ c cs hx
  rw [hN]
  rfl

/-- C13 amended, at the character `$`: on the line `$` the rule `lexLine` gives
the illegal token `$` and records the error at offset 0, and on the line
`k$: "v"` the function `Parse` returns that error at offset 1. -/
theorem lexLine_illegal_char_witness :
    lexLine (lineLexer ['$']) = .ok (⟨Illegal, ['$'], 0⟩,
      ⟨[], [], 1, [⟨some 0, "illegal char $"⟩], IsWhiteOrEndl⟩) ∧
    ∃ e, Parse (['k'] ++ '$' :: [':', ' ', dquote, 'v', dquote])
      = .ok (none, some (.lexError (['k'] ++ '$' :: [':', ' ', dquote, 'v', dquote]) e)) :=
  ⟨lexLine_illegal_char.1 (lineLexer ['$']) '$' [] rfl (by decide) (by decide),
    lexLine_illegal_char.2 ['k'] '$' [':', ' ', dquote, 'v', dquote] (by decide) (by decide)
      (by decide) (by decide)⟩

end optline

/-! ## The tokens of a value are set off from what follows the text -/

namespace jsonx
open lexing

theorem Apart.of_step {x : Lexer} {b : List Char} (h1 : tokenApart x b = true)
    (h2 : Apart (shiftFrom x).x b) : Apart x b := by
  intro n
  cases n with
  | zero => rfl
  | succ n =>
    simp only [apartLoop, Bool.and_eq_true]
    exact ⟨h1, h2 n⟩

theorem tokenApart_of_see (x : Lexer) (b : List Char) (t : Int)
    (h : (shiftFrom x).See t = true) (h1 : t ≠ tokIdent) (h2 : t ≠ tokNumber) :
    tokenApart x b = true := by
  have hT : (nextToken x).1.Typ = t := by simpa [parser.See] using h
  rw [tokenApart_iff]
  intro _ d _
  rw [hT]
  simp only [carriesOn, Bool.or_eq_false_iff, Bool.and_eq_false_imp, decide_eq_true_eq]
  exact ⟨fun e => absurd e h1, fun e => absurd e h2⟩

theorem tokenApart_of_next (x : Lexer) (b : List Char)
    (h : (shiftFrom (shiftFrom x).x).t.Typ ≠ EOF) : tokenApart x b = true := by
  rw [tokenApart_iff]
  intro hi
  exfalso
  apply h
  have he : ((nextToken x).2).skipWhite.Ended = true := by
    rw [skipWhite_ended_iff, hi]
    rfl
  exact (nextToken_of_ended _ he).1

theorem Apart.of_EOF (x : Lexer) (b : List Char) (h : (shiftFrom x).t.Typ = EOF) :
    Apart x b := by
  have hT : (nextToken x).1.Typ = EOF := h
  have he : x.skipWhite.Ended = true :=
    (skipWhite_ended_iff x).2 ((nextToken_typ_EOF_iff x).1 hT)
  exact Apart.of_step (tokenApart_of_EOF x b hT)
    (fun n => apartLoop_nil n _ b (nextToken_of_ended x he).2)

theorem closedV_zero : ClosedV 0 := by
  intro x0 v p' hrun herr
  exfalso
  rw [parseValueFuel] at hrun
  have h2 := (Prod.mk.inj hrun).2
  rw [← h2] at herr
  exact Errorf_errs_ne _ _ herr

theorem closedE_zero : ClosedE 0 := by
  intro x0 v p' hrun herr
  exfalso
  rw [parseElems] at hrun
  have h2 := (Prod.mk.inj hrun).2
  rw [← h2] at herr
  exact Errorf_errs_ne _ _ herr

theorem closedM_zero : ClosedM 0 := by
  intro x0 v p' hrun herr
  exfalso
  rw [parseMembers] at hrun
  have h2 := (Prod.mk.inj hrun).2
  rw [← h2] at herr
  exact Errorf_errs_ne _ _ herr

theorem closedV_succ (f : Nat) (hE : ClosedE f) (hM : ClosedM f) : ClosedV (f + 1) := by
  intro x0 v p' hrun herr
  have hsee : ∀ t, (shiftFrom x0).See t = true → t ≠ tokIdent → t ≠ tokNumber →
      ∀ b, tokenApart x0 b = true := fun t h h1 h2 b => tokenApart_of_see x0 b t h h1 h2
  have hstep : ∀ b, tokenApart x0 b = true → Apart (shiftFrom x0).x b → Apart x0 b :=
    fun b h1 h2 => Apart.of_step h1 h2
  generalize shiftFrom x0 = p at hrun hsee hstep ⊢
  rw [parseValueFuel] at hrun
  by_cases h1 : p.See tokString = true
  · rw [if_pos h1] at hrun
    cases hu : strconv.Unquote p.t.Lit with
    | error e =>
      exfalso
      rw [hu] at hrun
      have h2 := (Prod.mk.inj hrun).2
      have hg : Grew (p.Errorf "invalid string literal") p' := by
        rw [← h2]; exact Grew.shift _
      exact hg.of_errorf herr
    | ok s =>
      rw [hu] at hrun
      exact ⟨p.x, (Prod.mk.inj hrun).2.symm, Or.inl rfl⟩
  rw [if_neg h1] at hrun
  by_cases h2 : p.See tokRawString = true
  · rw [if_pos h2] at hrun
    exact ⟨p.x, (Prod.mk.inj hrun).2.symm, Or.inl rfl⟩
  rw [if_neg h2] at hrun
  by_cases h3 : p.See tokNumber = true
  · rw [if_pos h3] at hrun
    exact ⟨p.x, (Prod.mk.inj hrun).2.symm, Or.inl rfl⟩
  rw [if_neg h3] at hrun
  by_cases h4 : p.See tokIdent = true
  · rw [if_pos h4] at hrun
    by_cases k1 : p.t.Lit = ['t', 'r', 'u', 'e']
    · rw [if_pos k1] at hrun
      exact ⟨p.x, (Prod.mk.inj hrun).2.symm, Or.inl rfl⟩
    rw [if_neg k1] at hrun
    by_cases k2 : p.t.Lit = ['f', 'a', 'l', 's', 'e']
    · rw [if_pos k2] at hrun
      exact ⟨p.x, (Prod.mk.inj hrun).2.symm, Or.inl rfl⟩
    rw [if_neg k2] at hrun
    by_cases k3 : p.t.Lit = ['n', 'u', 'l', 'l']
    · rw [if_pos k3] at hrun
      exact ⟨p.x, (Prod.mk.inj hrun).2.symm, Or.inl rfl⟩
    rw [if_neg k3] at hrun
    exfalso
    have hp := (Prod.mk.inj hrun).2
    rw [← hp] at herr
    exact Errorf_errs_ne _ _ herr
  rw [if_neg h4] at hrun
  by_cases h5 : p.See tokLbrack = true
  · rw [if_pos h5] at hrun
    simp only [] at hrun
    have ha0 : ∀ b, tokenApart x0 b = true := hsee tokLbrack h5 (by decide) (by decide)
    by_cases h51 : p.Shift.See tokRbrack = true
    · rw [if_pos h51] at hrun
      refine ⟨p.Shift.x, (Prod.mk.inj hrun).2.symm, Or.inr ?_⟩
      intro b hA
      exact hstep b (ha0 b) (Apart.of_step
        (tokenApart_of_see p.x b tokRbrack h51 (by decide) (by decide)) hA)
    · rw [if_neg h51] at hrun
      rcases hpe : parseElems f p.Shift with ⟨vs, p2⟩
      rw [hpe] at hrun
      obtain ⟨hv, hp⟩ := Prod.mk.inj hrun
      simp only [] at hp
      subst hp
      obtain ⟨x1, hp1, hA1⟩ := hE p.x vs p2 hpe herr
      exact ⟨x1, hp1, Or.inr (fun b hA => hstep b (ha0 b) (hA1 b hA))⟩
  rw [if_neg h5] at hrun
  by_cases h6 : p.See tokLbrace = true
  · rw [if_pos h6] at hrun
    simp only [] at hrun
    have ha0 : ∀ b, tokenApart x0 b = true := hsee tokLbrace h6 (by decide) (by decide)
    by_cases h61 : p.Shift.See tokRbrace = true
    · rw [if_pos h61] at hrun
      refine ⟨p.Shift.x, (Prod.mk.inj hrun).2.symm, Or.inr ?_⟩
      intro b hA
      exact hstep b (ha0 b) (Apart.of_step
        (tokenApart_of_see p.x b tokRbrace h61 (by decide) (by decide)) hA)
    · rw [if_neg h61] at hrun
      rcases hpe : parseMembers f p.Shift with ⟨ms, p2⟩
      rw [hpe] at hrun
      obtain ⟨hv, hp⟩ := Prod.mk.inj hrun
      simp only [] at hp
      subst hp
      obtain ⟨x1, hp1, hA1⟩ := hM p.x ms p2 hpe herr
      exact ⟨x1, hp1, Or.inr (fun b hA => hstep b (ha0 b) (hA1 b hA))⟩
  rw [if_neg h6] at hrun
  exfalso
  have hp := (Prod.mk.inj hrun).2
  rw [← hp] at herr
  exact Errorf_errs_ne _ _ herr

theorem ClosedV.apart {f : Nat} (hV : ClosedV f) (x0 : Lexer) (v : Value) (p' : parser)
    (hrun : parseValueFuel f (shiftFrom x0) = (v, p')) (herr : p'.x.errs = [])
    (hT : p'.t.Typ ≠ EOF) :
    ∃ x1, p' = shiftFrom x1 ∧ ∀ b, Apart x1 b → Apart x0 b := by
  obtain ⟨x1, hp1, hc⟩ := hV x0 v p' hrun herr
  refine ⟨x1, hp1, ?_⟩
  rcases hc with hx | hc
  · intro b hA
    subst hx
    subst hp1
    exact Apart.of_step (tokenApart_of_next x0 b hT) hA
  · exact hc

theorem closedE_succ (f : Nat) (hV : ClosedV f) (hE : ClosedE f) : ClosedE (f + 1) := by
  intro x0 vs p' hrun herr
  have hin : (parseValueFuel f (shiftFrom x0)).2.x.errs = [] := by
    have := parseElems_grew_inner f (shiftFrom x0)
    rw [hrun] at this
    exact this.grew_errs_nil herr
  rw [parseElems_succ] at hrun
  by_cases c1 : (parseValueFuel f (shiftFrom x0)).2.See tokComma = true
  · rw [if_pos c1] at hrun
    obtain ⟨x1, hp1, hA1⟩ := hV.apart x0 _ _ rfl hin (See_ne_EOF c1 (by decide))
    rw [hp1] at hrun c1
    rcases hpe : parseElems f (shiftFrom (shiftFrom x1).x) with ⟨vs2, p2⟩
    have hpe' : parseElems f (shiftFrom x1).Shift = (vs2, p2) := hpe
    rw [hpe'] at hrun
    obtain ⟨hv, hp⟩ := Prod.mk.inj hrun
    simp only [] at hv hp
    subst hp
    obtain ⟨x2, hp2, hA2⟩ := hE (shiftFrom x1).x vs2 p2 hpe herr
    exact ⟨x2, hp2, fun b hA => hA1 b (Apart.of_step
      (tokenApart_of_see x1 b tokComma c1 (by decide) (by decide)) (hA2 b hA))⟩
  rw [if_neg c1] at hrun
  by_cases c2 : (parseValueFuel f (shiftFrom x0)).2.See tokRbrack = true
  · rw [if_pos c2] at hrun
    obtain ⟨x1, hp1, hA1⟩ := hV.apart x0 _ _ rfl hin (See_ne_EOF c2 (by decide))
    rw [hp1] at hrun c2
    exact ⟨(shiftFrom x1).x, (Prod.mk.inj hrun).2.symm, fun b hA => hA1 b (Apart.of_step
      (tokenApart_of_see x1 b tokRbrack c2 (by decide) (by decide)) hA)⟩
  rw [if_neg c2] at hrun
  exfalso
  have hp := (Prod.mk.inj hrun).2
  rw [← hp] at herr
  exact Errorf_errs_ne _ _ herr

theorem closedM_succ (f : Nat) (hV : ClosedV f) (hM : ClosedM f) : ClosedM (f + 1) := by
  intro x0 ms p' hrun herr
  have hin : (parseKey (shiftFrom x0)).2.x.errs = [] := by
    have := parseMembers_grew_inner f (shiftFrom x0)
    rw [hrun] at this
    exact this.grew_errs_nil herr
  obtain ⟨hk1, _⟩ := parseKey_ext [] 0 (shiftFrom x0) hin
  by_cases c0 : (parseKey (shiftFrom x0)).2.See tokColon = true
  swap
  · exfalso
    rw [parseMembers_succ, if_neg c0] at hrun
    have hp := (Prod.mk.inj hrun).2
    rw [← hp] at herr
    exact Errorf_errs_ne _ _ herr
  have hin2 : (parseValueFuel f (parseKey (shiftFrom x0)).2.Shift).2.x.errs = [] := by
    have := parseMembers_grew_value f (shiftFrom x0) c0
    rw [hrun] at this
    exact this.grew_errs_nil herr
  rw [parseMembers_succ, if_pos c0] at hrun
  rw [hk1] at c0 hin2 hrun
  have hA0 : ∀ b, Apart (shiftFrom x0).x b → Apart x0 b := fun b hA =>
    Apart.of_step (tokenApart_of_next x0 b (See_ne_EOF c0 (by decide))) hA
  generalize (shiftFrom x0).x = x1 at hA0 c0 hin2 hrun
  have hA1 : ∀ b, Apart (shiftFrom x1).x b → Apart x0 b := fun b hA =>
    hA0 b (Apart.of_step (tokenApart_of_see x1 b tokColon c0 (by decide) (by decide)) hA)
  have hin2' : (parseValueFuel f (shiftFrom (shiftFrom x1).x)).2.x.errs = [] := hin2
  have hrun' : (if (parseValueFuel f (shiftFrom (shiftFrom x1).x)).2.See tokComma = true then
        ((((parseKey (shiftFrom x0)).1, (parseValueFuel f (shiftFrom (shiftFrom x1).x)).1) ::
          (parseMembers f (parseValueFuel f (shiftFrom (shiftFrom x1).x)).2.Shift).1),
          (parseMembers f (parseValueFuel f (shiftFrom (shiftFrom x1).x)).2.Shift).2)
      else if (parseValueFuel f (shiftFrom (shiftFrom x1).x)).2.See tokRbrace = true then
        ([((parseKey (shiftFrom x0)).1, (parseValueFuel f (shiftFrom (shiftFrom x1).x)).1)],
          (parseValueFuel f (shiftFrom (shiftFrom x1).x)).2.Shift)
      else ([((parseKey (shiftFrom x0)).1, (parseValueFuel f (shiftFrom (shiftFrom x1).x)).1)],
        (parseValueFuel f (shiftFrom (shiftFrom x1).x)).2.Errorf
          "expect a comma or a closing brace")) = (ms, p') := hrun
  clear hrun
  by_cases c1 : (parseValueFuel f (shiftFrom (shiftFrom x1).x)).2.See tokComma = true
  · rw [if_pos c1] at hrun'
    obtain ⟨x3, hp3, hA3⟩ := hV.apart (shiftFrom x1).x _ _ rfl hin2' (See_ne_EOF c1 (by decide))
    rw [hp3] at hrun' c1
    rcases hpe : parseMembers f (shiftFrom (shiftFrom x3).x) with ⟨ms2, p2⟩
    have hpe' : parseMembers f (shiftFrom x3).Shift = (ms2, p2) := hpe
    rw [hpe'] at hrun'
    obtain ⟨hv, hp⟩ := Prod.mk.inj hrun'
    simp only [] at hv hp
    subst hp
    obtain ⟨x4, hp4, hA4⟩ := hM (shiftFrom x3).x ms2 p2 hpe herr
    exact ⟨x4, hp4, fun b hA => hA1 b (hA3 b (Apart.of_step
      (tokenApart_of_see x3 b tokComma c1 (by decide) (by decide)) (hA4 b hA)))⟩
  rw [if_neg c1] at hrun'
  by_cases c2 : (parseValueFuel f (shiftFrom (shiftFrom x1).x)).2.See tokRbrace = true
  · rw [if_pos c2] at hrun'
    obtain ⟨x3, hp3, hA3⟩ := hV.apart (shiftFrom x1).x _ _ rfl hin2' (See_ne_EOF c2 (by decide))
    rw [hp3] at hrun' c2
    exact ⟨(shiftFrom x3).x, (Prod.mk.inj hrun').2.symm, fun b hA => hA1 b (hA3 b
      (Apart.of_step (tokenApart_of_see x3 b tokRbrace c2 (by decide) (by decide)) hA))⟩
  rw [if_neg c2] at hrun'
  exfalso
  have hp := (Prod.mk.inj hrun').2
  rw [← hp] at herr
  exact Errorf_errs_ne _ _ herr

theorem closed_all (f : Nat) : ClosedV f ∧ ClosedE f ∧ ClosedM f := by
  induction f with
  | zero => exact ⟨closedV_zero, closedE_zero, closedM_zero⟩
  | succ f ih =>
    exact ⟨closedV_succ f ih.2.1 ih.2.2, closedE_succ f ih.1 ih.2.1,
      closedM_succ f ih.1 ih.2.2⟩

end jsonx

/-! ## An identifier that the following text carries on -/

namespace jsonx
open lexing

theorem lexValue_ident (x y : Lexer) (h : (lexValue x).1.Typ = tokIdent)
    (hr : y.Rune = x.Rune) : lexValue y = LexIdent y tokIdent := by
  rw [lexValue] at h
  by_cases h0 : x.Rune = dquote
  · rw [if_pos h0] at h; exact absurd h (by decide : tokString ≠ tokIdent)
  rw [if_neg h0] at h
  by_cases h1 : x.Rune = backquote
  · rw [if_pos h1] at h; exact absurd h (by decide : tokRawString ≠ tokIdent)
  rw [if_neg h1] at h
  by_cases h2 : x.Rune = ':'
  · rw [if_pos h2] at h; exact absurd h (by decide : tokColon ≠ tokIdent)
  rw [if_neg h2] at h
  by_cases h3 : x.Rune = ';'
  · rw [if_pos h3] at h; exact absurd h (by decide : tokSemi ≠ tokIdent)
  rw [if_neg h3] at h
  by_cases h4 : x.Rune = ','
  · rw [if_pos h4] at h; exact absurd h (by decide : tokComma ≠ tokIdent)
  rw [if_neg h4] at h
  by_cases h5 : x.Rune = '['
  · rw [if_pos h5] at h; exact absurd h (by decide : tokLbrack ≠ tokIdent)
  rw [if_neg h5] at h
  by_cases h6 : x.Rune = ']'
  · rw [if_pos h6] at h; exact absurd h (by decide : tokRbrack ≠ tokIdent)
  rw [if_neg h6] at h
  by_cases h7 : x.Rune = '{'
  · rw [if_pos h7] at h; exact absurd h (by decide : tokLbrace ≠ tokIdent)
  rw [if_neg h7] at h
  by_cases h8 : x.Rune = '}'
  · rw [if_pos h8] at h; exact absurd h (by decide : tokRbrace ≠ tokIdent)
  rw [if_neg h8] at h
  by_cases h9 : (IsDigit x.Rune || decide (x.Rune = '-')) = true
  · rw [if_pos h9] at h; exact absurd h (by decide : tokNumber ≠ tokIdent)
  rw [if_neg h9] at h
  by_cases h10 : IsIdentLetter x.Rune = true
  swap
  · rw [if_neg h10] at h; exact absurd h (by decide : Illegal ≠ tokIdent)
  rw [lexValue, hr, if_neg h0, if_neg h1, if_neg h2, if_neg h3, if_neg h4, if_neg h5, if_neg h6,
    if_neg h7, if_neg h8, if_neg h9, if_pos h10]

theorem identLoop_all (x : Lexer) (cs rest : List Char)
    (hcs : ∀ c ∈ cs, (IsIdentLetter c || IsDigit c) = true) :
    identLoop x (cs ++ rest) = identLoop { x with buf := x.buf ++ cs } rest := by
  induction cs generalizing x with
  | nil => simp
  | cons c cs ih =>
    have hc : (IsIdentLetter c || IsDigit c) = true := hcs c (List.mem_cons_self _ _)
    rw [List.cons_append, identLoop, if_pos hc,
      ih _ (fun c' h' => hcs c' (List.mem_cons_of_mem _ h'))]
    simp

theorem identLoop_lit (x : Lexer) (inp : List Char) :
    (identLoop x inp).buf
      = x.buf ++ inp.takeWhile (fun c => IsIdentLetter c || IsDigit c) := by
  induction inp generalizing x with
  | nil => simp [identLoop]
  | cons c cs ih =>
    by_cases hc : (IsIdentLetter c || IsDigit c) = true
    · rw [identLoop, if_pos hc, ih]
      simp [List.takeWhile, hc]
    · rw [identLoop, if_neg hc]
      simp [List.takeWhile, hc]

theorem nextToken_ident_joined (x0 : Lexer) (d : Char) (rest : List Char)
    (hd : IsAlnum d = true) (hT : (nextToken x0).1.Typ = tokIdent)
    (hi : (nextToken x0).2.input = []) :
    (nextToken (ext (d :: rest) 0 x0)).1.Typ = tokIdent ∧
      ∃ r, r ≠ [] ∧ (nextToken (ext (d :: rest) 0 x0)).1.Lit = (nextToken x0).1.Lit ++ r := by
  have hne : ¬ x0.skipWhite.Ended = true := by
    intro hc
    have := (nextToken_of_ended x0 hc).1
    rw [this] at hT
    exact absurd hT (by decide)
  have hin : x0.skipWhite.input ≠ [] := by
    simpa [Lexer.Ended] using hne
  have hv : nextToken x0 = lexValue x0.skipWhite := by
    simp only [nextToken, hne, if_false, Bool.false_eq_true]
  have hsk := skipWhite_ext (d :: rest) 0 x0 hin
  have hne2 : ¬ (ext (d :: rest) 0 x0.skipWhite).Ended = true := by
    simp [Lexer.Ended, ext]
  have hv2 : nextToken (ext (d :: rest) 0 x0) = lexValue (ext (d :: rest) 0 x0.skipWhite) := by
    simp only [nextToken, hsk, hne2, if_false, Bool.false_eq_true]
  rw [hv] at hT hi
  rw [hv, hv2]
  generalize x0.skipWhite = y at hT hi hin
  have e1 := lexValue_ident y y hT rfl
  have e2 := lexValue_ident y (ext (d :: rest) 0 y) hT (ext_Rune _ _ y hin)
  rw [e1] at hi
  rw [e1, e2]
  have hi2 : (identLoop y.Next y.Next.input).input = [] := hi
  have hall : ∀ c ∈ y.Next.input, (IsIdentLetter c || IsDigit c) = true := by
    rw [optline.identLoop_input] at hi2
    intro c hc
    exact List.dropWhile_eq_nil_iff.1 hi2 c hc
  have hl1 : (LexIdent y tokIdent).1.Lit = y.Next.buf ++ y.Next.input := by
    show (identLoop y.Next y.Next.input).buf = _
    rw [identLoop_lit, List.takeWhile_eq_self_iff.2 hall]
  have hl2 : (LexIdent (ext (d :: rest) 0 y) tokIdent).1.Lit
      = y.Next.buf ++ y.Next.input
        ++ (d :: rest).takeWhile (fun c => IsIdentLetter c || IsDigit c) := by
    show (identLoop (ext (d :: rest) 0 y).Next (ext (d :: rest) 0 y).Next.input).buf = _
    rw [ext_Next _ _ y hin, ext_input, identLoop_all _ _ _ hall, identLoop_lit]
    rfl
  refine ⟨rfl, (d :: rest).takeWhile (fun c => IsIdentLetter c || IsDigit c), ?_, ?_⟩
  · have hd2 : (IsIdentLetter d || IsDigit d) = true := hd
    simp [List.takeWhile, hd2]
  · rw [hl2, hl1]

theorem joined_not_literal (l r : List Char) (hr : r ≠ [])
    (hl : l = ['t', 'r', 'u', 'e'] ∨ l = ['f', 'a', 'l', 's', 'e'] ∨ l = ['n', 'u', 'l', 'l']) :
    l ++ r ≠ ['t', 'r', 'u', 'e'] ∧ l ++ r ≠ ['f', 'a', 'l', 's', 'e'] ∧
      l ++ r ≠ ['n', 'u', 'l', 'l'] := by
  cases r with
  | nil => exact absurd rfl hr
  | cons c cs =>
    rcases hl with h | h | h <;> subst h <;> simp

theorem See_of_typ (p : parser) (t u : Int) (h : p.t.Typ = t) (hu : t ≠ u) :
    ¬ p.See u = true := by
  simp only [parser.See, h, decide_eq_true_eq]
  exact hu

theorem parseValueFuel_ident_lit (f : Nat) (p : parser) (h : p.t.Typ = tokIdent)
    (herr : (parseValueFuel f p).2.x.errs = []) :
    p.t.Lit = ['t', 'r', 'u', 'e'] ∨ p.t.Lit = ['f', 'a', 'l', 's', 'e'] ∨
      p.t.Lit = ['n', 'u', 'l', 'l'] := by
  cases f with
  | zero =>
    rw [parseValueFuel] at herr
    exact absurd herr (Errorf_errs_ne p _)
  | succ f =>
    have h4 : p.See tokIdent = true := by simp [parser.See, h]
    rw [parseValueFuel, if_neg (See_of_typ p _ _ h (by decide)),
      if_neg (See_of_typ p _ _ h (by decide)), if_neg (See_of_typ p _ _ h (by decide)),
      if_pos h4] at herr
    by_cases k1 : p.t.Lit = ['t', 'r', 'u', 'e']
    · exact Or.inl k1
    by_cases k2 : p.t.Lit = ['f', 'a', 'l', 's', 'e']
    · exact Or.inr (Or.inl k2)
    by_cases k3 : p.t.Lit = ['n', 'u', 'l', 'l']
    · exact Or.inr (Or.inr k3)
    rw [if_neg k1, if_neg k2, if_neg k3] at herr
    exact absurd herr (Errorf_errs_ne p _)

theorem parseValueFuel_ident_other (f : Nat) (p : parser) (h : p.t.Typ = tokIdent)
    (k1 : p.t.Lit ≠ ['t', 'r', 'u', 'e']) (k2 : p.t.Lit ≠ ['f', 'a', 'l', 's', 'e'])
    (k3 : p.t.Lit ≠ ['n', 'u', 'l', 'l']) : (parseValueFuel f p).2.x.errs ≠ [] := by
  cases f with
  | zero =>
    rw [parseValueFuel]
    exact Errorf_errs_ne p _
  | succ f =>
    have h4 : p.See tokIdent = true := by simp [parser.See, h]
    rw [parseValueFuel, if_neg (See_of_typ p _ _ h (by decide)),
      if_neg (See_of_typ p _ _ h (by decide)), if_neg (See_of_typ p _ _ h (by decide)),
      if_pos h4, if_neg k1, if_neg k2, if_neg k3]
    exact Errorf_errs_ne p _

end jsonx

/-! ## C4: text after the one value -/

namespace jsonx
open lexing

theorem lexValue_semi (x : Lexer) (h : (lexValue x).1.Typ = tokSemi) : x.Rune = ';' := by
  by_contra h3
  rw [lexValue] at h
  by_cases h0 : x.Rune = dquote
  · rw [if_pos h0] at h; exact absurd h (by decide : tokString ≠ tokSemi)
  rw [if_neg h0] at h
  by_cases h1 : x.Rune = backquote
  · rw [if_pos h1] at h; exact absurd h (by decide : tokRawString ≠ tokSemi)
  rw [if_neg h1] at h
  by_cases h2 : x.Rune = ':'
  · rw [if_pos h2] at h; exact absurd h (by decide : tokColon ≠ tokSemi)
  rw [if_neg h2, if_neg h3] at h
  by_cases h4 : x.Rune = ','
  · rw [if_pos h4] at h; exact absurd h (by decide : tokComma ≠ tokSemi)
  rw [if_neg h4] at h
  by_cases h5 : x.Rune = '['
  · rw [if_pos h5] at h; exact absurd h (by decide : tokLbrack ≠ tokSemi)
  rw [if_neg h5] at h
  by_cases h6 : x.Rune = ']'
  · rw [if_pos h6] at h; exact absurd h (by decide : tokRbrack ≠ tokSemi)
  rw [if_neg h6] at h
  by_cases h7 : x.Rune = '{'
  · rw [if_pos h7] at h; exact absurd h (by decide : tokLbrace ≠ tokSemi)
  rw [if_neg h7] at h
  by_cases h8 : x.Rune = '}'
  · rw [if_pos h8] at h; exact absurd h (by decide : tokRbrace ≠ tokSemi)
  rw [if_neg h8] at h
  by_cases h9 : (IsDigit x.Rune || decide (x.Rune = '-')) = true
  · rw [if_pos h9] at h; exact absurd h (by decide : tokNumber ≠ tokSemi)
  rw [if_neg h9] at h
  by_cases h10 : IsIdentLetter x.Rune = true
  · rw [if_pos h10] at h; exact absurd h (by decide : tokIdent ≠ tokSemi)
  rw [if_neg h10] at h
  exact absurd h (by decide : Illegal ≠ tokSemi)

theorem lexValue_of_semi (x : Lexer) (h : x.Rune = ';') :
    lexValue x = x.Next.MakeToken tokSemi := by
  rw [lexValue]
  simp only [h]
  rfl

theorem nextToken_semi (x : Lexer) (h : (nextToken x).1.Typ = tokSemi) :
    x.input.dropWhile x.IsWhite = ';' :: (nextToken x).2.input := by
  have hne : ¬ x.skipWhite.Ended = true := by
    intro hc
    have := (nextToken_of_ended x hc).1
    rw [this] at h
    exact absurd h (by decide)
  have hv : nextToken x = lexValue x.skipWhite := by
    simp only [nextToken, hne, if_false, Bool.false_eq_true]
  rw [hv] at h ⊢
  have hr := lexValue_semi _ h
  rw [lexValue_of_semi _ hr]
  have hin : x.skipWhite.input = x.input.dropWhile x.IsWhite := by rw [skipWhite_eq]
  rw [← hin]
  cases hc : x.skipWhite.input with
  | nil => exact absurd (by simp [Lexer.Ended, hc]) hne
  | cons c cs =>
    have hcs : c = ';' := by simpa [Lexer.Rune, hc] using hr
    subst hcs
    rw [Next_of_cons _ _ _ hc]
    rfl

theorem BlankTrail_not_white (t : List Char) (ht : BlankTrail t = false) :
    ¬ t.all IsWhiteOrEndl = true := by
  intro h
  have : t.dropWhile IsWhiteOrEndl = [] := by
    rw [List.dropWhile_eq_nil_iff]
    simpa using h
  simp [BlankTrail, this] at ht

theorem BlankTrail_after_semi (t cs : List Char) (ht : BlankTrail t = false)
    (h : t.dropWhile IsWhiteOrEndl = ';' :: cs) : ¬ cs.all IsWhiteOrEndl = true := by
  intro hc
  simp [BlankTrail, h, hc] at ht

theorem typ_ne_EOF_of_not_white (t : List Char) (o : Nat) (es : List Error)
    (h : ¬ t.all IsWhiteOrEndl = true) :
    (shiftFrom ⟨t, [], o, es, IsWhiteOrEndl⟩).t.Typ ≠ EOF := by
  intro hT
  exact h ((nextToken_typ_EOF_iff ⟨t, [], o, es, IsWhiteOrEndl⟩).1 hT)

theorem alone_token {T : Type} (unm : Bridge T) (s : List Char) (zero r : T)
    (h : Unmarshal ops unm s zero = .ok (none, r)) :
    (newParser s).x.errs = [] ∧ (newParser s).t.Typ ≠ EOF := by
  obtain ⟨v, p1, hpv, he, _, _⟩ := Unmarshal_ok_inv unm s zero r h
  have hG : Grew (newParser s) p1 := by
    have := (parse_grew (2 * (newParser s).x.input.length + 4)).1 (newParser s)
    rw [show parseValueFuel (2 * (newParser s).x.input.length + 4) (newParser s) = (v, p1)
      from hpv] at this
    exact this
  refine ⟨hG.grew_errs_nil he, ?_⟩
  intro hT
  have := parseValueFuel_EOF (2 * (newParser s).x.input.length + 4) (newParser s) hT
  rw [show parseValueFuel (2 * (newParser s).x.input.length + 4) (newParser s) = (v, p1)
    from hpv] at this
  exact this he

theorem Decode_trailing {T : Type} (unm : Bridge T) (s t : List Char) (v r : T)
    (hs : Unmarshal ops unm s v = .ok (none, r))
    (hb : Apart ⟨s, [], 0, [], IsWhiteOrEndl⟩ t) (ht : BlankTrail t = false) :
    (∃ e es, ((NewDecoder ops (s ++ t)).Decode ops unm v).errs = some (e :: es)) ∨
      (((NewDecoder ops (s ++ t)).Decode ops unm v).errs = none ∧
        ((NewDecoder ops (s ++ t)).Decode ops unm v).dec.More ops = true) := by
  obtain ⟨hE0, hT0⟩ := alone_token unm s v r hs
  have hq0 : shiftFrom ⟨s ++ t, [], 0, [], IsWhiteOrEndl⟩ = extP t 0 (newParser s) := by
    rw [ext_start]
    exact shiftFrom_ext t 0 ⟨s, [], 0, [], IsWhiteOrEndl⟩ hb hE0 hT0
  obtain ⟨val, p1, hpv, he, hu, hend⟩ := Unmarshal_ok_inv unm s v r hs
  have hpv0 : parseValueFuel (2 * (newParser s).x.input.length + 4)
      (shiftFrom ⟨s, [], 0, [], IsWhiteOrEndl⟩) = (val, p1) := hpv
  obtain ⟨x1, hL1, hA1, hp1, hs1⟩ := (sim_all t 0 _).1 ⟨s, [], 0, [], IsWhiteOrEndl⟩ val p1
    hb hpv0 he
  subst hp1
  have hpvq : parseValue (shiftFrom ⟨s ++ t, [], 0, [], IsWhiteOrEndl⟩)
      = (val, shiftFrom (ext t 0 x1)) := by
    unfold parseValue
    rw [← ext_start] at hs1
    apply hs1
    rw [hq0]
    show _ ≤ 2 * ((newParser s).x.input ++ t).length + 4
    rw [List.length_append]
    omega
  have hN : NewDecoder ops (s ++ t) = ⟨shiftFrom ⟨s ++ t, [], 0, [], IsWhiteOrEndl⟩⟩ := rfl
  have hnw := BlankTrail_not_white t ht
  have hL1' := shiftFrom_lexed x1
  have hx1e : x1.errs = [] := hL1'.lexed_errs_nil he
  have hx1b : x1.buf = [] := hL1.buf_nil
  have hx1w : x1.IsWhite = IsWhiteOrEndl := hL1.white
  rw [hN]
  by_cases hsemi : (shiftFrom x1).See tokSemi = true
  · rw [if_pos hsemi] at hend
    have hq1 := shiftFrom_ext t 0 x1 hA1 he (See_ne_EOF hsemi (by decide))
    have hy := shiftFrom_EOF_ext t 0 (shiftFrom x1).x hend hL1'.buf_nil
    have hyw : (shiftFrom x1).x.IsWhite = IsWhiteOrEndl := by
      rw [hL1'.white, hx1w]
    rw [he, hyw] at hy
    right
    rw [Decode_ok unm _ (extP t 0 (shiftFrom x1)) v r val (by rw [hpvq, hq1]) he hu,
      extP_See, if_pos hsemi, extP_Shift, hy]
    refine ⟨rfl, ?_⟩
    rw [More_eq]
    simpa using typ_ne_EOF_of_not_white t _ [] hnw
  · rw [if_neg hsemi] at hend
    have hy := shiftFrom_EOF_ext t 0 x1 hend hx1b
    rw [hx1e, hx1w] at hy
    generalize hoe : x1.off + 0 + x1.input.length = o at hy
    by_cases hqe : (shiftFrom ⟨t, [], o, [], IsWhiteOrEndl⟩).x.errs = []
    · right
      rw [Decode_ok unm _ (shiftFrom ⟨t, [], o, [], IsWhiteOrEndl⟩) v r val
        (by rw [hpvq, hy]) hqe hu]
      refine ⟨rfl, ?_⟩
      rw [More_eq]
      by_cases hq : (shiftFrom ⟨t, [], o, [], IsWhiteOrEndl⟩).See tokSemi = true
      · rw [if_pos hq]
        have hT : (nextToken ⟨t, [], o, [], IsWhiteOrEndl⟩).1.Typ = tokSemi := by
          simpa [parser.See] using hq
        have hd := nextToken_semi _ hT
        have hcs := BlankTrail_after_semi t _ ht hd
        have hw : (shiftFrom ⟨t, [], o, [], IsWhiteOrEndl⟩).x.IsWhite = IsWhiteOrEndl :=
          (shiftFrom_lexed ⟨t, [], o, [], IsWhiteOrEndl⟩).white
        have hne : (shiftFrom (shiftFrom ⟨t, [], o, [], IsWhiteOrEndl⟩).x).t.Typ ≠ EOF := by
          intro hT2
          have := (nextToken_typ_EOF_iff _).1 hT2
          rw [hw] at this
          exact hcs this
        simpa using hne
      · rw [if_neg hq]
        simpa using typ_ne_EOF_of_not_white t o [] hnw
    · left
      cases hes : (shiftFrom ⟨t, [], o, [], IsWhiteOrEndl⟩).x.errs with
      | nil => exact absurd hes hqe
      | cons e es =>
        refine ⟨e, es, ?_⟩
        rw [Decode_of_parse_errs ops unm _ v (e :: es)]
        show ((parseValue (shiftFrom ⟨s ++ t, [], 0, [], IsWhiteOrEndl⟩)).2).x.Errs = _
        rw [hpvq, hy]
        simp [Lexer.Errs, hes]


theorem Decode_joined {T : Type} (unm : Bridge T) (s t : List Char) (v r : T)
    (hs : Unmarshal ops unm s v = .ok (none, r)) (hj : numberJoins s t = false)
    (hn : ¬ Apart ⟨s, [], 0, [], IsWhiteOrEndl⟩ t) :
    ∃ e es, ((NewDecoder ops (s ++ t)).Decode ops unm v).errs = some (e :: es) := by
  obtain ⟨val, p1, hpv, he, hu, hend⟩ := Unmarshal_ok_inv unm s v r hs
  have hpv0 : parseValueFuel (2 * (newParser s).x.input.length + 4)
      (shiftFrom ⟨s, [], 0, [], IsWhiteOrEndl⟩) = (val, p1) := hpv
  obtain ⟨x1, hp1, hc⟩ := (closed_all _).1 ⟨s, [], 0, [], IsWhiteOrEndl⟩ val p1 hpv0 he
  subst hp1
  have hA1 : Apart x1 t := by
    by_cases hsemi : (shiftFrom x1).See tokSemi = true
    · rw [if_pos hsemi] at hend
      exact Apart.of_step (tokenApart_of_see x1 t tokSemi hsemi (by decide) (by decide))
        (Apart.of_EOF _ t hend)
    · rw [if_neg hsemi] at hend
      exact Apart.of_EOF x1 t hend
  rcases hc with hx | hc
  swap
  · exact absurd (hc t hA1) hn
  subst hx
  have hta : ¬ tokenApart ⟨s, [], 0, [], IsWhiteOrEndl⟩ t = true :=
    fun h => hn (Apart.of_step h hA1)
  cases t with
  | nil => exact absurd (by simp [tokenApart]) hta
  | cons d rest =>
    have hi : (nextToken ⟨s, [], 0, [], IsWhiteOrEndl⟩).2.input = [] := by
      by_contra hc
      apply hta
      simp [tokenApart, hc]
    have hco : carriesOn (nextToken ⟨s, [], 0, [], IsWhiteOrEndl⟩).1.Typ d = true := by
      by_contra hc
      apply hta
      simp [tokenApart, hc]
    have hnum : ¬ ((nextToken ⟨s, [], 0, [], IsWhiteOrEndl⟩).1.Typ = tokNumber ∧
        Continues d = true) := by
      rintro ⟨h1, h2⟩
      have : numberJoins s (d :: rest) = true := by
        show (decide ((nextToken ⟨s, [], 0, [], IsWhiteOrEndl⟩).1.Typ = tokNumber) &&
          (nextToken ⟨s, [], 0, [], IsWhiteOrEndl⟩).2.input.isEmpty && Continues d) = true
        simp [h1, h2, hi]
      rw [this] at hj
      exact Bool.noConfusion hj
    have hid : (nextToken ⟨s, [], 0, [], IsWhiteOrEndl⟩).1.Typ = tokIdent ∧ IsAlnum d = true := by
      simp only [carriesOn, Bool.or_eq_true, Bool.and_eq_true, decide_eq_true_eq] at hco
      rcases hco with h | h
      · exact h
      · exact absurd h hnum
    obtain ⟨hT2, r2, hr2, hl2⟩ := nextToken_ident_joined _ d rest hid.2 hid.1 hi
    have hlit := parseValueFuel_ident_lit _ (shiftFrom ⟨s, [], 0, [], IsWhiteOrEndl⟩) hid.1
      (by rw [hpv0]; exact he)
    obtain ⟨k1, k2, k3⟩ := joined_not_literal _ r2 hr2 hlit
    have hq : (shiftFrom ⟨s ++ d :: rest, [], 0, [], IsWhiteOrEndl⟩).t
        = (nextToken (ext (d :: rest) 0 ⟨s, [], 0, [], IsWhiteOrEndl⟩)).1 := by
      rw [ext_start]
      rfl
    have hbad : (parseValue (shiftFrom ⟨s ++ d :: rest, [], 0, [], IsWhiteOrEndl⟩)).2.x.errs
        ≠ [] := by
      unfold parseValue
      apply parseValueFuel_ident_other
      · rw [hq]; exact hT2
      · rw [hq, hl2]; exact k1
      · rw [hq, hl2]; exact k2
      · rw [hq, hl2]; exact k3
    have hN : NewDecoder ops (s ++ d :: rest)
        = ⟨shiftFrom ⟨s ++ d :: rest, [], 0, [], IsWhiteOrEndl⟩⟩ := rfl
    rw [hN]
    cases hes : (parseValue (shiftFrom ⟨s ++ d :: rest, [], 0, [], IsWhiteOrEndl⟩)).2.x.errs with
    | nil => exact absurd hes hbad
    | cons e es =>
      refine ⟨e, es, ?_⟩
      rw [Decode_of_parse_errs ops unm _ v (e :: es)]
      show ((parseValue (shiftFrom ⟨s ++ d :: rest, [], 0, [], IsWhiteOrEndl⟩)).2).x.Errs = _
      simp [Lexer.Errs, hes]

/-- C4, amended. For every buffer made of a text `s` that decodes alone without
an error and with nothing left over, followed by a text `t` that is not just
whitespace with at most one terminator in it, where `t` does not carry on a
number that `s` ends on, `Unmarshal` returns a non-nil error, whatever the
standard decode routine and the target are. -/
theorem Unmarshal_trailing_content {T : Type} (unm : Bridge T) (s t : List Char) (v r : T)
    (hs : Unmarshal ops unm s v = .ok (none, r)) (hj : numberJoins s t = false)
    (ht : BlankTrail t = false) :
    ∃ e w, Unmarshal ops unm (s ++ t) v = .ok (some e, w) := by
  have key : (∃ e es, ((NewDecoder ops (s ++ t)).Decode ops unm v).errs = some (e :: es)) ∨
      (((NewDecoder ops (s ++ t)).Decode ops unm v).errs = none ∧
        ((NewDecoder ops (s ++ t)).Decode ops unm v).dec.More ops = true) := by
    by_cases hb : Apart ⟨s, [], 0, [], IsWhiteOrEndl⟩ t
    · exact Decode_trailing unm s t v r hs hb ht
    · exact Or.inl (Decode_joined unm s t v r hs hj hb)
  unfold Unmarshal
  simp only []
  rcases key with ⟨e, es, h⟩ | ⟨h1, h2⟩
  · rw [h]
    exact ⟨_, _, rfl⟩
  · rw [h1]
    simp only [h2, if_true]
    exact ⟨_, _, rfl⟩

/-- C4 amended, at the buffers `"x";;`, `"x" y` and `1 2`: the texts `"x"` and
`1 ` decode alone, what follows is more than whitespace and one terminator, and
`Unmarshal` returns an error. -/
theorem Unmarshal_trailing_content_witness :
    (∃ e w, Unmarshal ops json.UnmarshalString ([dquote, 'x', dquote] ++ [';', ';'])
      ([] : List Char) = .ok (some e, w)) ∧
    (∃ e w, Unmarshal ops json.UnmarshalString ([dquote, 'x', dquote] ++ [' ', 'y'])
      ([] : List Char) = .ok (some e, w)) ∧
    (∃ e w, Unmarshal ops json.UnmarshalInt (['1', ' '] ++ ['2']) 0 = .ok (some e, w)) :=
  ⟨Unmarshal_trailing_content json.UnmarshalString [dquote, 'x', dquote] [';', ';'] [] ['x']
      (by rfl) (by decide) (by decide),
    Unmarshal_trailing_content json.UnmarshalString [dquote, 'x', dquote] [' ', 'y'] [] ['x']
      (by rfl) (by decide) (by decide),
    Unmarshal_trailing_content json.UnmarshalInt ['1', ' '] ['2'] 0 1
      (by rfl) (by decide) (by decide)⟩

end jsonx
